import Mathlib

/-!
# flow/serialize.h: binary serialization of FoundationDB

A shallow embedding of the archives of `flow/serialize.h` (the contiguous
`BinaryWriter`, the `ArenaReader` cursor, the version policies and the generic
`save`/`load` dispatch) together with the properties proved about them.

Conventions of the embedding.

* A byte is a natural number; a buffer is a list of bytes.  Pointers into a
  buffer (`begin`, `end`, `check`, the result of `writeBytes`) are offsets.
* Scalars are copied to and from memory in the little-endian layout of the
  hosts FoundationDB runs on (`bigEndian64` is a byte swap there).
* The counters of `BinaryWriter` are `int` in the source.  They are modelled as
  naturals with the overflow made explicit: when `size += s` exceeds `INT_MAX`
  the wrapped size is negative, the growth branch is skipped and the caller
  writes `s` bytes past the allocation; the model reports that outcome as
  `Error.undefined_behavior`.
* `ASSERT` failures are `Error.internal_error`.
* Declarations that live outside `serialize.h` (the validity predicate and the
  order of `ProtocolVersion`, `currentProtocolVersion`, `sizeof(ArenaBlock)`)
  are collected in `Externals` and every definition takes them as a parameter.
-/

namespace Flow

/-- Failure outcomes of the archives: a failed `ASSERT`, the
`incompatible_protocol_version` error thrown by `_IncludeVersion::read`, the
`std::length_error` of the standard containers, and undefined behaviour
(signed overflow followed by an out-of-bounds copy). -/
inductive Error where
  | internal_error
  | incompatible_protocol_version
  | length_error
  | undefined_behavior
deriving DecidableEq, Repr

/-- Largest value of the C++ type `int`. -/
abbrev INT_MAX : Nat := 2147483647

/-- The class `ProtocolVersion` of `flow/ProtocolVersion.h` as `serialize.h` uses
it in `scalar_traits<ProtocolVersion>`: it has the size of one `uint64_t`, is
built from one and gives it back as `versionWithFlags()`. -/
structure ProtocolVersion where
  versionWithFlags : Nat
deriving DecidableEq, Repr

/-- What `serialize.h` uses but does not declare: `ProtocolVersion::isValid`,
`operator>` on protocol versions, the constant `currentProtocolVersion`, the
value of a default-constructed `ProtocolVersion`, and `sizeof(ArenaBlock)`. -/
structure Externals where
  isValid : ProtocolVersion → Bool
  gt : ProtocolVersion → ProtocolVersion → Bool
  currentProtocolVersion : ProtocolVersion
  defaultProtocolVersion : ProtocolVersion
  sizeofArenaBlock : Nat

/-! ## Raw memory representation of scalars -/

/-- The `k` bytes of the object representation of the unsigned value `x`,
lowest byte first. -/
def leBytes : Nat → Nat → List Nat
  | 0, _ => []
  | k + 1, x => x % 256 :: leBytes k (x / 256)

/-- The unsigned value whose object representation is the given bytes. -/
def fromLE : List Nat → Nat
  | [] => 0
  | b :: bs => b + 256 * fromLE bs

/-- Conversion of an integer to a `w`-bit unsigned type (reduction modulo
`2^w`). -/
def toUnsigned (w : Nat) (x : Int) : Nat := (x % (2 : Int) ^ w).toNat

/-- Reading a `w`-bit pattern as a two's-complement signed value. -/
def toSigned (w : Nat) (n : Nat) : Int :=
  if n % 2 ^ w < 2 ^ (w - 1) then ((n % 2 ^ w : Nat) : Int) else ((n % 2 ^ w : Nat) : Int) - (2 : Int) ^ w

/-- The cast `(int)n` / `(int32_t)n` of a `size_t`. -/
def toInt32 (n : Nat) : Int := toSigned 32 n

/-- `memcpy(buf + p, bs, bs.length)` inside the buffer `buf`. -/
def storeAt (buf : List Nat) (p : Nat) (bs : List Nat) : List Nat :=
  buf.take p ++ bs ++ buf.drop (p + bs.length)

/-! ## BinaryWriter -/

/-- The fields of `class BinaryWriter`; `data` is the allocation of `allocated`
bytes (uninitialised bytes read as 0), the arena that owns it is not
modelled. -/
structure BinaryWriter where
  data : List Nat
  size : Nat
  allocated : Nat
  m_protocolVersion : ProtocolVersion
deriving DecidableEq, Repr

namespace BinaryWriter

def protocolVersion (w : BinaryWriter) : ProtocolVersion := w.m_protocolVersion

def setProtocolVersion (w : BinaryWriter) (pv : ProtocolVersion) : BinaryWriter :=
  { w with m_protocolVersion := pv }

def getLength (w : BinaryWriter) : Nat := w.size

/-- `toValue()`: the range `StringRef(data, size)`. -/
def toValue (w : BinaryWriter) : List Nat := w.data.take w.size

/-- `writeBytes(s)`: returns the writer after the call and the offset `p` of the
returned pointer.  An overflowing `size += s` ends in a copy past the
allocation and is reported as `undefined_behavior`.  `allocated*2` wraps to a
negative `int` above `INT_MAX`, so `std::max` then picks `size`.
`sizeof(ArenaBlock)` is far below 512, so the two differences do not wrap. -/
def writeBytes (ext : Externals) (w : BinaryWriter) (s : Nat) : Except Error (BinaryWriter × Nat) :=
  let p := w.size
  if INT_MAX < w.size + s then .error .undefined_behavior
  else
    let size := w.size + s
    if size > w.allocated then
      let allocated :=
        if size ≤ 512 - ext.sizeofArenaBlock then 512 - ext.sizeofArenaBlock
        else if size ≤ 4096 - ext.sizeofArenaBlock then 4096 - ext.sizeofArenaBlock
        else if w.allocated * 2 ≤ INT_MAX then max (w.allocated * 2) size
        else size
      let newData := w.data.take p ++ List.replicate (allocated - p) 0
      .ok ({ w with data := newData, size := size, allocated := allocated }, p)
    else .ok ({ w with size := size }, p)

/-- `serializeBytes(const void* data, int bytes)`.  A negative count reaches
`memcpy` as a huge `size_t`; a count above the source length reads past it. -/
def serializeBytes (ext : Externals) (w : BinaryWriter) (data : List Nat) (bytes : Int) :
    Except Error BinaryWriter :=
  if bytes < 0 ∨ (data.length : Int) < bytes then .error .undefined_behavior
  else
    match writeBytes ext w bytes.toNat with
    | .error e => .error e
    | .ok (w1, p) => .ok { w1 with data := storeAt w1.data p (data.take bytes.toNat) }

/-- `serializeBytes(StringRef bytes)`. -/
def serializeBytesRef (ext : Externals) (w : BinaryWriter) (bytes : List Nat) : Except Error BinaryWriter :=
  serializeBytes ext w bytes (bytes.length : Int)

/-- `serializeBinaryItem(t)`: `*(T*)writeBytes(sizeof(T)) = t`, with `raw` the
object representation of `t` (`sizeof(T)` bytes). -/
def serializeBinaryItem (ext : Externals) (w : BinaryWriter) (raw : List Nat) : Except Error BinaryWriter :=
  match writeBytes ext w raw.length with
  | .error e => .error e
  | .ok (w1, p) => .ok { w1 with data := storeAt w1.data p raw }

/-- The representation invariant of a writer: the allocation has `allocated`
bytes and `size` does not exceed it. -/
def wf (w : BinaryWriter) : Prop := w.size ≤ w.allocated ∧ w.data.length = w.allocated

/-- `w1` is `w` with the bytes `bs` appended and the same ambient version. -/
def Appends (w w1 : BinaryWriter) (bs : List Nat) : Prop :=
  w1.wf ∧ w1.toValue = w.toValue ++ bs ∧ w1.m_protocolVersion = w.m_protocolVersion

end BinaryWriter

/-! ## ArenaReader -/

/-- The fields of `class ArenaReader`: `begin` and `check` are offsets into
`input`, `end` is the offset `input.length` fixed by the constructor, the arena
`m_pool` is not modelled. -/
structure ArenaReader where
  input : List Nat
  begin : Nat
  check : Option Nat
  m_protocolVersion : ProtocolVersion
deriving DecidableEq, Repr

namespace ArenaReader

def end_ (r : ArenaReader) : Nat := r.input.length

def protocolVersion (r : ArenaReader) : ProtocolVersion := r.m_protocolVersion

def setProtocolVersion (r : ArenaReader) (pv : ProtocolVersion) : ArenaReader :=
  { r with m_protocolVersion := pv }

def empty (r : ArenaReader) : Bool := r.begin == r.end_

/-- `readBytes(bytes)`: returns the `bytes` bytes at the old cursor and the
advanced reader.  The callers modelled here pass `sizeof(T)` or the length of a
resized string, never a negative count. -/
def readBytes (r : ArenaReader) (bytes : Nat) : Except Error (List Nat × ArenaReader) :=
  let b := r.begin
  let e := b + bytes
  if e ≤ r.end_ then .ok ((r.input.drop b).take bytes, { r with begin := e })
  else .error .internal_error

/-- `serializeBytes(data, bytes)`: `memcpy(data, readBytes(bytes), bytes)`. -/
def serializeBytes (r : ArenaReader) (bytes : Nat) : Except Error (List Nat × ArenaReader) :=
  r.readBytes bytes

/-- `serializeBinaryItem(t)`: `t = *(T*)readBytes(sizeof(T))`; returns the object
representation read. -/
def serializeBinaryItem (r : ArenaReader) (sizeofT : Nat) : Except Error (List Nat × ArenaReader) :=
  r.readBytes sizeofT

/-- The cursor of a reader lies within its input (`begin <= end`). -/
def wf (r : ArenaReader) : Prop := r.begin ≤ r.end_

/-- `r1` is `r` with the cursor moved `n` bytes forward, same input and same
ambient version. -/
def Consumes (r r1 : ArenaReader) (n : Nat) : Prop :=
  r1.input = r.input ∧ r1.begin = r.begin + n ∧ r1.m_protocolVersion = r.m_protocolVersion

end ArenaReader

/-! ## Generic dispatch -/

/-- A type on the `BINARY_SERIALIZABLE` list: its `sizeof` and its object
representation. -/
structure BinarySerializable (T : Type) where
  sizeOf : Nat
  toRaw : T → List Nat
  ofRaw : List Nat → T

/-- `uint8_t`. -/
def uint8_t : BinarySerializable (Fin 256) :=
  { sizeOf := 1, toRaw := fun x => leBytes 1 x.val, ofRaw := fun bs => Fin.ofNat (fromLE bs) }

/-- `uint32_t`, values as naturals below `2^32`. -/
def uint32_t : BinarySerializable Nat :=
  { sizeOf := 4, toRaw := fun x => leBytes 4 x, ofRaw := fun bs => fromLE bs % 2 ^ 32 }

/-- `int32_t` (and `int`), values as integers. -/
def int32_t : BinarySerializable Int :=
  { sizeOf := 4, toRaw := fun x => leBytes 4 (toUnsigned 32 x), ofRaw := fun bs => toSigned 32 (fromLE bs) }

/-- `ProtocolVersion`: the `uint64_t` it wraps. -/
def protocolVersion_t : BinarySerializable ProtocolVersion :=
  { sizeOf := 8, toRaw := fun v => leBytes 8 v.versionWithFlags, ofRaw := fun bs => ⟨fromLE bs⟩ }

/-- The customization point `save`/`load` of a type `T` at the archives
`BinaryWriter` and `ArenaReader`; `init` is the value-initialised `T()`, `load`
receives the current content of its target. -/
structure Serializer (T : Type) where
  init : T
  save : BinaryWriter → T → Except Error BinaryWriter
  load : ArenaReader → T → Except Error (T × ArenaReader)

/-- `Serializer<Archive, T>` for binary-serializable `T`:
`ar.serializeBinaryItem(t)`, without a version check. -/
def binarySerializer (ext : Externals) {T : Type} (B : BinarySerializable T) (init : T) : Serializer T :=
  { init := init
    save := fun ar t => ar.serializeBinaryItem ext (B.toRaw t)
    load := fun ar _ =>
      match ar.serializeBinaryItem B.sizeOf with
      | .error e => .error e
      | .ok (raw, ar1) => .ok (B.ofRaw raw, ar1) }

/-- `save(ar, const std::string& value)`. -/
def save_string (ext : Externals) (ar : BinaryWriter) (value : List Nat) : Except Error BinaryWriter := do
  let ar1 ← (binarySerializer ext int32_t 0).save ar (toInt32 value.length)
  let ar2 ← ar1.serializeBytes ext value (toInt32 value.length)
  if ext.isValid ar2.protocolVersion then pure ar2 else throw .internal_error

/-- `load(ar, std::string& value)`; `value.resize(length)` throws
`std::length_error` for a negative `length` (converted to a `size_t` above
`max_size()`). -/
def load_string (ext : Externals) (ar : ArenaReader) (_value : List Nat) :
    Except Error (List Nat × ArenaReader) := do
  let (length, ar1) ← (binarySerializer ext int32_t 0).load ar 0
  if length < 0 then throw .length_error
  let (value, ar2) ← ar1.serializeBytes length.toNat
  if ext.isValid ar2.protocolVersion then pure (value, ar2) else throw .internal_error

/-- The dispatch entry of `std::string`. -/
def stringSerializer (ext : Externals) : Serializer (List Nat) :=
  { init := [], save := save_string ext, load := load_string ext }

/-- `Serializer<Archive, std::pair<T1,T2>>`: `serializer(ar, p.first, p.second)`. -/
def pairSerializer {T1 T2 : Type} (S1 : Serializer T1) (S2 : Serializer T2) : Serializer (T1 × T2) :=
  { init := (S1.init, S2.init)
    save := fun ar p => do
      let ar1 ← S1.save ar p.1
      S2.save ar1 p.2
    load := fun ar p => do
      let (a, ar1) ← S1.load ar p.1
      let (b, ar2) ← S2.load ar1 p.2
      pure ((a, b), ar2) }

/-- The loop `for (it = value.begin(); it != value.end(); ++it) ar << *it`. -/
def saveEach {T : Type} (S : Serializer T) : BinaryWriter → List T → Except Error BinaryWriter
  | ar, [] => .ok ar
  | ar, x :: xs =>
    match S.save ar x with
    | .error e => .error e
    | .ok ar1 => saveEach S ar1 xs

/-- `save(ar, const std::vector<T>& value)`. -/
def save_vector (ext : Externals) {T : Type} (S : Serializer T) (ar : BinaryWriter) (value : List T) :
    Except Error BinaryWriter := do
  let ar1 ← (binarySerializer ext int32_t 0).save ar (toInt32 value.length)
  let ar2 ← saveEach S ar1 value
  if ext.isValid ar2.protocolVersion then pure ar2 else throw .internal_error

/-- The loop `for (i = 0; i < s; i++) { value.push_back(T()); ar >> value[i]; }`
with `n` iterations left and `value` the vector built so far. -/
def loadEach {T : Type} (S : Serializer T) : Nat → ArenaReader → List T → Except Error (List T × ArenaReader)
  | 0, ar, value => .ok (value, ar)
  | n + 1, ar, value =>
    match S.load ar S.init with
    | .error e => .error e
    | .ok (x, ar1) => loadEach S n ar1 (value ++ [x])

/-- `load(ar, std::vector<T>& value)`; `value.reserve(s)` throws
`std::length_error` for a negative `s` (converted to a `size_t` above
`max_size()`); running out of memory is not modelled. -/
def load_vector (ext : Externals) {T : Type} (S : Serializer T) (ar : ArenaReader) (_value : List T) :
    Except Error (List T × ArenaReader) := do
  let (s, ar1) ← (binarySerializer ext int32_t 0).load ar 0
  if s < 0 then throw .length_error
  let (value, ar2) ← loadEach S s.toNat ar1 []
  if ext.isValid ar2.protocolVersion then pure (value, ar2) else throw .internal_error

/-- The dispatch entry of `std::vector<T>`. -/
def vectorSerializer (ext : Externals) {T : Type} (S : Serializer T) : Serializer (List T) :=
  { init := [], save := save_vector ext S, load := load_vector ext S }

/-! ## Version policies and constructors -/

/-- `struct _IncludeVersion`. -/
structure _IncludeVersion where
  v : ProtocolVersion
deriving DecidableEq, Repr

/-- `struct _AssumeVersion`; the body of its constructor is not part of
`serialize.h`. -/
structure _AssumeVersion where
  v : ProtocolVersion
deriving DecidableEq, Repr

/-- The `VersionOptions` template argument of the archive constructors. -/
inductive VersionOptions where
  | includeVersion (vo : _IncludeVersion)
  | assumeVersion (vo : _AssumeVersion)
  | unversioned
deriving DecidableEq, Repr

/-- `IncludeVersion(defaultVersion)`: the constructor asserts validity. -/
def IncludeVersion (ext : Externals) (defaultVersion : ProtocolVersion) : Except Error VersionOptions :=
  if ext.isValid defaultVersion then .ok (.includeVersion ⟨defaultVersion⟩) else .error .internal_error

/-- `AssumeVersion(version)`. -/
def AssumeVersion (version : ProtocolVersion) : VersionOptions := .assumeVersion ⟨version⟩

/-- `Unversioned()`. -/
def Unversioned : VersionOptions := .unversioned

/-- `_IncludeVersion::write`. -/
def _IncludeVersion.write (ext : Externals) (vo : _IncludeVersion) (ar : BinaryWriter) :
    Except Error BinaryWriter :=
  (binarySerializer ext protocolVersion_t ext.defaultProtocolVersion).save (ar.setProtocolVersion vo.v) vo.v

/-- `_IncludeVersion::read`. -/
def _IncludeVersion.read (ext : Externals) (vo : _IncludeVersion) (ar : ArenaReader) :
    Except Error ArenaReader := do
  let (v, ar1) ← (binarySerializer ext protocolVersion_t ext.defaultProtocolVersion).load ar vo.v
  if !ext.isValid v then throw .incompatible_protocol_version
  if ext.gt v ext.currentProtocolVersion then throw .incompatible_protocol_version
  pure (ar1.setProtocolVersion v)

/-- `vo.write(ar)` for each policy. -/
def VersionOptions.write (ext : Externals) (vo : VersionOptions) (ar : BinaryWriter) :
    Except Error BinaryWriter :=
  match vo with
  | .includeVersion i => i.write ext ar
  | .assumeVersion a => .ok (ar.setProtocolVersion a.v)
  | .unversioned => .ok ar

/-- `vo.read(ar)` for each policy. -/
def VersionOptions.read (ext : Externals) (vo : VersionOptions) (ar : ArenaReader) :
    Except Error ArenaReader :=
  match vo with
  | .includeVersion i => i.read ext ar
  | .assumeVersion a => .ok (ar.setProtocolVersion a.v)
  | .unversioned => .ok ar

/-- `BinaryWriter(VersionOptions vo)`. -/
def BinaryWriter.new (ext : Externals) (vo : VersionOptions) : Except Error BinaryWriter :=
  vo.write ext { data := [], size := 0, allocated := 0, m_protocolVersion := ext.defaultProtocolVersion }

/-- `ArenaReader(arena, input, vo)`. -/
def ArenaReader.new (ext : Externals) (input : List Nat) (vo : VersionOptions) : Except Error ArenaReader :=
  vo.read ext { input := input, begin := 0, check := none, m_protocolVersion := ext.defaultProtocolVersion }

/-- The static `BinaryWriter::toValue(t, vo)`. -/
def BinaryWriter.toValueOf (ext : Externals) {T : Type} (S : Serializer T) (t : T) (vo : VersionOptions) :
    Except Error (List Nat) := do
  let wr ← BinaryWriter.new ext vo
  let wr1 ← S.save wr t
  pure wr1.toValue

/-- Reading one value off a fresh reader, as `BinaryReader::fromStringRef` does:
construct the reader over `input`, then `r >> t`. -/
def ArenaReader.readValue (ext : Externals) {T : Type} (S : Serializer T) (input : List Nat)
    (vo : VersionOptions) : Except Error (T × ArenaReader) := do
  let r ← ArenaReader.new ext input vo
  S.load r S.init

/-! ## Ordered-key (tuple) encoding of the BinaryWriter -/

/-- The loop of `bytesNeeded`: `for (; n < 8 && (val >> (n*8)); ++n);`.  The
first argument bounds the number of iterations; seven are enough from `n = 1`
because the loop stops at `n = 8`. -/
def bytesNeededLoop (val : Nat) : Nat → Nat → Nat
  | 0, n => n
  | k + 1, n => if n < 8 ∧ val >>> (n * 8) ≠ 0 then bytesNeededLoop val k (n + 1) else n

/-- `BinaryWriter::bytesNeeded(uint64_t val)`. -/
def bytesNeeded (val : Nat) : Nat := bytesNeededLoop val 7 1

/-- Modelled from the spec: `bigEndian64` is declared in `flow/Platform.h`, not in
`serialize.h`; the specification asks for the big-endian magnitude, so on the
little-endian host this is the `uint64_t` whose bytes in memory are those of
`x`, highest first. -/
def bigEndian64 (x : Nat) : Nat := fromLE (leBytes 8 x).reverse

/-- The bytes copied by `memcpy((uint8_t*)p+1, (uint8_t*)&x+(8-n), n)`. -/
def lastBytes (x : Nat) (n : Nat) : List Nat := ((leBytes 8 x).drop (8 - n)).take n

/-- Modelled from the spec: `StringRef::substr(start, size)` is declared in
`flow/Arena.h`, not in `serialize.h`; it is the range of `size` bytes that
starts at offset `start`. -/
def substr (str : List Nat) (start size : Nat) : List Nat := (str.drop start).take size

namespace BinaryWriter

/-- `serializeAsTuple(bool t)`. -/
def serializeAsTuple_bool (ext : Externals) (w : BinaryWriter) (t : Bool) : Except Error BinaryWriter :=
  if !t then
    match writeBytes ext w 1 with
    | .error e => .error e
    | .ok (w1, p) => .ok { w1 with data := storeAt w1.data p [20] }
  else
    match writeBytes ext w 2 with
    | .error e => .error e
    | .ok (w1, p) => .ok { w1 with data := storeAt w1.data p [21, 1] }

/-- `serializeAsTuple(uint64_t t)`. -/
def serializeAsTuple_uint64 (ext : Externals) (w : BinaryWriter) (t : Nat) : Except Error BinaryWriter :=
  if t = 0 then
    match writeBytes ext w 1 with
    | .error e => .error e
    | .ok (w1, p) => .ok { w1 with data := storeAt w1.data p [20] }
  else
    let n := bytesNeeded t
    match writeBytes ext w (n + 1) with
    | .error e => .error e
    | .ok (w1, p) =>
      let x := bigEndian64 t
      .ok { w1 with data := storeAt w1.data p ((20 + n) % 256 :: lastBytes x n) }

/-- `serializeAsTuple(int64_t t)`; `-t` and `t-1` are taken with wrap-around
and converted to `uint64_t`. -/
def serializeAsTuple_int64 (ext : Externals) (w : BinaryWriter) (t : Int) : Except Error BinaryWriter :=
  if t = 0 then
    match writeBytes ext w 1 with
    | .error e => .error e
    | .ok (w1, p) => .ok { w1 with data := storeAt w1.data p [20] }
  else if t > 0 then
    let n := bytesNeeded (toUnsigned 64 t)
    match writeBytes ext w (n + 1) with
    | .error e => .error e
    | .ok (w1, p) =>
      let x := bigEndian64 (toUnsigned 64 t)
      .ok { w1 with data := storeAt w1.data p ((20 + n) % 256 :: lastBytes x n) }
  else
    let n := bytesNeeded (toUnsigned 64 (-t))
    match writeBytes ext w (n + 1) with
    | .error e => .error e
    | .ok (w1, p) =>
      let x := bigEndian64 (toUnsigned 64 (t - 1))
      .ok { w1 with data := storeAt w1.data p ((20 - n) % 256 :: lastBytes x n) }

/-- The loop of `serializeAsTuple(StringRef)` with `k` iterations left; returns
the writer and `last_pos`. -/
def serializeAsTupleLoop (ext : Externals) (str : List Nat) :
    Nat → Nat → Nat → BinaryWriter → Except Error (BinaryWriter × Nat)
  | 0, _, last_pos, w => .ok (w, last_pos)
  | k + 1, pos, last_pos, w =>
    if str[pos]? = some 0 then
      match serializeBytesRef ext w (substr str last_pos (pos - last_pos)) with
      | .error e => .error e
      | .ok w1 =>
        match serializeBytesRef ext w1 [0, 255] with
        | .error e => .error e
        | .ok w2 => serializeAsTupleLoop ext str k (pos + 1) (pos + 1) w2
    else serializeAsTupleLoop ext str k (pos + 1) last_pos w

/-- `serializeAsTuple(StringRef str)`; `LiteralStringRef("...")` (a macro of
`flow/Arena.h`) is the bytes of the literal without its terminating NUL. -/
def serializeAsTuple_StringRef (ext : Externals) (w : BinaryWriter) (str : List Nat) :
    Except Error BinaryWriter :=
  match serializeBytesRef ext w [1] with
  | .error e => .error e
  | .ok w0 =>
    match serializeAsTupleLoop ext str str.length 0 0 w0 with
    | .error e => .error e
    | .ok (w1, last_pos) =>
      match serializeBytesRef ext w1 (substr str last_pos (str.length - last_pos)) with
      | .error e => .error e
      | .ok w2 => serializeBytesRef ext w2 [0]

/-- The bytes a call appended: what `toValue()` holds past the old size. -/
def appended (w w1 : BinaryWriter) : List Nat := w1.toValue.drop w.size

end BinaryWriter

/-! ## Vocabulary of the statements -/

/-- Unsigned lexicographic order on byte strings (the order of `memcmp`, a
proper prefix being smaller). -/
def bytesLt : List Nat → List Nat → Prop
  | _, [] => False
  | [], _ :: _ => True
  | a :: as, b :: bs => a < b ∨ (a = b ∧ bytesLt as bs)

instance bytesLt.decidable : (a b : List Nat) → Decidable (bytesLt a b)
  | _, [] => isFalse (by cases ‹List Nat› <;> simp [bytesLt])
  | [], _ :: _ => isTrue (by simp [bytesLt])
  | a :: as, b :: bs =>
    have := bytesLt.decidable as bs
    decidable_of_iff (a < b ∨ (a = b ∧ bytesLt as bs)) (by simp [bytesLt])

/-- NUL escaping: each byte `0x00` becomes `0x00 0xFF`, every other byte is
kept. -/
def nulEscape : List Nat → List Nat
  | [] => []
  | b :: bs => if b = 0 then 0 :: 255 :: nulEscape bs else b :: nulEscape bs

/-- The `k` bytes of the unsigned value `x`, highest byte first. -/
def beBytes (k x : Nat) : List Nat := (leBytes k x).reverse

/-- The least `k` in `1..8` with `m < 2^(8k)` (8 if there is none). -/
def minimalWidth (m : Nat) : Nat :=
  if m < 2 ^ 8 then 1 else if m < 2 ^ 16 then 2 else if m < 2 ^ 24 then 3 else if m < 2 ^ 32 then 4
  else if m < 2 ^ 40 then 5 else if m < 2 ^ 48 then 6 else if m < 2 ^ 56 then 7 else 8

/-- A type round-trips at the ambient version `pv` with encoding `enc` on the
values satisfying `D`: on a well-formed writer at `pv` with room for `enc x`,
`save` appends exactly `enc x`; on a reader at `pv` whose unread input starts
with `enc x`, `load` returns `x` whatever its target held and consumes exactly
those bytes. -/
def RoundTripsOn {T : Type} (pv : ProtocolVersion) (S : Serializer T) (enc : T → List Nat)
    (D : T → Prop) : Prop :=
  (∀ (w : BinaryWriter) (x : T), D x → w.wf → w.m_protocolVersion = pv →
      w.size + (enc x).length ≤ INT_MAX → ∃ w1, S.save w x = .ok w1 ∧ w.Appends w1 (enc x)) ∧
  (∀ (r : ArenaReader) (x x0 : T) (rest : List Nat), D x → r.wf → r.m_protocolVersion = pv →
      r.input.drop r.begin = enc x ++ rest →
      ∃ r1, S.load r x0 = .ok (x, r1) ∧ r.Consumes r1 (enc x).length)

/-- The encoding of a string: 4-byte length, then the bytes. -/
def encString (s : List Nat) : List Nat := leBytes 4 s.length ++ s

/-- The concatenation of the encodings of the elements. -/
def encEach {T : Type} (enc : T → List Nat) : List T → List Nat
  | [] => []
  | x :: xs => enc x ++ encEach enc xs

/-- The encoding of a vector: 4-byte count, then the elements in order. -/
def encVector {T : Type} (enc : T → List Nat) (v : List T) : List Nat :=
  leBytes 4 v.length ++ encEach enc v

/-- A concrete choice of the external declarations, used to evaluate the
archives on explicit inputs: versions compare by their low 60 bits, are valid
from `0x0FDB00A200060001` on, and the current one is `0x0FDB00B061070001`. -/
def exampleExternals : Externals :=
  { isValid := fun v => decide (0x0FDB00A200060001 ≤ v.versionWithFlags % 2 ^ 60)
    gt := fun a b => decide (b.versionWithFlags % 2 ^ 60 < a.versionWithFlags % 2 ^ 60)
    currentProtocolVersion := ⟨0x0FDB00B061070001⟩
    defaultProtocolVersion := ⟨0⟩
    sizeofArenaBlock := 32 }

/-- The writer built by `BinaryWriter(AssumeVersion(currentProtocolVersion))`
under `exampleExternals`. -/
def exampleWriter : BinaryWriter :=
  { data := [], size := 0, allocated := 0, m_protocolVersion := exampleExternals.currentProtocolVersion }

/-- The reader built by `ArenaReader(arena, input, AssumeVersion(currentProtocolVersion))`
under `exampleExternals`. -/
def exampleReader (input : List Nat) : ArenaReader :=
  { input := input, begin := 0, check := none, m_protocolVersion := exampleExternals.currentProtocolVersion }

/-- The dispatch entry of `std::pair<uint32_t, std::string>`. -/
def pairUint32String (ext : Externals) : Serializer (Nat × List Nat) :=
  pairSerializer (binarySerializer ext uint32_t 0) (stringSerializer ext)

/-- The ordered-key encoding of an integer as the specification words it, with
`k` the minimal width of `|t|`: `0x14` for zero, `0x14 + k` and the `k`-byte
big-endian `t` for positive `t`, `0x14 - k` and the `k`-byte big-endian
`2^(8k) - 1 + t` for negative `t`. -/
def tupleIntSpec (t : Int) : List Nat :=
  if t = 0 then [0x14]
  else if t > 0 then
    (0x14 + minimalWidth t.natAbs) :: beBytes (minimalWidth t.natAbs) t.toNat
  else
    (0x14 - minimalWidth t.natAbs) ::
      beBytes (minimalWidth t.natAbs) ((2 : Int) ^ (8 * minimalWidth t.natAbs) - 1 + t).toNat

/-- The ordered-key encoding of a byte string as the specification words it:
the NUL-escaped content terminated by a bare `0x00`. -/
def tupleStringSpec (s : List Nat) : List Nat := nulEscape s ++ [0]

/-! ## Checkpoint and rewind, BinaryReader -/

namespace ArenaReader

/-- `peekBytes(bytes)`: the bytes at the cursor, which does not move. -/
def peekBytes (r : ArenaReader) (bytes : Nat) : Except Error (List Nat) :=
  if r.begin + bytes ≤ r.end_ then .ok ((r.input.drop r.begin).take bytes)
  else .error .internal_error

/-- `checkpoint()`: `check = begin`.  The input is taken to start at a non-null
address, so the stored pointer is not `NULL`. -/
def checkpoint (r : ArenaReader) : ArenaReader := { r with check := some r.begin }

/-- `rewind()`: `ASSERT(check != NULL); begin = check; check = NULL`. -/
def rewind (r : ArenaReader) : Except Error ArenaReader :=
  match r.check with
  | none => .error .internal_error
  | some c => .ok { r with begin := c, check := none }

/-- A run of `readBytes` calls with the given byte counts; returns the chunks
read and the reader after the last call. -/
def readAll : ArenaReader → List Nat → Except Error (List (List Nat) × ArenaReader)
  | r, [] => .ok ([], r)
  | r, n :: ns =>
    match r.readBytes n with
    | .error e => .error e
    | .ok (bs, r1) =>
      match readAll r1 ns with
      | .error e => .error e
      | .ok (bss, r2) => .ok (bs :: bss, r2)

end ArenaReader

/-- The fields of `class BinaryReader`, laid out as those of `ArenaReader`. -/
structure BinaryReader where
  input : List Nat
  begin : Nat
  check : Option Nat
  m_protocolVersion : ProtocolVersion
deriving DecidableEq, Repr

namespace BinaryReader

def end_ (r : BinaryReader) : Nat := r.input.length

def protocolVersion (r : BinaryReader) : ProtocolVersion := r.m_protocolVersion

def setProtocolVersion (r : BinaryReader) (pv : ProtocolVersion) : BinaryReader :=
  { r with m_protocolVersion := pv }

def empty (r : BinaryReader) : Bool := r.begin == r.end_

/-- Modelled from the spec: `BinaryReader::readBytes` is only declared in
`serialize.h`; raw-byte reads bounds-check against the end and fail (assertion)
if it is exceeded, otherwise return the bytes at the cursor and advance it. -/
def readBytes (r : BinaryReader) (bytes : Nat) : Except Error (List Nat × BinaryReader) :=
  if r.begin + bytes ≤ r.end_ then
    .ok ((r.input.drop r.begin).take bytes, { r with begin := r.begin + bytes })
  else .error .internal_error

/-- `serializeBinaryItem(t)`: `t = *(T*)readBytes(sizeof(T))`. -/
def serializeBinaryItem (r : BinaryReader) (sizeofT : Nat) : Except Error (List Nat × BinaryReader) :=
  r.readBytes sizeofT

/-- `checkpoint()`: `check = begin`.  As for `ArenaReader`, the input is taken to
start at a non-null address, so the stored pointer is not `NULL`. -/
def checkpoint (r : BinaryReader) : BinaryReader := { r with check := some r.begin }

/-- `rewind()`: `ASSERT(check != nullptr); begin = check; check = nullptr`. -/
def rewind (r : BinaryReader) : Except Error BinaryReader :=
  match r.check with
  | none => .error .internal_error
  | some c => .ok { r with begin := c, check := none }

/-- `vo.read(*this)` on a `BinaryReader`, as `VersionOptions.read` on an
`ArenaReader`. -/
def readVersion (ext : Externals) (vo : VersionOptions) (ar : BinaryReader) : Except Error BinaryReader :=
  match vo with
  | .includeVersion _ =>
    match ar.serializeBinaryItem protocolVersion_t.sizeOf with
    | .error e => .error e
    | .ok (raw, ar1) =>
      if !ext.isValid (protocolVersion_t.ofRaw raw) then .error .incompatible_protocol_version
      else if ext.gt (protocolVersion_t.ofRaw raw) ext.currentProtocolVersion then
        .error .incompatible_protocol_version
      else .ok (ar1.setProtocolVersion (protocolVersion_t.ofRaw raw))
  | .assumeVersion a => .ok (ar.setProtocolVersion a.v)
  | .unversioned => .ok ar

/-- `BinaryReader(const void* data, int length, VersionOptions vo)`: the one
constructor that sets `check = nullptr`. -/
def new (ext : Externals) (data : List Nat) (vo : VersionOptions) : Except Error BinaryReader :=
  readVersion ext vo
    { input := data, begin := 0, check := none, m_protocolVersion := ext.defaultProtocolVersion }

/-- `BinaryReader(const StringRef& s, VersionOptions vo)`: sets `begin` and `end`
and calls `vo.read`, but never assigns `check`; `uninitialized` is the
indeterminate content of that member. -/
def ofStringRef (ext : Externals) (s : List Nat) (vo : VersionOptions) (uninitialized : Option Nat) :
    Except Error BinaryReader :=
  readVersion ext vo
    { input := s, begin := 0, check := uninitialized, m_protocolVersion := ext.defaultProtocolVersion }

/-- `BinaryReader(const std::string& v, VersionOptions vo)`: as the `StringRef`
constructor, `check` is never assigned. -/
def ofString (ext : Externals) (v : List Nat) (vo : VersionOptions) (uninitialized : Option Nat) :
    Except Error BinaryReader :=
  readVersion ext vo
    { input := v, begin := 0, check := uninitialized, m_protocolVersion := ext.defaultProtocolVersion }

end BinaryReader

/-- The writer reached by one write of `2^30` bytes into a fresh
`BinaryWriter` under `exampleExternals`: `std::max(0*2, size)` sets the
allocation to exactly `2^30`. -/
def exampleFullWriter : BinaryWriter :=
  { data := List.replicate 1073741824 0, size := 1073741824, allocated := 1073741824,
    m_protocolVersion := exampleExternals.currentProtocolVersion }

/-! ## Packet buffers and the PacketWriter -/

/-- The fields of `struct PacketBuffer` (with those of `SendBuffer`); the `next`
link is the order of the chain the buffer sits in. -/
structure PacketBuffer where
  bytes_written : Nat
  bytes_sent : Nat
  data : List Nat
  reference_count : Nat
deriving DecidableEq, Repr

namespace PacketBuffer

/-- `enum { DATA_SIZE = 4096 - 28 }`. -/
def DATA_SIZE : Nat := 4096 - 28

/-- `PacketBuffer()`: one reference, nothing written or sent (uninitialised data
reads as 0). -/
def new : PacketBuffer :=
  { bytes_written := 0, bytes_sent := 0, data := List.replicate DATA_SIZE 0, reference_count := 1 }

/-- `bytes_unwritten()`: `DATA_SIZE - bytes_written`, an `int`. -/
def bytes_unwritten (b : PacketBuffer) : Int := (DATA_SIZE : Int) - (b.bytes_written : Int)

/-- The bytes written into a buffer: the first `bytes_written` bytes of `data`. -/
def payload (b : PacketBuffer) : List Nat := b.data.take b.bytes_written

end PacketBuffer

/-- One entry of the `ReliablePacket::cont` chain, reduced to the fields
`PacketWriter` is responsible for: the buffer it refers to (its position in the
chain) and the span `begin..end` inside it. -/
structure ReliablePacket where
  buffer : Nat
  begin : Nat
  end_ : Nat
deriving DecidableEq, Repr

/-- The fields of `struct PacketWriter`.  `buffer` is the tail the writer
appends to, `previous` the buffers linked in front of it (head first),
`reliable` the `cont` chain whose last entry the writer points to, or `none`
for an unreliable packet. -/
structure PacketWriter where
  previous : List PacketBuffer
  buffer : PacketBuffer
  reliable : Option (List ReliablePacket)
  length : Int
  m_protocolVersion : ProtocolVersion
deriving DecidableEq, Repr

namespace PacketWriter

def protocolVersion (p : PacketWriter) : ProtocolVersion := p.m_protocolVersion

def setProtocolVersion (p : PacketWriter) (pv : ProtocolVersion) : PacketWriter :=
  { p with m_protocolVersion := pv }

/-- `size()`. -/
def size (p : PacketWriter) : Int := p.length

/-- The chain from its head to the tail buffer. -/
def buffers (p : PacketWriter) : List PacketBuffer := p.previous ++ [p.buffer]

/-- Modelled from the spec: `PacketWriter::init` is only declared in
`serialize.h`; the writer starts appending into the given tail buffer with a
running total of zero, and a reliable handle, when present, records where the
packet begins.  The member `m_protocolVersion` is not touched and is passed
through. -/
def init (m_protocolVersion : ProtocolVersion) (buf : PacketBuffer) (reliable : Bool) : PacketWriter :=
  { previous := []
    buffer := buf
    reliable := if reliable then some [{ buffer := 0, begin := buf.bytes_written, end_ := buf.bytes_written }]
                else none
    length := 0
    m_protocolVersion := m_protocolVersion }

/-- `PacketWriter(buf, reliable, vo)`: `init(buf, reliable); vo.read(*this)`.
Only `Unversioned()` (`none`) and `AssumeVersion(v)` instantiate, since
`_IncludeVersion::read` needs a reader; the member `m_protocolVersion` starts
default-constructed. -/
def new (ext : Externals) (buf : PacketBuffer) (reliable : Bool) (vo : Option _AssumeVersion) :
    PacketWriter :=
  match vo with
  | none => init ext.defaultProtocolVersion buf reliable
  | some a => (init ext.defaultProtocolVersion buf reliable).setProtocolVersion a.v

/-- Modelled from the spec: `PacketWriter::nextBuffer` is only declared in
`serialize.h`; a new buffer is allocated and linked behind the tail and becomes
the tail, the running total takes in the bytes of the buffer left behind, and a
reliable handle, when present, closes its span there and opens one in the new
buffer. -/
def nextBuffer (p : PacketWriter) : PacketWriter :=
  { p with
    previous := p.previous ++ [p.buffer]
    buffer := PacketBuffer.new
    length := p.length + (p.buffer.bytes_written : Int)
    reliable := p.reliable.map (fun chain =>
      (chain.dropLast ++ (chain.getLast?.map
        (fun r => { r with end_ := p.buffer.bytes_written })).toList) ++
      [{ buffer := p.previous.length + 1, begin := 0, end_ := 0 }]) }

/-- The copy `memcpy(buffer->data + buffer->bytes_written, data, b);
buffer->bytes_written += b` into the tail. -/
def writeTail (p : PacketWriter) (bs : List Nat) : PacketWriter :=
  { p with buffer := { p.buffer with
      data := storeAt p.buffer.data p.buffer.bytes_written bs
      bytes_written := p.buffer.bytes_written + bs.length } }

/-- The loop of `serializeBytesAcrossBoundary` with a bound on its iterations:
write what fits into the tail, stop when nothing is left, otherwise take the
next buffer and go on with the remainder. -/
def acrossBoundaryLoop : Nat → PacketWriter → List Nat → Except Error PacketWriter
  | 0, _, _ => .error .internal_error
  | fuel + 1, p, data =>
    let b := min data.length p.buffer.bytes_unwritten.toNat
    let p1 := p.writeTail (data.take b)
    if data.length - b = 0 then .ok p1
    else acrossBoundaryLoop fuel p1.nextBuffer (data.drop b)

/-- Modelled from the spec: `PacketWriter::serializeBytesAcrossBoundary` is only
declared in `serialize.h`; a write that would overflow the remaining tail space
is split across a boundary: a new buffer is allocated and linked, and the
remainder is written into it, repeating until the value is fully placed.  Every
round after the first places at least one byte, so `length + 1` rounds are
enough. -/
def serializeBytesAcrossBoundary (p : PacketWriter) (data : List Nat) : Except Error PacketWriter :=
  acrossBoundaryLoop (data.length + 1) p data

/-- `serializeBytes(const void* data, int bytes)`.  A negative count reaches
`memcpy` as a huge `size_t`; a count above the source length reads past it. -/
def serializeBytes (p : PacketWriter) (data : List Nat) (bytes : Int) : Except Error PacketWriter :=
  if bytes < 0 ∨ (data.length : Int) < bytes then .error .undefined_behavior
  else if bytes ≤ p.buffer.bytes_unwritten then .ok (p.writeTail (data.take bytes.toNat))
  else serializeBytesAcrossBoundary p (data.take bytes.toNat)

/-- `serializeBytes(StringRef bytes)`. -/
def serializeBytesRef (p : PacketWriter) (bytes : List Nat) : Except Error PacketWriter :=
  serializeBytes p bytes (bytes.length : Int)

/-- `serializeBinaryItem(t)` with `raw` the object representation of `t`; as
`bytes_written` never exceeds `DATA_SIZE`, the comparison of `sizeof(T)` with
`bytes_unwritten()` is exact. -/
def serializeBinaryItem (p : PacketWriter) (raw : List Nat) : Except Error PacketWriter :=
  if (raw.length : Int) ≤ p.buffer.bytes_unwritten then .ok (p.writeTail raw)
  else serializeBytesAcrossBoundary p raw

/-- The chain flattened: the payloads of its buffers in chain order. -/
def flattened (p : PacketWriter) : List Nat := (p.buffers.map PacketBuffer.payload).flatten

/-- The representation invariant of a packet writer: every buffer holds
`DATA_SIZE` bytes of storage, the ones before the tail are full and the tail is
not over-full. -/
def wf (p : PacketWriter) : Prop :=
  (∀ b ∈ p.previous, b.bytes_written = PacketBuffer.DATA_SIZE ∧ b.data.length = PacketBuffer.DATA_SIZE) ∧
  p.buffer.bytes_written ≤ PacketBuffer.DATA_SIZE ∧ p.buffer.data.length = PacketBuffer.DATA_SIZE

end PacketWriter

/-- One write into a packet writer: `serializeBytes` of a byte string or
`serializeBinaryItem` of a scalar given by its object representation. -/
inductive PacketWrite where
  | bytes (data : List Nat)
  | item (raw : List Nat)
deriving DecidableEq, Repr

/-- The byte count of a write. -/
def PacketWrite.size : PacketWrite → Nat
  | .bytes data => data.length
  | .item raw => raw.length

/-- Performing one write. -/
def PacketWriter.write (p : PacketWriter) : PacketWrite → Except Error PacketWriter
  | .bytes data => p.serializeBytesRef data
  | .item raw => p.serializeBinaryItem raw

/-- Performing a sequence of writes in order. -/
def PacketWriter.writeAll : PacketWriter → List PacketWrite → Except Error PacketWriter
  | p, [] => .ok p
  | p, x :: xs =>
    match p.write x with
    | .error e => .error e
    | .ok p1 => PacketWriter.writeAll p1 xs

/-- A sequence of `serializeBytes(StringRef)` calls on a `BinaryWriter`. -/
def BinaryWriter.serializeBytesAll (ext : Externals) : BinaryWriter → List (List Nat) → Except Error BinaryWriter
  | w, [] => .ok w
  | w, bs :: bss =>
    match w.serializeBytesRef ext bs with
    | .error e => .error e
    | .ok w1 => BinaryWriter.serializeBytesAll ext w1 bss

/-- A sequence of `serializeBytes(StringRef)` calls on a `PacketWriter`. -/
def PacketWriter.serializeBytesAll : PacketWriter → List (List Nat) → Except Error PacketWriter
  | p, [] => .ok p
  | p, bs :: bss =>
    match p.serializeBytesRef bs with
    | .error e => .error e
    | .ok p1 => PacketWriter.serializeBytesAll p1 bss

/-! ## The save templates over any writer archive -/

/-- What the `save` templates use of an archive `Ar` with `Ar::WRITER`: its two
write primitives and its ambient version. -/
structure WriterArchive (A : Type) where
  serializeBytes : A → List Nat → Int → Except Error A
  serializeBinaryItem : A → List Nat → Except Error A
  protocolVersion : A → ProtocolVersion

/-- `BinaryWriter` as an archive. -/
def binaryWriterArchive (ext : Externals) : WriterArchive BinaryWriter :=
  { serializeBytes := BinaryWriter.serializeBytes ext
    serializeBinaryItem := BinaryWriter.serializeBinaryItem ext
    protocolVersion := BinaryWriter.protocolVersion }

/-- `PacketWriter` as an archive. -/
def packetWriterArchive : WriterArchive PacketWriter :=
  { serializeBytes := PacketWriter.serializeBytes
    serializeBinaryItem := PacketWriter.serializeBinaryItem
    protocolVersion := PacketWriter.protocolVersion }

namespace WriterArchive

/-- The template `save(Archive& ar, const std::string& value)` at any writer
archive. -/
def save_string (ext : Externals) {A : Type} (W : WriterArchive A) (ar : A) (value : List Nat) :
    Except Error A := do
  let ar1 ← W.serializeBinaryItem ar (int32_t.toRaw (toInt32 value.length))
  let ar2 ← W.serializeBytes ar1 value (toInt32 value.length)
  if ext.isValid (W.protocolVersion ar2) then pure ar2 else throw .internal_error

/-- The loop `for (it = value.begin(); it != value.end(); ++it) ar << *it` at any
writer archive, `saveT` being `save` of the element type. -/
def saveEach {A T : Type} (saveT : A → T → Except Error A) : A → List T → Except Error A
  | ar, [] => .ok ar
  | ar, x :: xs =>
    match saveT ar x with
    | .error e => .error e
    | .ok ar1 => saveEach saveT ar1 xs

/-- The template `save(Archive& ar, const std::vector<T>& value)` at any writer
archive. -/
def save_vector (ext : Externals) {A T : Type} (W : WriterArchive A) (saveT : A → T → Except Error A)
    (ar : A) (value : List T) : Except Error A := do
  let ar1 ← W.serializeBinaryItem ar (int32_t.toRaw (toInt32 value.length))
  let ar2 ← saveEach saveT ar1 value
  if ext.isValid (W.protocolVersion ar2) then pure ar2 else throw .internal_error

/-- The archive `ar1` is `ar` with the bytes `bs` appended: `written` reads the
bytes an archive holds, `accepts ar n` says that `ar` can take `n` more bytes. -/
def Extends {A : Type} (W : WriterArchive A) (written : A → List Nat) (accepts : A → Nat → Prop)
    (ar ar1 : A) (bs : List Nat) : Prop :=
  written ar1 = written ar ++ bs ∧ W.protocolVersion ar1 = W.protocolVersion ar ∧
    ∀ m, accepts ar (bs.length + m) → accepts ar1 m

/-- An archive whose two primitives append the bytes they are given whenever
the archive accepts that many. -/
def AppendOnly {A : Type} (W : WriterArchive A) (written : A → List Nat)
    (accepts : A → Nat → Prop) : Prop :=
  (∀ ar n m, accepts ar (n + m) → accepts ar n) ∧
  (∀ ar raw, accepts ar raw.length →
    ∃ ar1, W.serializeBinaryItem ar raw = .ok ar1 ∧ W.Extends written accepts ar ar1 raw) ∧
  (∀ ar data, accepts ar data.length →
    ∃ ar1, W.serializeBytes ar data (data.length : Int) = .ok ar1 ∧
      W.Extends written accepts ar ar1 data)

/-- The element `save` appends `enc x` for the values in `D`, on archives at the
ambient version `pv`. -/
def SavesAs {A T : Type} (W : WriterArchive A) (written : A → List Nat) (accepts : A → Nat → Prop)
    (pv : ProtocolVersion) (saveT : A → T → Except Error A) (enc : T → List Nat) (D : T → Prop) :
    Prop :=
  ∀ ar x, D x → W.protocolVersion ar = pv → accepts ar (enc x).length →
    ∃ ar1, saveT ar x = .ok ar1 ∧ W.Extends written accepts ar ar1 (enc x)

end WriterArchive

/-! ## Further scalars, the primary Serializer template, arrays, sets and maps -/

/-- `bool`: one byte, 1 for `true` and 0 for `false`; a stored byte reads as
`true` when it is not 0. -/
def bool_t : BinarySerializable Bool :=
  { sizeOf := 1, toRaw := fun b => [if b then 1 else 0], ofRaw := fun bs => decide (fromLE bs ≠ 0) }

/-- The primary template `Serializer<Archive, T>::serialize`, the entry of every
class with a member `serialize`: `t.serialize(ar)`, then
`ASSERT(ar.protocolVersion().isValid())`.  `member` holds `T::serialize` at the
two archives. -/
def classSerializer (ext : Externals) {T : Type} (member : Serializer T) : Serializer T :=
  { init := member.init
    save := fun ar t => do
      let ar1 ← member.save ar t
      if ext.isValid ar1.protocolVersion then pure ar1 else throw .internal_error
    load := fun ar t => do
      let (x, ar1) ← member.load ar t
      if ext.isValid ar1.protocolVersion then pure (x, ar1) else throw .internal_error }

/-- `save(ar, const std::array<T, N>& value)`: the elements, no count. -/
def save_array (ext : Externals) {T : Type} (S : Serializer T) (ar : BinaryWriter) (value : List T) :
    Except Error BinaryWriter := do
  let ar1 ← saveEach S ar value
  if ext.isValid ar1.protocolVersion then pure ar1 else throw .internal_error

/-- The loop `for (ii = 0; ii < N; ii++) ar >> value[ii]`: each element is
loaded over the one the array holds. -/
def loadOver {T : Type} (S : Serializer T) : ArenaReader → List T → Except Error (List T × ArenaReader)
  | ar, [] => .ok ([], ar)
  | ar, x0 :: rest =>
    match S.load ar x0 with
    | .error e => .error e
    | .ok (x, ar1) =>
      match loadOver S ar1 rest with
      | .error e => .error e
      | .ok (xs, ar2) => .ok (x :: xs, ar2)

/-- `load(ar, std::array<T, N>& value)`. -/
def load_array (ext : Externals) {T : Type} (S : Serializer T) (ar : ArenaReader) (value : List T) :
    Except Error (List T × ArenaReader) := do
  let (value1, ar1) ← loadOver S ar value
  if ext.isValid ar1.protocolVersion then pure (value1, ar1) else throw .internal_error

/-- `std::set<T>::insert` on a set held as the list of its elements in
ascending order (`operator<` of `T` taken as a linear order): the element goes
to its place unless an equal one is there. -/
def setInsert {T : Type} [LinearOrder T] : List T → T → List T
  | [], x => [x]
  | y :: ys, x =>
    if x < y then x :: y :: ys
    else if y < x then y :: setInsert ys x
    else y :: ys

/-- `save(ar, const std::set<T>& value)`; `value` lists the elements in
iteration order, which is ascending. -/
def save_set (ext : Externals) {T : Type} (S : Serializer T) (ar : BinaryWriter) (value : List T) :
    Except Error BinaryWriter := do
  let ar1 ← (binarySerializer ext int32_t 0).save ar (toInt32 value.length)
  let ar2 ← saveEach S ar1 value
  if ext.isValid ar2.protocolVersion then pure ar2 else throw .internal_error

/-- The loop `for (i = 0; i < s; i++) { ar >> currentValue; value.insert(currentValue); }`
with `n` iterations left; `currentValue` is declared once in front of the loop
and loaded over at every round. -/
def loadInsertEach {T : Type} [LinearOrder T] (S : Serializer T) :
    Nat → ArenaReader → T → List T → Except Error (List T × ArenaReader)
  | 0, ar, _, value => .ok (value, ar)
  | n + 1, ar, currentValue, value =>
    match S.load ar currentValue with
    | .error e => .error e
    | .ok (x, ar1) => loadInsertEach S n ar1 x (setInsert value x)

/-- `load(ar, std::set<T>& value)`: `value.clear()` and the loop; there is no
`reserve`, so a negative count `s` only keeps the loop from running. -/
def load_set (ext : Externals) {T : Type} [LinearOrder T] (S : Serializer T) (ar : ArenaReader)
    (_value : List T) : Except Error (List T × ArenaReader) := do
  let (s, ar1) ← (binarySerializer ext int32_t 0).load ar 0
  let (value, ar2) ← loadInsertEach S s.toNat ar1 S.init []
  if ext.isValid ar2.protocolVersion then pure (value, ar2) else throw .internal_error

/-- `std::map<K,V>::emplace` on a map held as the list of its entries in
ascending key order: the entry goes to its place unless the key is there. -/
def mapEmplace {K V : Type} [LinearOrder K] : List (K × V) → K × V → List (K × V)
  | [], p => [p]
  | q :: qs, p =>
    if p.1 < q.1 then p :: q :: qs
    else if q.1 < p.1 then q :: mapEmplace qs p
    else q :: qs

/-- The loop `for (const auto& it : value) ar << it.first << it.second`. -/
def saveEachEntry {K V : Type} (SK : Serializer K) (SV : Serializer V) :
    BinaryWriter → List (K × V) → Except Error BinaryWriter
  | ar, [] => .ok ar
  | ar, it :: rest =>
    match SK.save ar it.1 with
    | .error e => .error e
    | .ok ar1 =>
      match SV.save ar1 it.2 with
      | .error e => .error e
      | .ok ar2 => saveEachEntry SK SV ar2 rest

/-- `save(ar, const std::map<K, V>& value)`; `value` lists the entries in
iteration order, which is ascending in the key. -/
def save_map (ext : Externals) {K V : Type} (SK : Serializer K) (SV : Serializer V)
    (ar : BinaryWriter) (value : List (K × V)) : Except Error BinaryWriter := do
  let ar1 ← (binarySerializer ext int32_t 0).save ar (toInt32 value.length)
  let ar2 ← saveEachEntry SK SV ar1 value
  if ext.isValid ar2.protocolVersion then pure ar2 else throw .internal_error

/-- The loop `for (i = 0; i < s; ++i) { std::pair<K, V> p; ar >> p.first >> p.second; value.emplace(p); }`
with `n` iterations left. -/
def loadEmplaceEach {K V : Type} [LinearOrder K] (SK : Serializer K) (SV : Serializer V) :
    Nat → ArenaReader → List (K × V) → Except Error (List (K × V) × ArenaReader)
  | 0, ar, value => .ok (value, ar)
  | n + 1, ar, value =>
    match SK.load ar SK.init with
    | .error e => .error e
    | .ok (k, ar1) =>
      match SV.load ar1 SV.init with
      | .error e => .error e
      | .ok (v, ar2) => loadEmplaceEach SK SV n ar2 (mapEmplace value (k, v))

/-- `load(ar, std::map<K, V>& value)`: `value.clear()` and the loop; as for a set
a negative count only keeps the loop from running. -/
def load_map (ext : Externals) {K V : Type} [LinearOrder K] (SK : Serializer K) (SV : Serializer V)
    (ar : ArenaReader) (_value : List (K × V)) : Except Error (List (K × V) × ArenaReader) := do
  let (s, ar1) ← (binarySerializer ext int32_t 0).load ar 0
  let (value, ar2) ← loadEmplaceEach SK SV s.toNat ar1 []
  if ext.isValid ar2.protocolVersion then pure (value, ar2) else throw .internal_error

/-! ## OverWriter -/

/-- The members of `struct SplitBuffer`, pointers as addresses. -/
structure SplitBuffer where
  begin : Nat
  next : Nat
  first_length : Int
deriving DecidableEq, Repr

/-- The fields of `class OverWriter`, with the memory `mem` its buffer points
into.  The member functions of `SplitBuffer` are only declared in
`serialize.h`: the effect of `writeAndShrink` on the buffer and on the memory
is a parameter `ws` of the functions below, and `M` is the type of the
memory. -/
structure OverWriter (M : Type) where
  len : Int
  buf : SplitBuffer
  m_protocolVersion : ProtocolVersion
  mem : M

namespace OverWriter

def protocolVersion {M : Type} (o : OverWriter M) : ProtocolVersion := o.m_protocolVersion

def setProtocolVersion {M : Type} (o : OverWriter M) (pv : ProtocolVersion) : OverWriter M :=
  { o with m_protocolVersion := pv }

/-- `writeBytes(data, wlen)`: `ASSERT(wlen <= len); buf.writeAndShrink(data, wlen);
len -= wlen`.  The result pairs the outcome with the writer as the call leaves
it: a failed assertion leaves it as it was.  A negative count, or one above the
source length, makes the copy undefined. -/
def writeBytes {M : Type} (ws : SplitBuffer × M → List Nat → Int → SplitBuffer × M)
    (o : OverWriter M) (data : List Nat) (wlen : Int) : Except Error Unit × OverWriter M :=
  if wlen ≤ o.len then
    if wlen < 0 ∨ (data.length : Int) < wlen then (.error .undefined_behavior, o)
    else
      (.ok (), { o with
        buf := (ws (o.buf, o.mem) data wlen).1
        mem := (ws (o.buf, o.mem) data wlen).2
        len := o.len - wlen })
  else (.error .internal_error, o)

/-- `serializeBytes(const void* data, int bytes)`. -/
def serializeBytes {M : Type} (ws : SplitBuffer × M → List Nat → Int → SplitBuffer × M)
    (o : OverWriter M) (data : List Nat) (bytes : Int) : Except Error Unit × OverWriter M :=
  writeBytes ws o data bytes

/-- `serializeBytes(StringRef bytes)`. -/
def serializeBytesRef {M : Type} (ws : SplitBuffer × M → List Nat → Int → SplitBuffer × M)
    (o : OverWriter M) (bytes : List Nat) : Except Error Unit × OverWriter M :=
  serializeBytes ws o bytes (bytes.length : Int)

/-- `serializeBinaryItem(t)`: `writeBytes(&t, sizeof(T))`, with `raw` the object
representation of `t`. -/
def serializeBinaryItem {M : Type} (ws : SplitBuffer × M → List Nat → Int → SplitBuffer × M)
    (o : OverWriter M) (raw : List Nat) : Except Error Unit × OverWriter M :=
  writeBytes ws o raw (raw.length : Int)

/-- `vo.write(*this)` on an `OverWriter`. -/
def writeVersion {M : Type} (ws : SplitBuffer × M → List Nat → Int → SplitBuffer × M)
    (vo : VersionOptions) (o : OverWriter M) : Except Error (OverWriter M) :=
  match vo with
  | .includeVersion i =>
    match serializeBinaryItem ws (o.setProtocolVersion i.v) (protocolVersion_t.toRaw i.v) with
    | (.ok _, o1) => .ok o1
    | (.error e, _) => .error e
  | .assumeVersion a => .ok (o.setProtocolVersion a.v)
  | .unversioned => .ok o

/-- `OverWriter(void* ptr, int len, VersionOptions vo)`: sets `len`, `buf.begin`
and `buf.first_length`; `buf.next` is not assigned (`uninitialized` is its
content) and `m_protocolVersion` starts default-constructed. -/
def new {M : Type} (ws : SplitBuffer × M → List Nat → Int → SplitBuffer × M) (ext : Externals)
    (mem : M) (ptr : Nat) (len : Int) (vo : VersionOptions) (uninitialized : Nat) :
    Except Error (OverWriter M) :=
  writeVersion ws vo
    { len := len
      buf := { begin := ptr, next := uninitialized, first_length := len }
      m_protocolVersion := ext.defaultProtocolVersion
      mem := mem }

/-- `OverWriter(SplitBuffer buf, VersionOptions vo)`: `len` is
`std::numeric_limits<int>::max()`. -/
def ofSplitBuffer {M : Type} (ws : SplitBuffer × M → List Nat → Int → SplitBuffer × M)
    (ext : Externals) (mem : M) (buf : SplitBuffer) (vo : VersionOptions) :
    Except Error (OverWriter M) :=
  writeVersion ws vo
    { len := (INT_MAX : Int), buf := buf, m_protocolVersion := ext.defaultProtocolVersion, mem := mem }

/-- One write through `serializeBytes(StringRef)` or `serializeBinaryItem`. -/
def write {M : Type} (ws : SplitBuffer × M → List Nat → Int → SplitBuffer × M) (o : OverWriter M) :
    PacketWrite → Except Error Unit × OverWriter M
  | .bytes data => o.serializeBytesRef ws data
  | .item raw => o.serializeBinaryItem ws raw

/-- A sequence of writes in order, a failed one leaving the writer as it was;
the first component is the number of bytes of the writes that succeeded. -/
def writeAll {M : Type} (ws : SplitBuffer × M → List Nat → Int → SplitBuffer × M) :
    OverWriter M → List PacketWrite → Nat × OverWriter M
  | o, [] => (0, o)
  | o, x :: xs =>
    match o.write ws x with
    | (.ok _, o1) => ((writeAll ws o1 xs).1 + x.size, (writeAll ws o1 xs).2)
    | (.error _, o1) => writeAll ws o1 xs

end OverWriter

/-- A memory for evaluating an `OverWriter` on explicit inputs: the bytes at the
addresses from 0 on, with a `writeAndShrink` that copies into the first segment
while the bytes fit it and into the segment at `next` otherwise. -/
def exampleWriteAndShrink (b : SplitBuffer × List Nat) (data : List Nat) (length : Int) :
    SplitBuffer × List Nat :=
  if length ≤ b.1.first_length then
    ({ b.1 with begin := b.1.begin + length.toNat, first_length := b.1.first_length - length },
      storeAt b.2 b.1.begin (data.take length.toNat))
  else
    ({ begin := 0, next := b.1.next + (length - b.1.first_length).toNat, first_length := 0 },
      storeAt (storeAt b.2 b.1.begin (data.take b.1.first_length.toNat)) b.1.next
        ((data.take length.toNat).drop b.1.first_length.toNat))

/-! ## Type-erased serialization sources -/

/-- `struct SerializeSource<T>`: the value it refers to. -/
structure SerializeSource (T : Type) where
  value : T

/-- `struct SerializeBoolAnd<T>`: the flag and the value it refers to. -/
structure SerializeBoolAnd (T : Type) where
  b : Bool
  value : T

/-- `SerializeSource<T>::serialize(ar)`: `ar << value`, with `S` the dispatch
entry of `T`. -/
def SerializeSource.serialize {T : Type} (S : Serializer T) (src : SerializeSource T)
    (ar : BinaryWriter) : Except Error BinaryWriter :=
  S.save ar src.value

/-- `MakeSerializeSource<SerializeSource<T>, T>::serializeBinaryWriter(w)`:
`static_cast<T const*>(this)->serialize(w)`. -/
def SerializeSource.serializeBinaryWriter {T : Type} (S : Serializer T) (src : SerializeSource T)
    (w : BinaryWriter) : Except Error BinaryWriter :=
  src.serialize S w

/-- `SerializeBoolAnd<T>::serialize(ar)`: `ar << b << value`. -/
def SerializeBoolAnd.serialize (ext : Externals) {T : Type} (S : Serializer T)
    (src : SerializeBoolAnd T) (ar : BinaryWriter) : Except Error BinaryWriter :=
  match (binarySerializer ext bool_t false).save ar src.b with
  | .error e => .error e
  | .ok ar1 => S.save ar1 src.value

/-- `MakeSerializeSource<SerializeBoolAnd<T>, T>::serializeBinaryWriter(w)`. -/
def SerializeBoolAnd.serializeBinaryWriter (ext : Externals) {T : Type} (S : Serializer T)
    (src : SerializeBoolAnd T) (w : BinaryWriter) : Except Error BinaryWriter :=
  src.serialize ext S w

/-- The `save` and `load` of a type leave the ambient version of the archive as
it was whenever they complete. -/
def KeepsVersion {T : Type} (S : Serializer T) : Prop :=
  (∀ w x w1, S.save w x = .ok w1 → w1.m_protocolVersion = w.m_protocolVersion) ∧
  (∀ r x0 x r1, S.load r x0 = .ok (x, r1) → r1.m_protocolVersion = r.m_protocolVersion)

/-! ## Basic facts -/

theorem leBytes_length (k x : Nat) : (leBytes k x).length = k := by
  induction k generalizing x with
  | zero => rfl
  | succ k ih => simp [leBytes, ih]

theorem fromLE_leBytes (k x : Nat) : fromLE (leBytes k x) = x % 256 ^ k := by
  induction k generalizing x with
  | zero => simp [leBytes, fromLE, Nat.mod_one]
  | succ k ih =>
    simp only [leBytes, fromLE, ih]
    rw [pow_succ, Nat.mul_comm (256 ^ k) 256, Nat.mod_mul]

theorem storeAt_take (buf : List Nat) (p : Nat) (bs : List Nat) (hp : p + bs.length ≤ buf.length) :
    (storeAt buf p bs).take (p + bs.length) = buf.take p ++ bs := by
  have h1 : (buf.take p ++ bs).length = p + bs.length := by
    simp [List.length_take]; omega
  unfold storeAt
  rw [List.take_append_of_le_length (by omega), List.take_of_length_le (by omega)]

theorem storeAt_length (buf : List Nat) (p : Nat) (bs : List Nat) (hp : p + bs.length ≤ buf.length) :
    (storeAt buf p bs).length = buf.length := by
  simp [storeAt, List.length_take, List.length_drop]; omega

namespace BinaryWriter

theorem toValue_length (w : BinaryWriter) (hw : w.wf) : w.toValue.length = w.size := by
  obtain ⟨h1, h2⟩ := hw
  simp [toValue, List.length_take]; omega

/-- With room below `INT_MAX`, `writeBytes` succeeds, returns the old size as
offset, keeps the bytes already written and leaves room for `s` more. -/
theorem writeBytes_ok (ext : Externals) (w : BinaryWriter) (s : Nat) (hw : w.wf)
    (hroom : w.size + s ≤ INT_MAX) :
    ∃ w1, writeBytes ext w s = .ok (w1, w.size) ∧ w1.wf ∧ w1.size = w.size + s ∧
      w1.data.take w.size = w.data.take w.size ∧ w1.m_protocolVersion = w.m_protocolVersion := by
  obtain ⟨h1, h2⟩ := hw
  unfold writeBytes
  simp only [show ¬ (INT_MAX < w.size + s) from by omega, if_false]
  by_cases hg : w.size + s > w.allocated
  · simp only [hg, if_true]
    refine ⟨_, rfl, ?_, rfl, ?_, rfl⟩
    · constructor
      · simp only
        split_ifs <;> omega
      · simp only [List.length_append, List.length_take, List.length_replicate]
        split_ifs <;> omega
    · simp only
      rw [List.take_append_of_le_length (by simp [List.length_take]; omega)]
      simp [List.take_take]
  · simp only [hg, if_false]
    refine ⟨_, rfl, ?_, rfl, rfl, rfl⟩
    exact ⟨by simp only; omega, h2⟩

theorem store_appends (w w1 : BinaryWriter) (bs : List Nat) (hw : w.wf) (hw1 : w1.wf)
    (hs : w1.size = w.size + bs.length) (hd : w1.data.take w.size = w.data.take w.size)
    (hv : w1.m_protocolVersion = w.m_protocolVersion) :
    w.Appends { w1 with data := storeAt w1.data w.size bs } bs := by
  obtain ⟨h1, h2⟩ := hw
  obtain ⟨h3, h4⟩ := hw1
  have hlen : w.size + bs.length ≤ w1.data.length := by omega
  refine ⟨⟨h3, ?_⟩, ?_, hv⟩
  · simp only; rw [storeAt_length _ _ _ hlen]; exact h4
  · simp only [toValue]
    rw [hs, storeAt_take _ _ _ hlen, hd]

theorem serializeBinaryItem_ok (ext : Externals) (w : BinaryWriter) (raw : List Nat) (hw : w.wf)
    (hroom : w.size + raw.length ≤ INT_MAX) :
    ∃ w1, serializeBinaryItem ext w raw = .ok w1 ∧ w.Appends w1 raw := by
  obtain ⟨w1, he, hw1, hs, hd, hv⟩ := writeBytes_ok ext w raw.length hw hroom
  refine ⟨_, ?_, store_appends w w1 raw hw hw1 hs hd hv⟩
  simp [serializeBinaryItem, he]

theorem serializeBytesRef_ok (ext : Externals) (w : BinaryWriter) (bs : List Nat) (hw : w.wf)
    (hroom : w.size + bs.length ≤ INT_MAX) :
    ∃ w1, serializeBytesRef ext w bs = .ok w1 ∧ w.Appends w1 bs := by
  obtain ⟨w1, he, hw1, hs, hd, hv⟩ := writeBytes_ok ext w bs.length hw hroom
  refine ⟨_, ?_, store_appends w w1 bs hw hw1 hs hd hv⟩
  simp [serializeBytesRef, serializeBytes, he]

theorem writeBytes_overflow (ext : Externals) (w : BinaryWriter) (s : Nat)
    (h : INT_MAX < w.size + s) : writeBytes ext w s = .error .undefined_behavior := by
  simp [writeBytes, h]

theorem Appends.size_eq {w w1 : BinaryWriter} {bs : List Nat} (hw : w.wf) (h : w.Appends w1 bs) :
    w1.size = w.size + bs.length := by
  have := congrArg List.length h.2.1
  rw [toValue_length _ h.1, List.length_append, toValue_length _ hw] at this
  exact this

theorem Appends.append {w w1 w2 : BinaryWriter} {a b : List Nat} (h1 : w.Appends w1 a)
    (h2 : w1.Appends w2 b) : w.Appends w2 (a ++ b) :=
  ⟨h2.1, by rw [h2.2.1, h1.2.1, List.append_assoc], by rw [h2.2.2, h1.2.2]⟩

end BinaryWriter

/-! ## Reader and scalar lemmas -/

namespace ArenaReader

theorem readBytes_ok (r : ArenaReader) (bs rest : List Nat) (hr : r.wf)
    (h : r.input.drop r.begin = bs ++ rest) :
    r.readBytes bs.length = .ok (bs, { r with begin := r.begin + bs.length }) := by
  have hl := congrArg List.length h
  simp only [List.length_drop, List.length_append] at hl
  have hb : r.begin ≤ r.input.length := hr
  have : r.begin + bs.length ≤ r.end_ := by unfold end_; omega
  simp [readBytes, this, h]

theorem Consumes.wf_after {r r1 : ArenaReader} {n : Nat} {bs rest : List Nat} (hr : r.wf)
    (h : r.input.drop r.begin = bs ++ rest) (hn : n = bs.length) (hc : r.Consumes r1 n) :
    r1.wf ∧ r1.input.drop r1.begin = rest := by
  obtain ⟨h1, h2, _⟩ := hc
  have hl := congrArg List.length h
  simp only [List.length_drop, List.length_append] at hl
  have hb : r.begin ≤ r.input.length := hr
  constructor
  · show r1.begin ≤ r1.input.length
    rw [h1, h2]; omega
  · rw [h1, h2, ← List.drop_drop, h, hn, List.drop_left]

theorem Consumes.add {r r1 r2 : ArenaReader} {n m : Nat} (h1 : r.Consumes r1 n)
    (h2 : r1.Consumes r2 m) : r.Consumes r2 (n + m) :=
  ⟨by rw [h2.1, h1.1], by rw [h2.2.1, h1.2.1, Nat.add_assoc], by rw [h2.2.2, h1.2.2]⟩

theorem Consumes.zero (r : ArenaReader) : r.Consumes r 0 := ⟨rfl, rfl, rfl⟩

end ArenaReader

theorem binary_load_ok (ext : Externals) {T : Type} (B : BinarySerializable T) (i x0 : T)
    (r : ArenaReader) (raw rest : List Nat) (hr : r.wf) (hlen : raw.length = B.sizeOf)
    (h : r.input.drop r.begin = raw ++ rest) :
    (binarySerializer ext B i).load r x0 =
      .ok (B.ofRaw raw, { r with begin := r.begin + raw.length }) := by
  simp only [binarySerializer, ArenaReader.serializeBinaryItem, ← hlen,
    ArenaReader.readBytes_ok r raw rest hr h]

theorem binary_roundTrips (ext : Externals) {T : Type} (B : BinarySerializable T) (i : T)
    (pv : ProtocolVersion) (D : T → Prop)
    (hB : ∀ x, D x → (B.toRaw x).length = B.sizeOf ∧ B.ofRaw (B.toRaw x) = x) :
    RoundTripsOn pv (binarySerializer ext B i) B.toRaw D := by
  constructor
  · intro w x _ hw _ hroom
    exact BinaryWriter.serializeBinaryItem_ok ext w (B.toRaw x) hw hroom
  · intro r x x0 rest hx hr _ h
    refine ⟨{ r with begin := r.begin + (B.toRaw x).length }, ?_, rfl, rfl, rfl⟩
    rw [binary_load_ok ext B i x0 r (B.toRaw x) rest hr (hB x hx).1 h, (hB x hx).2]

theorem toInt32_of_le (n : Nat) (h : n ≤ INT_MAX) : toInt32 n = (n : Int) := by
  have h1 : n % 2 ^ 32 = n := Nat.mod_eq_of_lt (by unfold INT_MAX at h; omega)
  unfold toInt32 toSigned
  rw [h1, if_pos (by unfold INT_MAX at h; norm_num; omega)]

theorem toUnsigned_natCast (w n : Nat) (h : n < 2 ^ w) : toUnsigned w (n : Int) = n := by
  unfold toUnsigned
  have : ((n : Int) % (2 : Int) ^ w) = (n : Int) := by
    apply Int.emod_eq_of_lt (by omega)
    exact_mod_cast h
  rw [this]; simp

theorem int32_raw_length (x : Int) : (int32_t.toRaw x).length = int32_t.sizeOf := by
  simp [int32_t, leBytes_length]

theorem int32_ofRaw_toRaw (n : Nat) (h : n ≤ INT_MAX) :
    int32_t.ofRaw (int32_t.toRaw (toInt32 n)) = (n : Int) := by
  have hn : n < 2 ^ 32 := by unfold INT_MAX at h; omega
  simp only [int32_t, toInt32_of_le n h, toUnsigned_natCast 32 n hn, fromLE_leBytes]
  have : n % 256 ^ 4 = n := Nat.mod_eq_of_lt (by norm_num; omega)
  rw [this]
  exact toInt32_of_le n h

theorem int32_toRaw_toInt32 (n : Nat) (h : n ≤ INT_MAX) :
    int32_t.toRaw (toInt32 n) = leBytes 4 n := by
  have hn : n < 2 ^ 32 := by unfold INT_MAX at h; omega
  simp only [int32_t, toInt32_of_le n h, toUnsigned_natCast 32 n hn]

/-! ## Strings -/

theorem save_string_ok (ext : Externals) (w : BinaryWriter) (s : List Nat) (hw : w.wf)
    (hv : ext.isValid w.m_protocolVersion = true) (hroom : w.size + 4 + s.length ≤ INT_MAX) :
    ∃ w1, save_string ext w s = .ok w1 ∧ w.Appends w1 (encString s) := by
  have hlen : s.length ≤ INT_MAX := by omega
  obtain ⟨w1, e1, a1⟩ := BinaryWriter.serializeBinaryItem_ok ext w (leBytes 4 s.length) hw
    (by rw [leBytes_length]; omega)
  have hs1 := a1.size_eq hw
  rw [leBytes_length] at hs1
  obtain ⟨w2, e2, a2⟩ := BinaryWriter.serializeBytesRef_ok ext w1 s a1.1 (by omega)
  refine ⟨w2, ?_, a1.append a2⟩
  have hv2 : ext.isValid w2.protocolVersion = true := by
    show ext.isValid w2.m_protocolVersion = true
    rw [a2.2.2, a1.2.2]; exact hv
  have e1' : (binarySerializer ext int32_t 0).save w (toInt32 s.length) = .ok w1 := by
    show w.serializeBinaryItem ext (int32_t.toRaw (toInt32 s.length)) = .ok w1
    rw [int32_toRaw_toInt32 _ hlen]; exact e1
  have e2' : w1.serializeBytes ext s (toInt32 s.length) = .ok w2 := by
    rw [toInt32_of_le _ hlen]; exact e2
  simp only [save_string, bind, Except.bind, e1', e2', hv2, if_true, pure, Except.pure]

theorem load_string_ok (ext : Externals) (r : ArenaReader) (s value0 rest : List Nat)
    (hlen : s.length ≤ INT_MAX) (hr : r.wf) (hv : ext.isValid r.m_protocolVersion = true)
    (h : r.input.drop r.begin = encString s ++ rest) :
    load_string ext r value0 = .ok (s, { r with begin := r.begin + (4 + s.length) }) := by
  have h1 : r.input.drop r.begin = int32_t.toRaw (toInt32 s.length) ++ (s ++ rest) := by
    rw [h, encString, int32_toRaw_toInt32 _ hlen, List.append_assoc]
  have e1 := binary_load_ok ext int32_t 0 0 r _ _ hr (int32_raw_length _) h1
  rw [int32_ofRaw_toRaw _ hlen, int32_raw_length] at e1
  have c1 : r.Consumes { r with begin := r.begin + int32_t.sizeOf } (int32_t.toRaw (toInt32 s.length)).length :=
    ⟨rfl, by rw [int32_raw_length], rfl⟩
  obtain ⟨hr1, hd1⟩ := ArenaReader.Consumes.wf_after hr h1 rfl c1
  have e2 := ArenaReader.readBytes_ok _ s rest hr1 hd1
  have hneg : ¬ ((s.length : Int) < 0) := by omega
  simp only [load_string, bind, Except.bind, e1, hneg, if_false, ArenaReader.serializeBytes,
    Int.toNat_ofNat, e2, pure, Except.pure, ArenaReader.protocolVersion, hv, if_true]
  simp [int32_t, Nat.add_assoc]

theorem string_roundTrips (ext : Externals) (pv : ProtocolVersion) (hpv : ext.isValid pv = true) :
    RoundTripsOn pv (stringSerializer ext) encString (fun s => s.length ≤ INT_MAX) := by
  constructor
  · intro w x _ hw hwv hroom
    simp only [encString, List.length_append, leBytes_length] at hroom
    exact save_string_ok ext w x hw (by rw [hwv]; exact hpv) (by omega)
  · intro r x x0 rest hx hr hrv h
    refine ⟨_, load_string_ok ext r x x0 rest hx hr (by rw [hrv]; exact hpv) h, rfl, ?_, rfl⟩
    simp [encString, leBytes_length]

theorem save_string_overflow (ext : Externals) (w : BinaryWriter) (s : List Nat) (hw : w.wf)
    (hlen : s.length ≤ INT_MAX) (h4 : w.size + 4 ≤ INT_MAX) (hover : INT_MAX < w.size + 4 + s.length) :
    save_string ext w s = .error .undefined_behavior := by
  obtain ⟨w1, e1, a1⟩ := BinaryWriter.serializeBinaryItem_ok ext w (leBytes 4 s.length) hw
    (by rw [leBytes_length]; omega)
  have hs1 := a1.size_eq hw
  rw [leBytes_length] at hs1
  have e1' : (binarySerializer ext int32_t 0).save w (toInt32 s.length) = .ok w1 := by
    show w.serializeBinaryItem ext (int32_t.toRaw (toInt32 s.length)) = .ok w1
    rw [int32_toRaw_toInt32 _ hlen]; exact e1
  have e2 : w1.serializeBytes ext s (toInt32 s.length) = .error .undefined_behavior := by
    rw [toInt32_of_le _ hlen]
    have : BinaryWriter.writeBytes ext w1 s.length = .error .undefined_behavior :=
      BinaryWriter.writeBytes_overflow ext w1 _ (by omega)
    simp [BinaryWriter.serializeBytes, this]
  simp only [save_string, bind, Except.bind, e1', e2]

/-! ## Vectors -/

theorem saveEach_ok {T : Type} (pv : ProtocolVersion) (S : Serializer T) (enc : T → List Nat)
    (D : T → Prop) (hS : RoundTripsOn pv S enc D) (v : List T) :
    ∀ (w : BinaryWriter), (∀ x ∈ v, D x) → w.wf → w.m_protocolVersion = pv →
      w.size + (encEach enc v).length ≤ INT_MAX →
      ∃ w1, saveEach S w v = .ok w1 ∧ w.Appends w1 (encEach enc v) := by
  induction v with
  | nil =>
    intro w _ hw _ _
    exact ⟨w, rfl, hw, by simp [encEach], rfl⟩
  | cons x xs ih =>
    intro w hD hw hwv hroom
    simp only [encEach, List.length_append] at hroom
    obtain ⟨w1, e1, a1⟩ := hS.1 w x (hD x (List.mem_cons_self _ _)) hw hwv (by omega)
    have hs1 := a1.size_eq hw
    obtain ⟨w2, e2, a2⟩ := ih w1 (fun y hy => hD y (List.mem_cons_of_mem _ hy)) a1.1
      (by rw [a1.2.2]; exact hwv) (by omega)
    exact ⟨w2, by simp only [saveEach, e1, e2], a1.append a2⟩

theorem loadEach_ok {T : Type} (pv : ProtocolVersion) (S : Serializer T) (enc : T → List Nat)
    (D : T → Prop) (hS : RoundTripsOn pv S enc D) (v : List T) :
    ∀ (r : ArenaReader) (acc : List T) (rest : List Nat), (∀ x ∈ v, D x) → r.wf →
      r.m_protocolVersion = pv → r.input.drop r.begin = encEach enc v ++ rest →
      ∃ r1, loadEach S v.length r acc = .ok (acc ++ v, r1) ∧ r.Consumes r1 (encEach enc v).length := by
  induction v with
  | nil =>
    intro r acc rest _ _ _ _
    exact ⟨r, by simp [loadEach], by simpa [encEach] using ArenaReader.Consumes.zero r⟩
  | cons x xs ih =>
    intro r acc rest hD hr hrv h
    simp only [encEach, List.append_assoc] at h
    obtain ⟨r1, e1, c1⟩ := hS.2 r x S.init _ (hD x (List.mem_cons_self _ _)) hr hrv h
    obtain ⟨hr1, hd1⟩ := ArenaReader.Consumes.wf_after hr h rfl c1
    obtain ⟨r2, e2, c2⟩ := ih r1 (acc ++ [x]) rest (fun y hy => hD y (List.mem_cons_of_mem _ hy)) hr1
      (by rw [c1.2.2]; exact hrv) hd1
    refine ⟨r2, ?_, ?_⟩
    · simp only [List.length_cons, loadEach, e1, e2, List.append_assoc, List.singleton_append]
    · simpa only [encEach, List.length_append] using c1.add c2

theorem save_vector_ok (ext : Externals) {T : Type} (pv : ProtocolVersion)
    (hpv : ext.isValid pv = true) (S : Serializer T) (enc : T → List Nat) (D : T → Prop)
    (hS : RoundTripsOn pv S enc D) (v : List T) (hlen : v.length ≤ INT_MAX) (hD : ∀ x ∈ v, D x)
    (w : BinaryWriter) (hw : w.wf) (hwv : w.m_protocolVersion = pv)
    (hroom : w.size + (encVector enc v).length ≤ INT_MAX) :
    ∃ w1, save_vector ext S w v = .ok w1 ∧ w.Appends w1 (encVector enc v) := by
  simp only [encVector, List.length_append, leBytes_length] at hroom
  obtain ⟨w1, e1, a1⟩ := BinaryWriter.serializeBinaryItem_ok ext w (leBytes 4 v.length) hw
    (by rw [leBytes_length]; omega)
  have hs1 := a1.size_eq hw
  rw [leBytes_length] at hs1
  obtain ⟨w2, e2, a2⟩ := saveEach_ok pv S enc D hS v w1 hD a1.1 (by rw [a1.2.2]; exact hwv) (by omega)
  refine ⟨w2, ?_, a1.append a2⟩
  have hv2 : ext.isValid w2.protocolVersion = true := by
    show ext.isValid w2.m_protocolVersion = true
    rw [a2.2.2, a1.2.2, hwv]; exact hpv
  have e1' : (binarySerializer ext int32_t 0).save w (toInt32 v.length) = .ok w1 := by
    show w.serializeBinaryItem ext (int32_t.toRaw (toInt32 v.length)) = .ok w1
    rw [int32_toRaw_toInt32 _ hlen]; exact e1
  simp only [save_vector, bind, Except.bind, e1', e2, hv2, if_true, pure, Except.pure]

theorem load_vector_ok (ext : Externals) {T : Type} (pv : ProtocolVersion)
    (hpv : ext.isValid pv = true) (S : Serializer T) (enc : T → List Nat) (D : T → Prop)
    (hS : RoundTripsOn pv S enc D) (v : List T) (hlen : v.length ≤ INT_MAX) (hD : ∀ x ∈ v, D x)
    (r : ArenaReader) (v0 : List T) (rest : List Nat) (hr : r.wf) (hrv : r.m_protocolVersion = pv)
    (h : r.input.drop r.begin = encVector enc v ++ rest) :
    ∃ r1, load_vector ext S r v0 = .ok (v, r1) ∧ r.Consumes r1 (encVector enc v).length := by
  have h1 : r.input.drop r.begin = int32_t.toRaw (toInt32 v.length) ++ (encEach enc v ++ rest) := by
    rw [h, encVector, int32_toRaw_toInt32 _ hlen, List.append_assoc]
  have e1 := binary_load_ok ext int32_t 0 0 r _ _ hr (int32_raw_length _) h1
  rw [int32_ofRaw_toRaw _ hlen] at e1
  have c1 : r.Consumes { r with begin := r.begin + (int32_t.toRaw (toInt32 v.length)).length }
      (int32_t.toRaw (toInt32 v.length)).length := ⟨rfl, rfl, rfl⟩
  obtain ⟨hr1, hd1⟩ := ArenaReader.Consumes.wf_after hr h1 rfl c1
  obtain ⟨r2, e2, c2⟩ := loadEach_ok pv S enc D hS v _ [] rest hD hr1 hrv hd1
  refine ⟨r2, ?_, ?_⟩
  · have hneg : ¬ ((v.length : Int) < 0) := by omega
    have hv2 : ext.isValid r2.protocolVersion = true := by
      show ext.isValid r2.m_protocolVersion = true
      rw [c2.2.2]; simpa [hrv] using hpv
    simp only [List.nil_append] at e2
    simp only [load_vector, bind, Except.bind, e1, hneg, if_false, Int.toNat_ofNat, e2, hv2,
      if_true, pure, Except.pure]
  · have := c1.add c2
    rw [int32_toRaw_toInt32 _ hlen] at this
    simpa only [encVector, List.length_append] using this

theorem BinaryWriter.appended_eq {w w1 : BinaryWriter} {bs : List Nat} (hw : w.wf)
    (h : w.Appends w1 bs) : BinaryWriter.appended w w1 = bs := by
  unfold BinaryWriter.appended
  rw [h.2.1, ← BinaryWriter.toValue_length w hw, List.drop_left]

theorem uint8_roundTrips (ext : Externals) (pv : ProtocolVersion) :
    RoundTripsOn pv (binarySerializer ext uint8_t 0) uint8_t.toRaw (fun _ => True) := by
  apply binary_roundTrips
  intro x _
  refine ⟨rfl, ?_⟩
  simp only [uint8_t, leBytes, fromLE]
  apply Fin.ext
  simp [Fin.ofNat, Nat.mod_eq_of_lt x.isLt]

theorem saveEach_uint8_overflow (ext : Externals) (v : List (Fin 256)) :
    ∀ (w : BinaryWriter), w.wf → w.size ≤ INT_MAX → INT_MAX < w.size + v.length →
      saveEach (binarySerializer ext uint8_t 0) w v = .error .undefined_behavior := by
  induction v with
  | nil => intro w _ h1 h2; simp at h2; omega
  | cons x xs ih =>
    intro w hw h1 h2
    simp only [List.length_cons] at h2
    by_cases hfull : INT_MAX < w.size + 1
    · have : (binarySerializer ext uint8_t 0).save w x = .error .undefined_behavior := by
        show w.serializeBinaryItem ext (leBytes 1 x.val) = _
        simp [BinaryWriter.serializeBinaryItem, leBytes_length,
          BinaryWriter.writeBytes_overflow ext w 1 hfull]
      simp only [saveEach, this]
    · obtain ⟨w1, e1, a1⟩ := BinaryWriter.serializeBinaryItem_ok ext w (leBytes 1 x.val) hw
        (by rw [leBytes_length]; omega)
      have hs1 := a1.size_eq hw
      rw [leBytes_length] at hs1
      have e1' : (binarySerializer ext uint8_t 0).save w x = .ok w1 := e1
      simp only [saveEach, e1']
      exact ih w1 a1.1 (by omega) (by omega)

theorem save_vector_uint8_overflow (ext : Externals) (w : BinaryWriter) (v : List (Fin 256))
    (hw : w.wf) (hlen : v.length ≤ INT_MAX) (h4 : w.size + 4 ≤ INT_MAX)
    (hover : INT_MAX < w.size + 4 + v.length) :
    save_vector ext (binarySerializer ext uint8_t 0) w v = .error .undefined_behavior := by
  obtain ⟨w1, e1, a1⟩ := BinaryWriter.serializeBinaryItem_ok ext w (leBytes 4 v.length) hw
    (by rw [leBytes_length]; omega)
  have hs1 := a1.size_eq hw
  rw [leBytes_length] at hs1
  have e1' : (binarySerializer ext int32_t 0).save w (toInt32 v.length) = .ok w1 := by
    show w.serializeBinaryItem ext (int32_t.toRaw (toInt32 v.length)) = .ok w1
    rw [int32_toRaw_toInt32 _ hlen]; exact e1
  have e2 := saveEach_uint8_overflow ext v w1 a1.1 (by omega) (by omega)
  simp only [save_vector, bind, Except.bind, e1', e2]

theorem exampleWriter_wf : exampleWriter.wf := ⟨Nat.le_refl 0, rfl⟩

/-! ## C1: vectors round-trip -/

/-- C1 (as amended): for every vector `v` of at most 2,147,483,647 elements
whose element type round-trips, on a well-formed `BinaryWriter` at a valid
version in which the encoding of `v` fits below `INT_MAX`, `save` succeeds and
appends the encoding, and `load` on an `ArenaReader` at the same version standing
over exactly the appended bytes returns `v` and leaves the reader empty. -/
theorem vector_save_load (ext : Externals) {T : Type} (pv : ProtocolVersion)
    (hpv : ext.isValid pv = true) (S : Serializer T) (enc : T → List Nat) (D : T → Prop)
    (hS : RoundTripsOn pv S enc D) (v : List T) (hlen : v.length ≤ 2147483647)
    (hD : ∀ x ∈ v, D x) (w : BinaryWriter) (hw : w.wf) (hwv : w.m_protocolVersion = pv)
    (hroom : w.size + (encVector enc v).length ≤ 2147483647) :
    ∃ w1, save_vector ext S w v = .ok w1 ∧ w1.toValue = w.toValue ++ encVector enc v ∧
      ∀ (r : ArenaReader) (v0 : List T), r.wf → r.m_protocolVersion = pv →
        r.input.drop r.begin = BinaryWriter.appended w w1 →
        ∃ r1, load_vector ext S r v0 = .ok (v, r1) ∧ r1.empty = true := by
  obtain ⟨w1, e1, a1⟩ := save_vector_ok ext pv hpv S enc D hS v hlen hD w hw hwv hroom
  refine ⟨w1, e1, a1.2.1, ?_⟩
  intro r v0 hr hrv h
  rw [BinaryWriter.appended_eq hw a1, ← List.append_nil (encVector enc v)] at h
  obtain ⟨r1, e2, c2⟩ := load_vector_ok ext pv hpv S enc D hS v hlen hD r v0 [] hr hrv h
  refine ⟨r1, e2, ?_⟩
  have hl := congrArg List.length h
  simp only [List.length_drop, List.length_append, List.length_nil] at hl
  have hb : r.begin ≤ r.input.length := hr
  simp only [ArenaReader.empty, ArenaReader.end_, beq_iff_eq, c2.1, c2.2.1]
  omega

/-- Witness of `vector_save_load`: the `vector<string>` holding `"hi"`, `""`
and one NUL byte, saved into the example writer. -/
theorem vector_save_load_witness :
    ∃ w1, save_vector exampleExternals (stringSerializer exampleExternals) exampleWriter
        [[104, 105], [], [0]] = .ok w1 ∧
      w1.toValue = exampleWriter.toValue ++ encVector encString [[104, 105], [], [0]] ∧
      ∀ (r : ArenaReader) (v0 : List (List Nat)), r.wf →
        r.m_protocolVersion = exampleExternals.currentProtocolVersion →
        r.input.drop r.begin = BinaryWriter.appended exampleWriter w1 →
        ∃ r1, load_vector exampleExternals (stringSerializer exampleExternals) r v0 =
          .ok ([[104, 105], [], [0]], r1) ∧ r1.empty = true :=
  vector_save_load exampleExternals exampleExternals.currentProtocolVersion (by decide)
    (stringSerializer exampleExternals) encString (fun s => s.length ≤ INT_MAX)
    (string_roundTrips exampleExternals _ (by decide)) [[104, 105], [], [0]] (by decide)
    (by intro x hx; simp at hx; rcases hx with h | h | h <;> subst h <;> decide)
    exampleWriter exampleWriter_wf rfl (by decide)

/-- C1 as stated fails: `uint8_t` round-trips, yet saving a vector of
2,147,483,647 such elements into a fresh `BinaryWriter` at the valid current
version overflows the writer's `int size` instead of producing bytes to load. -/
theorem vector_save_load_counterexample :
    RoundTripsOn exampleExternals.currentProtocolVersion
        (binarySerializer exampleExternals uint8_t 0) uint8_t.toRaw (fun _ => True) ∧
      exampleExternals.isValid exampleExternals.currentProtocolVersion = true ∧
      (List.replicate 2147483647 (0 : Fin 256)).length ≤ 2147483647 ∧
      BinaryWriter.new exampleExternals (AssumeVersion exampleExternals.currentProtocolVersion) =
        .ok exampleWriter ∧
      save_vector exampleExternals (binarySerializer exampleExternals uint8_t 0) exampleWriter
        (List.replicate 2147483647 0) = .error .undefined_behavior := by
  refine ⟨uint8_roundTrips _ _, by decide, (List.length_replicate _ _).le, rfl, ?_⟩
  apply save_vector_uint8_overflow _ _ _ exampleWriter_wf
  · exact (List.length_replicate _ _).le
  · decide
  · rw [List.length_replicate]; decide

/-! ## C2: strings round-trip -/

/-- C2 (as amended): for every string `s`, on a well-formed `BinaryWriter` at a
valid version with `size + 4 + length(s)` at most 2,147,483,647, `save` succeeds
and appends `4 + length(s)` bytes, and `load` on an `ArenaReader` at a valid
version whose unread input starts with the appended bytes returns `s` and moves
the cursor by exactly `4 + length(s)`. -/
theorem string_save_load (ext : Externals) (s : List Nat) (w : BinaryWriter) (hw : w.wf)
    (hwv : ext.isValid w.m_protocolVersion = true) (hroom : w.size + 4 + s.length ≤ 2147483647) :
    ∃ w1, save_string ext w s = .ok w1 ∧ w1.size = w.size + (4 + s.length) ∧
      ∀ (r : ArenaReader) (s0 rest : List Nat), r.wf → ext.isValid r.m_protocolVersion = true →
        r.input.drop r.begin = BinaryWriter.appended w w1 ++ rest →
        ∃ r1, load_string ext r s0 = .ok (s, r1) ∧ r1.input = r.input ∧
          r1.begin = r.begin + (4 + s.length) := by
  obtain ⟨w1, e1, a1⟩ := save_string_ok ext w s hw hwv hroom
  refine ⟨w1, e1, ?_, ?_⟩
  · rw [a1.size_eq hw]; simp [encString, leBytes_length]
  · intro r s0 rest hr hrv h
    rw [BinaryWriter.appended_eq hw a1] at h
    exact ⟨_, load_string_ok ext r s s0 rest (by unfold INT_MAX; omega) hr hrv h, rfl, rfl⟩

/-- Witness of `string_save_load`: the string `a`, NUL, `b` saved into the
example writer. -/
theorem string_save_load_witness :
    ∃ w1, save_string exampleExternals exampleWriter [97, 0, 98] = .ok w1 ∧
      w1.size = exampleWriter.size + (4 + [97, 0, 98].length) ∧
      ∀ (r : ArenaReader) (s0 rest : List Nat), r.wf →
        exampleExternals.isValid r.m_protocolVersion = true →
        r.input.drop r.begin = BinaryWriter.appended exampleWriter w1 ++ rest →
        ∃ r1, load_string exampleExternals r s0 = .ok ([97, 0, 98], r1) ∧ r1.input = r.input ∧
          r1.begin = r.begin + (4 + [97, 0, 98].length) :=
  string_save_load exampleExternals [97, 0, 98] exampleWriter exampleWriter_wf (by decide) (by decide)

/-- C2 as stated fails: a string of 2,147,483,647 bytes is within the stated
bound, yet saving it into a fresh `BinaryWriter` at the valid current version
overflows the writer's `int size` (4 + 2,147,483,647 exceeds `INT_MAX`). -/
theorem string_save_load_counterexample :
    (List.replicate 2147483647 0).length ≤ 2147483647 ∧
      exampleExternals.isValid exampleExternals.currentProtocolVersion = true ∧
      BinaryWriter.new exampleExternals (AssumeVersion exampleExternals.currentProtocolVersion) =
        .ok exampleWriter ∧
      save_string exampleExternals exampleWriter (List.replicate 2147483647 0) =
        .error .undefined_behavior := by
  refine ⟨(List.length_replicate _ _).le, by decide, rfl, ?_⟩
  apply save_string_overflow _ _ _ exampleWriter_wf
  · exact (List.length_replicate _ _).le
  · decide
  · rw [List.length_replicate]; decide

/-! ## C3: the included-version gate of a reader -/

theorem includeVersion_read_eq (ext : Externals) (vo : _IncludeVersion) (input : List Nat)
    (h8 : 8 ≤ input.length) :
    ArenaReader.new ext input (.includeVersion vo) =
      if ext.isValid ⟨fromLE (input.take 8)⟩ = false then .error .incompatible_protocol_version
      else if ext.gt ⟨fromLE (input.take 8)⟩ ext.currentProtocolVersion = true then
        .error .incompatible_protocol_version
      else .ok { input := input, begin := 8, check := none,
                 m_protocolVersion := ⟨fromLE (input.take 8)⟩ } := by
  have hlen : (input.take 8).length = protocolVersion_t.sizeOf := by
    simp only [List.length_take, protocolVersion_t]; omega
  have e1 := binary_load_ok ext protocolVersion_t ext.defaultProtocolVersion vo.v
    { input := input, begin := 0, check := none, m_protocolVersion := ext.defaultProtocolVersion }
    (input.take 8) (input.drop 8) (Nat.zero_le _) hlen (by simp)
  have h8' : (input.take 8).length = 8 := hlen
  simp only [ArenaReader.new, VersionOptions.read, _IncludeVersion.read, bind, Except.bind, e1]
  cases hv : ext.isValid ⟨fromLE (input.take 8)⟩ <;>
    cases hg : ext.gt ⟨fromLE (input.take 8)⟩ ext.currentProtocolVersion <;>
    simp [protocolVersion_t, hv, hg, h8', ArenaReader.setProtocolVersion, pure, Except.pure, throw,
      throwThe, MonadExceptOf.throw]

/-- C3: for every input of at least 8 bytes, constructing an `ArenaReader` with
the included-version policy raises `incompatible_protocol_version` exactly when
the version decoded from the first 8 bytes is invalid or greater than
`currentProtocolVersion`; otherwise construction succeeds, the ambient version
is the decoded one and the cursor stands 8 bytes past the start. -/
theorem includeVersion_reader_gate (ext : Externals) (vo : _IncludeVersion) (input : List Nat)
    (h8 : 8 ≤ input.length) :
    (ArenaReader.new ext input (.includeVersion vo) = .error .incompatible_protocol_version ↔
      (ext.isValid ⟨fromLE (input.take 8)⟩ = false ∨
        ext.gt ⟨fromLE (input.take 8)⟩ ext.currentProtocolVersion = true)) ∧
    (¬ (ext.isValid ⟨fromLE (input.take 8)⟩ = false ∨
        ext.gt ⟨fromLE (input.take 8)⟩ ext.currentProtocolVersion = true) →
      ∃ r, ArenaReader.new ext input (.includeVersion vo) = .ok r ∧
        r.m_protocolVersion = ⟨fromLE (input.take 8)⟩ ∧ r.begin = 8 ∧ r.input = input) := by
  rw [includeVersion_read_eq ext vo input h8]
  cases hv : ext.isValid ⟨fromLE (input.take 8)⟩ <;>
    cases hg : ext.gt ⟨fromLE (input.take 8)⟩ ext.currentProtocolVersion <;> simp

/-- Witness of `includeVersion_reader_gate`: the 8 bytes of the current version
of `exampleExternals` followed by two payload bytes. -/
theorem includeVersion_reader_gate_witness :
    (ArenaReader.new exampleExternals [1, 0, 7, 97, 176, 0, 219, 15, 5, 6]
        (.includeVersion ⟨exampleExternals.currentProtocolVersion⟩) =
          .error .incompatible_protocol_version ↔
      (exampleExternals.isValid ⟨fromLE ([1, 0, 7, 97, 176, 0, 219, 15, 5, 6].take 8)⟩ = false ∨
        exampleExternals.gt ⟨fromLE ([1, 0, 7, 97, 176, 0, 219, 15, 5, 6].take 8)⟩
          exampleExternals.currentProtocolVersion = true)) ∧
    (¬ (exampleExternals.isValid ⟨fromLE ([1, 0, 7, 97, 176, 0, 219, 15, 5, 6].take 8)⟩ = false ∨
        exampleExternals.gt ⟨fromLE ([1, 0, 7, 97, 176, 0, 219, 15, 5, 6].take 8)⟩
          exampleExternals.currentProtocolVersion = true) →
      ∃ r, ArenaReader.new exampleExternals [1, 0, 7, 97, 176, 0, 219, 15, 5, 6]
          (.includeVersion ⟨exampleExternals.currentProtocolVersion⟩) = .ok r ∧
        r.m_protocolVersion = ⟨fromLE ([1, 0, 7, 97, 176, 0, 219, 15, 5, 6].take 8)⟩ ∧
        r.begin = 8 ∧ r.input = [1, 0, 7, 97, 176, 0, 219, 15, 5, 6]) :=
  includeVersion_reader_gate exampleExternals ⟨exampleExternals.currentProtocolVersion⟩
    [1, 0, 7, 97, 176, 0, 219, 15, 5, 6] (by decide)

/-! ## C4: the included-version header of a writer -/

theorem new_includeVersion (ext : Externals) (V : ProtocolVersion) :
    ∃ w, BinaryWriter.new ext (.includeVersion ⟨V⟩) = .ok w ∧ w.wf ∧
      w.toValue = leBytes 8 V.versionWithFlags ∧ w.m_protocolVersion = V := by
  have hw0 : (BinaryWriter.setProtocolVersion
      { data := [], size := 0, allocated := 0, m_protocolVersion := ext.defaultProtocolVersion } V).wf :=
    ⟨Nat.le_refl 0, rfl⟩
  obtain ⟨w, e, a⟩ := BinaryWriter.serializeBinaryItem_ok ext _ (leBytes 8 V.versionWithFlags) hw0
    (by rw [leBytes_length]; show 0 + 8 ≤ INT_MAX; decide)
  exact ⟨w, e, a.1, by simpa [BinaryWriter.toValue, BinaryWriter.setProtocolVersion] using a.2.1, a.2.2⟩

theorem fromLE_leBytes_version (V : ProtocolVersion) (h64 : V.versionWithFlags < 2 ^ 64) :
    (⟨fromLE ((leBytes 8 V.versionWithFlags).take 8)⟩ : ProtocolVersion) = V := by
  rw [List.take_of_length_le (by rw [leBytes_length]), fromLE_leBytes,
    Nat.mod_eq_of_lt (by norm_num at h64 ⊢; exact h64)]

/-- C4: for every valid protocol version `V` not greater than
`currentProtocolVersion`, `IncludeVersion(V)` is accepted, the `BinaryWriter`
constructed with it has ambient version `V` and holds exactly the 8 raw bytes of
`versionWithFlags`, and a reader constructed over those bytes with the
included-version policy succeeds, has ambient version `V` and is empty. -/
theorem includeVersion_writer_header (ext : Externals) (V : ProtocolVersion)
    (hV : ext.isValid V = true) (hle : ext.gt V ext.currentProtocolVersion = false)
    (h64 : V.versionWithFlags < 2 ^ 64) :
    IncludeVersion ext V = .ok (.includeVersion ⟨V⟩) ∧
    ∃ w, BinaryWriter.new ext (.includeVersion ⟨V⟩) = .ok w ∧ w.m_protocolVersion = V ∧
      w.toValue = leBytes 8 V.versionWithFlags ∧ w.getLength = 8 ∧
      ∀ vo : _IncludeVersion, ∃ r, ArenaReader.new ext w.toValue (.includeVersion vo) = .ok r ∧
        r.m_protocolVersion = V ∧ r.empty = true := by
  refine ⟨by simp [IncludeVersion, hV], ?_⟩
  obtain ⟨w, e, hw, hval, hpv⟩ := new_includeVersion ext V
  refine ⟨w, e, hpv, hval, ?_, ?_⟩
  · have := BinaryWriter.toValue_length w hw
    rw [hval, leBytes_length] at this
    exact this.symm
  · intro vo
    rw [hval, includeVersion_read_eq ext vo _ (by rw [leBytes_length]), fromLE_leBytes_version V h64]
    simp [hV, hle, ArenaReader.empty, ArenaReader.end_, leBytes_length]

/-- Witness of `includeVersion_writer_header`: the current version of
`exampleExternals`. -/
theorem includeVersion_writer_header_witness :
    IncludeVersion exampleExternals exampleExternals.currentProtocolVersion =
      .ok (.includeVersion ⟨exampleExternals.currentProtocolVersion⟩) ∧
    ∃ w, BinaryWriter.new exampleExternals (.includeVersion ⟨exampleExternals.currentProtocolVersion⟩) =
        .ok w ∧ w.m_protocolVersion = exampleExternals.currentProtocolVersion ∧
      w.toValue = leBytes 8 exampleExternals.currentProtocolVersion.versionWithFlags ∧
      w.getLength = 8 ∧
      ∀ vo : _IncludeVersion, ∃ r, ArenaReader.new exampleExternals w.toValue (.includeVersion vo) = .ok r ∧
        r.m_protocolVersion = exampleExternals.currentProtocolVersion ∧ r.empty = true :=
  includeVersion_writer_header exampleExternals exampleExternals.currentProtocolVersion
    (by decide) (by decide) (by decide)

/-! ## C5: the pair (uint32 300, "ab") under IncludeVersion(current) -/

theorem pair_roundTrips {T1 T2 : Type} (pv : ProtocolVersion) (S1 : Serializer T1)
    (S2 : Serializer T2) (enc1 : T1 → List Nat) (enc2 : T2 → List Nat) (D1 : T1 → Prop)
    (D2 : T2 → Prop) (h1 : RoundTripsOn pv S1 enc1 D1) (h2 : RoundTripsOn pv S2 enc2 D2) :
    RoundTripsOn pv (pairSerializer S1 S2) (fun p => enc1 p.1 ++ enc2 p.2)
      (fun p => D1 p.1 ∧ D2 p.2) := by
  constructor
  · intro w x hx hw hwv hroom
    simp only [List.length_append] at hroom
    obtain ⟨w1, e1, a1⟩ := h1.1 w x.1 hx.1 hw hwv (by omega)
    have hs1 := a1.size_eq hw
    obtain ⟨w2, e2, a2⟩ := h2.1 w1 x.2 hx.2 a1.1 (by rw [a1.2.2]; exact hwv) (by omega)
    exact ⟨w2, by simp only [pairSerializer, bind, Except.bind, e1, e2], a1.append a2⟩
  · intro r x x0 rest hx hr hrv h
    simp only [List.append_assoc] at h
    obtain ⟨r1, e1, c1⟩ := h1.2 r x.1 x0.1 _ hx.1 hr hrv h
    obtain ⟨hr1, hd1⟩ := ArenaReader.Consumes.wf_after hr h rfl c1
    obtain ⟨r2, e2, c2⟩ := h2.2 r1 x.2 x0.2 rest hx.2 hr1 (by rw [c1.2.2]; exact hrv) hd1
    refine ⟨r2, ?_, by simpa only [List.length_append] using c1.add c2⟩
    simp only [pairSerializer, bind, Except.bind, e1, e2, pure, Except.pure]

theorem uint32_roundTrips (ext : Externals) (pv : ProtocolVersion) :
    RoundTripsOn pv (binarySerializer ext uint32_t 0) (leBytes 4) (fun x => x < 2 ^ 32) := by
  apply binary_roundTrips ext uint32_t 0 pv
  intro x hx
  refine ⟨leBytes_length 4 x, ?_⟩
  show fromLE (leBytes 4 x) % 2 ^ 32 = x
  rw [fromLE_leBytes]
  norm_num at hx ⊢
  omega

theorem pairUint32String_roundTrips (ext : Externals) (pv : ProtocolVersion)
    (hpv : ext.isValid pv = true) :
    RoundTripsOn pv (pairUint32String ext) (fun p => leBytes 4 p.1 ++ encString p.2)
      (fun p => p.1 < 2 ^ 32 ∧ p.2.length ≤ INT_MAX) :=
  pair_roundTrips pv _ _ _ _ _ _ (uint32_roundTrips ext pv) (string_roundTrips ext pv hpv)

/-- C5 (as amended): under `IncludeVersion(currentProtocolVersion)`,
`BinaryWriter::toValue` of the pair (uint32 300, string "ab") is exactly
[8-byte version][300 as 4 raw bytes][4-byte length = 2]['a']['b'], with no
length field in front of the scalar, and decoding those bytes as a
`pair<uint32, string>` under the same policy reproduces (300, "ab") and leaves
the reader empty. -/
theorem toValue_pair_300_ab (ext : Externals)
    (hcur : ext.isValid ext.currentProtocolVersion = true)
    (hle : ext.gt ext.currentProtocolVersion ext.currentProtocolVersion = false)
    (h64 : ext.currentProtocolVersion.versionWithFlags < 2 ^ 64) :
    BinaryWriter.toValueOf ext (pairUint32String ext) (300, [97, 98])
        (.includeVersion ⟨ext.currentProtocolVersion⟩) =
      .ok (leBytes 8 ext.currentProtocolVersion.versionWithFlags ++
        [44, 1, 0, 0, 2, 0, 0, 0, 97, 98]) ∧
    ∃ r, ArenaReader.readValue ext (pairUint32String ext)
        (leBytes 8 ext.currentProtocolVersion.versionWithFlags ++ [44, 1, 0, 0, 2, 0, 0, 0, 97, 98])
        (.includeVersion ⟨ext.currentProtocolVersion⟩) = .ok ((300, [97, 98]), r) ∧
      r.empty = true := by
  have hRT := pairUint32String_roundTrips ext ext.currentProtocolVersion hcur
  have henc : leBytes 4 300 ++ encString [97, 98] = [44, 1, 0, 0, 2, 0, 0, 0, 97, 98] := by decide
  constructor
  · obtain ⟨w, e, hw, hval, hpv⟩ := new_includeVersion ext ext.currentProtocolVersion
    have hsz := BinaryWriter.toValue_length w hw
    rw [hval, leBytes_length] at hsz
    obtain ⟨w1, e1, a1⟩ := hRT.1 w (300, [97, 98]) ⟨by norm_num, by decide⟩ hw hpv
      (by rw [← hsz]; decide)
    simp only [BinaryWriter.toValueOf, bind, Except.bind, e, e1, pure, Except.pure, a1.2.1, hval]
    rw [henc]
  · have hinput : (leBytes 8 ext.currentProtocolVersion.versionWithFlags ++
        [44, 1, 0, 0, 2, 0, 0, 0, 97, 98]).take 8 =
        (leBytes 8 ext.currentProtocolVersion.versionWithFlags).take 8 := by
      rw [List.take_append_of_le_length (by rw [leBytes_length])]
    have enew := includeVersion_read_eq ext ⟨ext.currentProtocolVersion⟩
      (leBytes 8 ext.currentProtocolVersion.versionWithFlags ++ [44, 1, 0, 0, 2, 0, 0, 0, 97, 98])
      (by simp [leBytes_length])
    rw [hinput, fromLE_leBytes_version _ h64] at enew
    simp only [hcur, hle, Bool.true_eq_false, Bool.false_eq_true, if_false] at enew
    have hdrop : List.drop 8 (leBytes 8 ext.currentProtocolVersion.versionWithFlags ++
        [44, 1, 0, 0, 2, 0, 0, 0, 97, 98]) = leBytes 4 300 ++ encString [97, 98] ++ [] := by
      rw [henc, List.append_nil]
      have := List.drop_left (leBytes 8 ext.currentProtocolVersion.versionWithFlags)
        [44, 1, 0, 0, 2, 0, 0, 0, 97, 98]
      rwa [leBytes_length] at this
    obtain ⟨r1, e1, c1⟩ := hRT.2
      { input := leBytes 8 ext.currentProtocolVersion.versionWithFlags ++
          [44, 1, 0, 0, 2, 0, 0, 0, 97, 98],
        begin := 8, check := none, m_protocolVersion := ext.currentProtocolVersion }
      (300, [97, 98]) (pairUint32String ext).init []
      ⟨by norm_num, by decide⟩
      (show (8 : Nat) ≤ (leBytes 8 ext.currentProtocolVersion.versionWithFlags ++
          [44, 1, 0, 0, 2, 0, 0, 0, 97, 98]).length by simp [leBytes_length]) rfl hdrop
    refine ⟨r1, ?_, ?_⟩
    · simp only [ArenaReader.readValue, bind, Except.bind, enew, e1]
    · simp [ArenaReader.empty, ArenaReader.end_, c1.1, c1.2.1, henc, leBytes_length]

/-- Witness of `toValue_pair_300_ab` at `exampleExternals`. -/
theorem toValue_pair_300_ab_witness :
    BinaryWriter.toValueOf exampleExternals (pairUint32String exampleExternals) (300, [97, 98])
        (.includeVersion ⟨exampleExternals.currentProtocolVersion⟩) =
      .ok (leBytes 8 exampleExternals.currentProtocolVersion.versionWithFlags ++
        [44, 1, 0, 0, 2, 0, 0, 0, 97, 98]) ∧
    ∃ r, ArenaReader.readValue exampleExternals (pairUint32String exampleExternals)
        (leBytes 8 exampleExternals.currentProtocolVersion.versionWithFlags ++
          [44, 1, 0, 0, 2, 0, 0, 0, 97, 98])
        (.includeVersion ⟨exampleExternals.currentProtocolVersion⟩) = .ok ((300, [97, 98]), r) ∧
      r.empty = true :=
  toValue_pair_300_ab exampleExternals (by decide) (by decide) (by decide)

/-- C5 as stated fails: the encoding holds no 4-byte length 4 in front of the
raw bytes of 300; it is 18 bytes long, not the 22 bytes
[version][len=4][300][len=2]['a']['b']. -/
theorem toValue_pair_300_ab_counterexample :
    IncludeVersion exampleExternals exampleExternals.currentProtocolVersion =
      .ok (.includeVersion ⟨exampleExternals.currentProtocolVersion⟩) ∧
    BinaryWriter.toValueOf exampleExternals (pairUint32String exampleExternals) (300, [97, 98])
        (.includeVersion ⟨exampleExternals.currentProtocolVersion⟩) =
      .ok [1, 0, 7, 97, 176, 0, 219, 15, 44, 1, 0, 0, 2, 0, 0, 0, 97, 98] ∧
    BinaryWriter.toValueOf exampleExternals (pairUint32String exampleExternals) (300, [97, 98])
        (.includeVersion ⟨exampleExternals.currentProtocolVersion⟩) ≠
      .ok (leBytes 8 exampleExternals.currentProtocolVersion.versionWithFlags ++
        [4, 0, 0, 0] ++ leBytes 4 300 ++ [2, 0, 0, 0] ++ [97, 98]) := by
  have h : BinaryWriter.toValueOf exampleExternals (pairUint32String exampleExternals)
      (300, [97, 98]) (.includeVersion ⟨exampleExternals.currentProtocolVersion⟩) =
      .ok [1, 0, 7, 97, 176, 0, 219, 15, 44, 1, 0, 0, 2, 0, 0, 0, 97, 98] := by rfl
  refine ⟨rfl, h, ?_⟩
  rw [h]
  intro hne
  have hl := congrArg List.length (Except.ok.inj hne)
  revert hl
  decide

/-! ## Byte-level lemmas for the ordered-key encoding -/

theorem leBytes_lt (k x : Nat) : ∀ b ∈ leBytes k x, b < 256 := by
  induction k generalizing x with
  | zero => intro b hb; simp [leBytes] at hb
  | succ k ih =>
    intro b hb
    simp only [leBytes, List.mem_cons] at hb
    rcases hb with h | h
    · rw [h]; exact Nat.mod_lt _ (by norm_num)
    · exact ih _ b h

theorem leBytes_fromLE (l : List Nat) (h : ∀ b ∈ l, b < 256) : leBytes l.length (fromLE l) = l := by
  induction l with
  | nil => rfl
  | cons b bs ih =>
    have hb : b < 256 := h b (List.mem_cons_self _ _)
    have ih1 := ih (fun c hc => h c (List.mem_cons_of_mem _ hc))
    simp only [List.length_cons, leBytes, fromLE]
    have h1 : (b + 256 * fromLE bs) % 256 = b := by omega
    have h2 : (b + 256 * fromLE bs) / 256 = fromLE bs := by omega
    rw [h1, h2, ih1]

theorem leBytes_add (a b x : Nat) : leBytes (a + b) x = leBytes a x ++ leBytes b (x / 256 ^ a) := by
  induction a generalizing x with
  | zero => simp [leBytes]
  | succ a ih =>
    rw [Nat.add_right_comm]
    simp only [leBytes, ih, List.cons_append]
    rw [Nat.div_div_eq_div_mul, pow_succ, Nat.mul_comm]

theorem leBytes_mod (k x : Nat) : leBytes k (x % 256 ^ k) = leBytes k x := by
  induction k generalizing x with
  | zero => rfl
  | succ k ih =>
    simp only [leBytes]
    have h1 : x % 256 ^ (k + 1) % 256 = x % 256 := by
      rw [pow_succ, Nat.mul_comm, Nat.mod_mul_right_mod]
    have h2 : x % 256 ^ (k + 1) / 256 = (x / 256) % 256 ^ k := by
      rw [pow_succ, Nat.mul_comm, Nat.mod_mul_right_div_self]
    rw [h1, h2, ih]

theorem lastBytes_bigEndian64 (t n : Nat) (hn : n ≤ 8) : lastBytes (bigEndian64 t) n = beBytes n t := by
  unfold lastBytes bigEndian64 beBytes
  have h8 : (leBytes 8 t).reverse.length = 8 := by rw [List.length_reverse, leBytes_length]
  have := leBytes_fromLE (leBytes 8 t).reverse (fun b hb => leBytes_lt 8 t b (List.mem_reverse.mp hb))
  rw [h8] at this
  rw [this]
  have hsplit : leBytes 8 t = leBytes n t ++ leBytes (8 - n) (t / 256 ^ n) := by
    rw [← leBytes_add]; congr 1; omega
  rw [hsplit, List.reverse_append]
  have hl : (leBytes (8 - n) (t / 256 ^ n)).reverse.length = 8 - n := by
    rw [List.length_reverse, leBytes_length]
  rw [List.drop_left' hl, List.take_of_length_le (by rw [List.length_reverse, leBytes_length])]

theorem beBytes_succ (k x : Nat) : beBytes (k + 1) x = (x / 256 ^ k) % 256 :: beBytes k (x % 256 ^ k) := by
  unfold beBytes
  rw [leBytes_add k 1 x, List.reverse_append, leBytes_mod]
  simp [leBytes]

theorem beBytes_lt (k : Nat) : ∀ a b : Nat, a < b → b < 256 ^ k → bytesLt (beBytes k a) (beBytes k b) := by
  induction k with
  | zero => intro a b hab hb; simp at hb; omega
  | succ k ih =>
    intro a b hab hb
    rw [beBytes_succ, beBytes_succ]
    have hpos : 0 < 256 ^ k := by positivity
    have hb1 : b / 256 ^ k < 256 := by
      rw [Nat.div_lt_iff_lt_mul hpos]; rw [pow_succ, Nat.mul_comm] at hb; exact hb
    have ha1 : a / 256 ^ k ≤ b / 256 ^ k := Nat.div_le_div_right (Nat.le_of_lt hab)
    rw [Nat.mod_eq_of_lt hb1, Nat.mod_eq_of_lt (lt_of_le_of_lt ha1 hb1)]
    simp only [bytesLt]
    rcases Nat.lt_or_eq_of_le ha1 with h | h
    · exact Or.inl h
    · refine Or.inr ⟨h, ih _ _ ?_ (Nat.mod_lt _ hpos)⟩
      have e1 := Nat.div_add_mod a (256 ^ k)
      have e2 := Nat.div_add_mod b (256 ^ k)
      rw [h] at e1
      omega

theorem shift_ne_zero (val n : Nat) : val >>> n ≠ 0 ↔ 2 ^ n ≤ val := by
  have hp : 0 < 2 ^ n := by positivity
  rw [Nat.shiftRight_eq_div_pow, ← Nat.pos_iff_ne_zero]
  constructor
  · intro h
    by_contra hlt
    rw [Nat.div_eq_of_lt (Nat.lt_of_not_le hlt)] at h
    exact Nat.lt_irrefl 0 h
  · intro h
    exact Nat.div_pos h hp

theorem bytesNeeded_eq (t : Nat) : bytesNeeded t = minimalWidth t := by
  simp only [bytesNeeded, bytesNeededLoop, shift_ne_zero, minimalWidth]
  simp only [Nat.reduceAdd, Nat.reduceMul, Nat.reducePow, Nat.reduceLT, true_and]
  simp only [← Nat.not_le, ite_not]

theorem beBytes_length (k x : Nat) : (beBytes k x).length = k := by
  rw [beBytes, List.length_reverse, leBytes_length]

theorem beBytes_mod (k x : Nat) : beBytes k (x % 256 ^ k) = beBytes k x := by
  rw [beBytes, beBytes, leBytes_mod]

theorem minimalWidth_range (m : Nat) : 1 ≤ minimalWidth m ∧ minimalWidth m ≤ 8 := by
  unfold minimalWidth
  split_ifs <;> omega

theorem minimalWidth_bound (m : Nat) (h : m < 2 ^ 64) : m < 256 ^ minimalWidth m := by
  unfold minimalWidth
  split_ifs <;> norm_num at * <;> omega

theorem minimalWidth_least (m j : Nat) (h1 : 1 ≤ j) (h2 : j < minimalWidth m) : 256 ^ j ≤ m := by
  have hj : j = 1 ∨ j = 2 ∨ j = 3 ∨ j = 4 ∨ j = 5 ∨ j = 6 ∨ j = 7 := by
    have := (minimalWidth_range m).2; omega
  unfold minimalWidth at h2
  rcases hj with h | h | h | h | h | h | h <;> subst h <;> split_ifs at h2 <;> norm_num at * <;> omega

theorem minimalWidth_of_ge (m : Nat) (h : 2 ^ 56 ≤ m) : minimalWidth m = 8 := by
  unfold minimalWidth
  split_ifs <;> norm_num at * <;> omega

theorem minimalWidth_mono (a b : Nat) (h : a ≤ b) : minimalWidth a ≤ minimalWidth b := by
  by_cases hb : b < 2 ^ 64
  · by_contra hlt
    have h1 := minimalWidth_least a (minimalWidth b) (minimalWidth_range b).1 (by omega)
    have h2 := minimalWidth_bound b hb
    omega
  · rw [minimalWidth_of_ge b (by norm_num at hb ⊢; omega)]
    exact (minimalWidth_range a).2

theorem toUnsigned_of_nonneg (t : Int) (h0 : 0 ≤ t) (h : t < 2 ^ 64) : toUnsigned 64 t = t.natAbs := by
  unfold toUnsigned
  rw [Int.emod_eq_of_lt h0 h]
  omega

theorem toUnsigned_neg (t : Int) (h0 : t < 0) (h : -2 ^ 63 ≤ t) : toUnsigned 64 (-t) = t.natAbs := by
  unfold toUnsigned
  rw [Int.emod_eq_of_lt (by omega) (by omega)]
  omega

theorem toUnsigned_pred (t : Int) (h0 : t < 0) (h : -2 ^ 63 ≤ t) :
    toUnsigned 64 (t - 1) = (2 ^ 64 - 1 + t).toNat := by
  unfold toUnsigned
  have : (t - 1) % 2 ^ 64 = 2 ^ 64 - 1 + t := by
    rw [← Int.add_emod_self, Int.emod_eq_of_lt (by omega) (by omega)]
    ring
  rw [this]

theorem pow256_eq (k : Nat) : (256 : Nat) ^ k = 2 ^ (8 * k) := by
  rw [pow_mul]; norm_num

theorem neg_offset_mod (t : Int) (k : Nat) (hk : k ≤ 8) (h0 : t < 0) (hk2 : t.natAbs < 256 ^ k) :
    (2 ^ 64 - 1 + t).toNat % 256 ^ k = ((2 : Int) ^ (8 * k) - 1 + t).toNat := by
  have hdvd : (256 : Nat) ^ k ∣ 2 ^ 64 := by
    rw [pow256_eq]; exact pow_dvd_pow 2 (by omega)
  obtain ⟨c, hc⟩ := hdvd
  have hpos : 0 < 256 ^ k := by positivity
  have hcast : ((2 : Int) ^ (8 * k)) = ((256 ^ k : Nat) : Int) := by
    rw [pow256_eq]; push_cast; rfl
  have h64 : ((2 : Int) ^ 64) = ((2 ^ 64 : Nat) : Int) := by norm_num
  rw [hcast, h64, hc]
  have hc1 : 1 ≤ c := by
    rcases Nat.eq_zero_or_pos c with h | h
    · rw [h] at hc; norm_num at hc
    · exact h
  generalize 256 ^ k = P at *
  have e1 : ((P * c : Nat) : Int) - 1 + t = ((P - 1 - t.natAbs + P * (c - 1) : Nat) : Int) := by
    have : P * c = P + P * (c - 1) := by
      conv_lhs => rw [show c = 1 + (c - 1) by omega, Nat.mul_add, Nat.mul_one]
    rw [this]; push_cast; omega
  have e2 : ((P : Nat) : Int) - 1 + t = ((P - 1 - t.natAbs : Nat) : Int) := by omega
  rw [e1, e2, Int.toNat_ofNat, Int.toNat_ofNat, Nat.add_mul_mod_self_left]
  exact Nat.mod_eq_of_lt (by omega)


theorem lastBytes_length (t n : Nat) (hn : n ≤ 8) : (lastBytes (bigEndian64 t) n).length = n := by
  rw [lastBytes_bigEndian64 t n hn, beBytes_length]

theorem serializeAsTuple_uint64_ok (ext : Externals) (w : BinaryWriter) (t : Nat) (hw : w.wf)
    (hroom : w.size + 9 ≤ INT_MAX) :
    ∃ w1, BinaryWriter.serializeAsTuple_uint64 ext w t = .ok w1 ∧ w.Appends w1 (tupleIntSpec t) := by
  by_cases h0 : t = 0
  · subst h0
    obtain ⟨w1, e, a⟩ := BinaryWriter.serializeBinaryItem_ok ext w [20] hw (by simp; omega)
    exact ⟨w1, by simpa [BinaryWriter.serializeAsTuple_uint64, BinaryWriter.serializeBinaryItem] using e,
      by simpa [tupleIntSpec] using a⟩
  · have hr := minimalWidth_range t
    have hlen : ((20 + minimalWidth t) % 256 :: lastBytes (bigEndian64 t) (minimalWidth t)).length =
        minimalWidth t + 1 := by
      rw [List.length_cons, lastBytes_length _ _ hr.2]
    obtain ⟨w1, e, a⟩ := BinaryWriter.serializeBinaryItem_ok ext w
      ((20 + minimalWidth t) % 256 :: lastBytes (bigEndian64 t) (minimalWidth t)) hw
      (by rw [hlen]; omega)
    refine ⟨w1, ?_, ?_⟩
    · simp only [BinaryWriter.serializeBinaryItem, hlen] at e
      simp only [BinaryWriter.serializeAsTuple_uint64, h0, if_false, bytesNeeded_eq]
      exact e
    · have ht : (t : Int) > 0 := by omega
      have hne : (t : Int) ≠ 0 := by omega
      simp only [tupleIntSpec, hne, if_false, ht, if_true, Int.natAbs_ofNat, Int.toNat_ofNat]
      rw [lastBytes_bigEndian64 _ _ hr.2, Nat.mod_eq_of_lt (by omega)] at a
      exact a

theorem serializeAsTuple_int64_ok (ext : Externals) (w : BinaryWriter) (t : Int) (hw : w.wf)
    (hlo : -2 ^ 63 ≤ t) (hhi : t < 2 ^ 63) (hroom : w.size + 9 ≤ INT_MAX) :
    ∃ w1, BinaryWriter.serializeAsTuple_int64 ext w t = .ok w1 ∧ w.Appends w1 (tupleIntSpec t) := by
  by_cases h0 : t = 0
  · subst h0
    obtain ⟨w1, e, a⟩ := BinaryWriter.serializeBinaryItem_ok ext w [20] hw (by simp; omega)
    exact ⟨w1, by simpa [BinaryWriter.serializeAsTuple_int64, BinaryWriter.serializeBinaryItem] using e,
      by simpa [tupleIntSpec] using a⟩
  · have hr := minimalWidth_range t.natAbs
    by_cases hpos : t > 0
    · have hu : toUnsigned 64 t = t.natAbs := toUnsigned_of_nonneg t (by omega) (by omega)
      have hlen : ((20 + minimalWidth t.natAbs) % 256 ::
          lastBytes (bigEndian64 t.natAbs) (minimalWidth t.natAbs)).length =
          minimalWidth t.natAbs + 1 := by
        rw [List.length_cons, lastBytes_length _ _ hr.2]
      obtain ⟨w1, e, a⟩ := BinaryWriter.serializeBinaryItem_ok ext w
        ((20 + minimalWidth t.natAbs) % 256 ::
          lastBytes (bigEndian64 t.natAbs) (minimalWidth t.natAbs)) hw (by rw [hlen]; omega)
      refine ⟨w1, ?_, ?_⟩
      · simp only [BinaryWriter.serializeBinaryItem, hlen] at e
        simp only [BinaryWriter.serializeAsTuple_int64, h0, if_false, hpos, if_true, hu, bytesNeeded_eq]
        exact e
      · have htn : t.toNat = t.natAbs := by omega
        simp only [tupleIntSpec, h0, if_false, hpos, if_true, htn]
        rw [lastBytes_bigEndian64 _ _ hr.2, Nat.mod_eq_of_lt (by omega)] at a
        exact a
    · have hneg : t < 0 := by omega
      have hu : toUnsigned 64 (-t) = t.natAbs := toUnsigned_neg t hneg hlo
      have hx := toUnsigned_pred t hneg hlo
      have hlen : ((20 - minimalWidth t.natAbs) % 256 ::
          lastBytes (bigEndian64 (2 ^ 64 - 1 + t).toNat) (minimalWidth t.natAbs)).length =
          minimalWidth t.natAbs + 1 := by
        rw [List.length_cons, lastBytes_length _ _ hr.2]
      obtain ⟨w1, e, a⟩ := BinaryWriter.serializeBinaryItem_ok ext w
        ((20 - minimalWidth t.natAbs) % 256 ::
          lastBytes (bigEndian64 (2 ^ 64 - 1 + t).toNat) (minimalWidth t.natAbs)) hw
        (by rw [hlen]; omega)
      refine ⟨w1, ?_, ?_⟩
      · simp only [BinaryWriter.serializeBinaryItem, hlen] at e
        simp only [BinaryWriter.serializeAsTuple_int64, h0, if_false, hpos, hu, hx, bytesNeeded_eq]
        exact e
      · simp only [tupleIntSpec, h0, if_false, hpos]
        rw [lastBytes_bigEndian64 _ _ hr.2, Nat.mod_eq_of_lt (by omega), ← beBytes_mod,
          neg_offset_mod t _ hr.2 hneg (minimalWidth_bound _ (by omega))] at a
        exact a

theorem serializeAsTuple_overloads_agree (ext : Externals) (w : BinaryWriter) (t : Nat) (h : t < 2 ^ 63) :
    BinaryWriter.serializeAsTuple_uint64 ext w t = BinaryWriter.serializeAsTuple_int64 ext w (t : Int) := by
  by_cases h0 : t = 0
  · subst h0; simp [BinaryWriter.serializeAsTuple_uint64, BinaryWriter.serializeAsTuple_int64]
  · have hpos : (t : Int) > 0 := by omega
    have hne : (t : Int) ≠ 0 := by omega
    have hu : toUnsigned 64 (t : Int) = t := by
      rw [toUnsigned_of_nonneg _ (by omega) (by omega)]; rfl
    simp only [BinaryWriter.serializeAsTuple_uint64, BinaryWriter.serializeAsTuple_int64, h0, hne,
      if_false, hpos, if_true, hu]


theorem pow_cast_256 (k : Nat) : ((2 : Int) ^ (8 * k)) = ((256 ^ k : Nat) : Int) := by
  rw [pow256_eq]; push_cast; rfl

theorem tupleIntSpec_lt (a b : Int) (hab : a < b) (ha : -2 ^ 63 ≤ a) (hb : b < 2 ^ 63) :
    bytesLt (tupleIntSpec a) (tupleIntSpec b) := by
  have hra := minimalWidth_range a.natAbs
  have hrb := minimalWidth_range b.natAbs
  rcases lt_trichotomy a 0 with ha0 | ha0 | ha0
  · -- a negative
    have hane : a ≠ 0 := by omega
    have hanp : ¬ a > 0 := by omega
    simp only [tupleIntSpec, hane, if_false, hanp]
    rcases lt_trichotomy b 0 with hb0 | hb0 | hb0
    · have hbne : b ≠ 0 := by omega
      have hbnp : ¬ b > 0 := by omega
      simp only [hbne, if_false, hbnp, bytesLt]
      have hmono := minimalWidth_mono b.natAbs a.natAbs (by omega)
      rcases Nat.lt_or_eq_of_le hmono with hk | hk
      · left; omega
      · right
        refine ⟨by rw [hk], ?_⟩
        rw [hk]
        have hbound := minimalWidth_bound a.natAbs (by omega)
        have hboundb := minimalWidth_bound b.natAbs (by omega)
        rw [hk] at hboundb
        rw [pow_cast_256]
        apply beBytes_lt
        · generalize 256 ^ minimalWidth a.natAbs = P at *
          omega
        · generalize 256 ^ minimalWidth a.natAbs = P at *
          omega
    · subst hb0
      simp only [if_true, bytesLt]
      left; omega
    · have hbne : b ≠ 0 := by omega
      simp only [hbne, if_false, hb0, if_true, bytesLt]
      left; omega
  · subst ha0
    have hbne : b ≠ 0 := by omega
    have hbp : b > 0 := hab
    simp only [tupleIntSpec, if_true, hbne, if_false, hbp, bytesLt]
    left; omega
  · have hane : a ≠ 0 := by omega
    have hbne : b ≠ 0 := by omega
    have hbp : b > 0 := by omega
    simp only [tupleIntSpec, hane, hbne, if_false, ha0, hbp, if_true, bytesLt]
    have hmono := minimalWidth_mono a.natAbs b.natAbs (by omega)
    rcases Nat.lt_or_eq_of_le hmono with hk | hk
    · left; omega
    · right
      refine ⟨by rw [hk], ?_⟩
      rw [hk]
      apply beBytes_lt
      · omega
      · have := minimalWidth_bound b.natAbs (by omega)
        have e : b.toNat = b.natAbs := by omega
        rw [e]; exact this


/-! ## C6: the integer ordered-key encoding preserves order -/

/-- C6: for all 64-bit signed integers `a < b` (the full range, `INT64_MIN`
included, with `-t` and `t-1` wrapping), on a writer with room for the at most
9 bytes of each encoding, `serializeAsTuple(int64 a)` appends bytes that are
strictly less, in unsigned lexicographic order, than those
`serializeAsTuple(int64 b)` appends. -/
theorem serializeAsTuple_int64_order (ext : Externals) (w : BinaryWriter) (a b : Int) (hw : w.wf)
    (hroom : w.size + 9 ≤ 2147483647) (ha : -2 ^ 63 ≤ a) (hab : a < b) (hb : b < 2 ^ 63) :
    ∃ wa wb, BinaryWriter.serializeAsTuple_int64 ext w a = .ok wa ∧
      BinaryWriter.serializeAsTuple_int64 ext w b = .ok wb ∧
      bytesLt (BinaryWriter.appended w wa) (BinaryWriter.appended w wb) := by
  obtain ⟨wa, ea, aa⟩ := serializeAsTuple_int64_ok ext w a hw ha (by omega) hroom
  obtain ⟨wb, eb, ab⟩ := serializeAsTuple_int64_ok ext w b hw (by omega) hb hroom
  refine ⟨wa, wb, ea, eb, ?_⟩
  rw [BinaryWriter.appended_eq hw aa, BinaryWriter.appended_eq hw ab]
  exact tupleIntSpec_lt a b hab ha hb

/-- Witness of `serializeAsTuple_int64_order`: `INT64_MIN` against
`INT64_MIN + 1` on the example writer. -/
theorem serializeAsTuple_int64_order_witness :
    ∃ wa wb, BinaryWriter.serializeAsTuple_int64 exampleExternals exampleWriter
        (-9223372036854775808) = .ok wa ∧
      BinaryWriter.serializeAsTuple_int64 exampleExternals exampleWriter
        (-9223372036854775807) = .ok wb ∧
      bytesLt (BinaryWriter.appended exampleWriter wa) (BinaryWriter.appended exampleWriter wb) :=
  serializeAsTuple_int64_order exampleExternals exampleWriter (-9223372036854775808)
    (-9223372036854775807) exampleWriter_wf (by decide) (by decide) (by decide) (by decide)

/-! ## C7: the format of the integer ordered-key encoding -/

/-- C7: on a writer with room for 9 bytes, `serializeAsTuple` of any `uint64_t`
and of any `int64_t` appends exactly the bytes of `tupleIntSpec` (`0x14` for 0;
`0x14 + k` and the `k`-byte big-endian `t` for `t > 0`; `0x14 - k` and the
`k`-byte big-endian `2^(8k) - 1 + t` for `t < 0`), the two overloads agree on
`0..INT64_MAX`, and `k` is the least width in `1..8` that holds `|t|`. -/
theorem serializeAsTuple_int_format (ext : Externals) (w : BinaryWriter) (hw : w.wf)
    (hroom : w.size + 9 ≤ 2147483647) :
    (∀ t : Nat, t < 2 ^ 64 → ∃ w1, BinaryWriter.serializeAsTuple_uint64 ext w t = .ok w1 ∧
      BinaryWriter.appended w w1 = tupleIntSpec t) ∧
    (∀ t : Int, -2 ^ 63 ≤ t → t < 2 ^ 63 →
      ∃ w1, BinaryWriter.serializeAsTuple_int64 ext w t = .ok w1 ∧
        BinaryWriter.appended w w1 = tupleIntSpec t) ∧
    (∀ t : Nat, t < 2 ^ 63 →
      BinaryWriter.serializeAsTuple_uint64 ext w t = BinaryWriter.serializeAsTuple_int64 ext w t) ∧
    (∀ m : Nat, m < 2 ^ 64 → 1 ≤ minimalWidth m ∧ minimalWidth m ≤ 8 ∧
      m < 2 ^ (8 * minimalWidth m) ∧ ∀ j, 1 ≤ j → j < minimalWidth m → 2 ^ (8 * j) ≤ m) := by
  refine ⟨?_, ?_, ?_, ?_⟩
  · intro t _
    obtain ⟨w1, e, a⟩ := serializeAsTuple_uint64_ok ext w t hw hroom
    exact ⟨w1, e, BinaryWriter.appended_eq hw a⟩
  · intro t hlo hhi
    obtain ⟨w1, e, a⟩ := serializeAsTuple_int64_ok ext w t hw hlo hhi hroom
    exact ⟨w1, e, BinaryWriter.appended_eq hw a⟩
  · intro t ht
    exact serializeAsTuple_overloads_agree ext w t ht
  · intro m hm
    refine ⟨(minimalWidth_range m).1, (minimalWidth_range m).2, ?_, ?_⟩
    · rw [← pow256_eq]; exact minimalWidth_bound m hm
    · intro j h1 h2
      rw [← pow256_eq]; exact minimalWidth_least m j h1 h2

/-- Witness of `serializeAsTuple_int_format` on the example writer. -/
theorem serializeAsTuple_int_format_witness :
    (∀ t : Nat, t < 2 ^ 64 →
      ∃ w1, BinaryWriter.serializeAsTuple_uint64 exampleExternals exampleWriter t = .ok w1 ∧
        BinaryWriter.appended exampleWriter w1 = tupleIntSpec t) ∧
    (∀ t : Int, -2 ^ 63 ≤ t → t < 2 ^ 63 →
      ∃ w1, BinaryWriter.serializeAsTuple_int64 exampleExternals exampleWriter t = .ok w1 ∧
        BinaryWriter.appended exampleWriter w1 = tupleIntSpec t) ∧
    (∀ t : Nat, t < 2 ^ 63 →
      BinaryWriter.serializeAsTuple_uint64 exampleExternals exampleWriter t =
        BinaryWriter.serializeAsTuple_int64 exampleExternals exampleWriter t) ∧
    (∀ m : Nat, m < 2 ^ 64 → 1 ≤ minimalWidth m ∧ minimalWidth m ≤ 8 ∧
      m < 2 ^ (8 * minimalWidth m) ∧ ∀ j, 1 ≤ j → j < minimalWidth m → 2 ^ (8 * j) ≤ m) :=
  serializeAsTuple_int_format exampleExternals exampleWriter exampleWriter_wf (by decide)

/-! ## C10: the ordered-key encoding of booleans -/

/-- C10: on a writer with room for 2 bytes, `serializeAsTuple(bool)` appends
exactly the byte `0x14` for `false` and exactly the bytes `0x15 0x01` for `true`,
and does what `serializeAsTuple` does for the integers 0 and 1 (both
overloads). -/
theorem serializeAsTuple_bool_bytes (ext : Externals) (w : BinaryWriter) (hw : w.wf)
    (hroom : w.size + 2 ≤ 2147483647) :
    (∃ w1, BinaryWriter.serializeAsTuple_bool ext w false = .ok w1 ∧
      BinaryWriter.appended w w1 = [0x14]) ∧
    (∃ w1, BinaryWriter.serializeAsTuple_bool ext w true = .ok w1 ∧
      BinaryWriter.appended w w1 = [0x15, 0x01]) ∧
    BinaryWriter.serializeAsTuple_bool ext w false = BinaryWriter.serializeAsTuple_uint64 ext w 0 ∧
    BinaryWriter.serializeAsTuple_bool ext w false = BinaryWriter.serializeAsTuple_int64 ext w 0 ∧
    BinaryWriter.serializeAsTuple_bool ext w true = BinaryWriter.serializeAsTuple_uint64 ext w 1 ∧
    BinaryWriter.serializeAsTuple_bool ext w true = BinaryWriter.serializeAsTuple_int64 ext w 1 := by
  have hb1 : bytesNeeded 1 = 1 := by decide
  have hu1 : toUnsigned 64 1 = 1 := by decide
  have hl1 : lastBytes (bigEndian64 1) 1 = [1] := by decide
  refine ⟨?_, ?_, ?_, ?_, ?_, ?_⟩
  · obtain ⟨w1, e, a⟩ := BinaryWriter.serializeBinaryItem_ok ext w [20] hw (by simp [INT_MAX]; omega)
    exact ⟨w1, by simpa [BinaryWriter.serializeAsTuple_bool, BinaryWriter.serializeBinaryItem] using e,
      BinaryWriter.appended_eq hw a⟩
  · obtain ⟨w1, e, a⟩ := BinaryWriter.serializeBinaryItem_ok ext w [21, 1] hw (by simp [INT_MAX]; omega)
    exact ⟨w1, by simpa [BinaryWriter.serializeAsTuple_bool, BinaryWriter.serializeBinaryItem] using e,
      BinaryWriter.appended_eq hw a⟩
  · simp [BinaryWriter.serializeAsTuple_bool, BinaryWriter.serializeAsTuple_uint64]
  · simp [BinaryWriter.serializeAsTuple_bool, BinaryWriter.serializeAsTuple_int64]
  · simp [BinaryWriter.serializeAsTuple_bool, BinaryWriter.serializeAsTuple_uint64, hb1, hl1]
  · simp [BinaryWriter.serializeAsTuple_bool, BinaryWriter.serializeAsTuple_int64, hb1, hl1, hu1]

/-- Witness of `serializeAsTuple_bool_bytes` on the example writer. -/
theorem serializeAsTuple_bool_bytes_witness :
    (∃ w1, BinaryWriter.serializeAsTuple_bool exampleExternals exampleWriter false = .ok w1 ∧
      BinaryWriter.appended exampleWriter w1 = [0x14]) ∧
    (∃ w1, BinaryWriter.serializeAsTuple_bool exampleExternals exampleWriter true = .ok w1 ∧
      BinaryWriter.appended exampleWriter w1 = [0x15, 0x01]) ∧
    BinaryWriter.serializeAsTuple_bool exampleExternals exampleWriter false =
      BinaryWriter.serializeAsTuple_uint64 exampleExternals exampleWriter 0 ∧
    BinaryWriter.serializeAsTuple_bool exampleExternals exampleWriter false =
      BinaryWriter.serializeAsTuple_int64 exampleExternals exampleWriter 0 ∧
    BinaryWriter.serializeAsTuple_bool exampleExternals exampleWriter true =
      BinaryWriter.serializeAsTuple_uint64 exampleExternals exampleWriter 1 ∧
    BinaryWriter.serializeAsTuple_bool exampleExternals exampleWriter true =
      BinaryWriter.serializeAsTuple_int64 exampleExternals exampleWriter 1 :=
  serializeAsTuple_bool_bytes exampleExternals exampleWriter exampleWriter_wf (by decide)


/-! ## The ordered-key encoding of byte strings -/

theorem substr_length (str : List Nat) (start size : Nat) (h : start + size ≤ str.length) :
    (substr str start size).length = size := by
  simp only [substr, List.length_take, List.length_drop]; omega

theorem substr_succ (str : List Nat) (start n : Nat) (h : start + n < str.length) :
    substr str start (n + 1) = substr str start n ++ [str[start + n]] := by
  simp only [substr]
  rw [List.take_succ, List.getElem?_drop, List.getElem?_eq_getElem h]
  rfl

theorem serializeAsTupleLoop_ok (ext : Externals) (str : List Nat) :
    ∀ (k pos last_pos : Nat) (w : BinaryWriter), w.wf → pos + k = str.length → last_pos ≤ pos →
      w.size + (pos - last_pos) + (nulEscape (str.drop pos)).length ≤ INT_MAX →
      ∃ w1 lp, BinaryWriter.serializeAsTupleLoop ext str k pos last_pos w = .ok (w1, lp) ∧ w1.wf ∧
        w1.m_protocolVersion = w.m_protocolVersion ∧ lp ≤ str.length ∧
        w1.toValue ++ substr str lp (str.length - lp) =
          w.toValue ++ substr str last_pos (pos - last_pos) ++ nulEscape (str.drop pos) := by
  intro k
  induction k with
  | zero =>
    intro pos last_pos w hw hk hlp _
    have hpos : pos = str.length := by omega
    refine ⟨w, last_pos, rfl, hw, rfl, by omega, ?_⟩
    rw [hpos, List.drop_length]
    simp [nulEscape]
  | succ k ih =>
    intro pos last_pos w hw hk hlp hroom
    have hlt : pos < str.length := by omega
    have hdrop : str.drop pos = str[pos] :: str.drop (pos + 1) := List.drop_eq_getElem_cons hlt
    have hget : str[pos]? = some str[pos] := List.getElem?_eq_getElem hlt
    rw [hdrop] at hroom ⊢
    by_cases hc : str[pos] = 0
    · have hesc : nulEscape (str[pos] :: str.drop (pos + 1)) = 0 :: 255 :: nulEscape (str.drop (pos + 1)) := by
        simp [nulEscape, hc]
      rw [hesc] at hroom ⊢
      simp only [List.length_cons] at hroom
      have hseg := substr_length str last_pos (pos - last_pos) (by omega)
      obtain ⟨w1, e1, a1⟩ := BinaryWriter.serializeBytesRef_ok ext w
        (substr str last_pos (pos - last_pos)) hw (by rw [hseg]; omega)
      have hs1 := a1.size_eq hw
      rw [hseg] at hs1
      obtain ⟨w2, e2, a2⟩ := BinaryWriter.serializeBytesRef_ok ext w1 [0, 255] a1.1
        (by simp only [List.length_cons, List.length_nil]; omega)
      have hs2 := a2.size_eq a1.1
      simp only [List.length_cons, List.length_nil] at hs2
      obtain ⟨w3, lp, e3, hw3, hv3, hlp3, heq⟩ := ih (pos + 1) (pos + 1) w2 a2.1 (by omega)
        (Nat.le_refl _) (by omega)
      refine ⟨w3, lp, ?_, hw3, by rw [hv3, a2.2.2, a1.2.2], hlp3, ?_⟩
      · simp only [BinaryWriter.serializeAsTupleLoop, hget, hc, if_true, e1, e2, e3]
      · rw [heq, a2.2.1, a1.2.1, Nat.sub_self]
        simp [substr]
    · have hesc : nulEscape (str[pos] :: str.drop (pos + 1)) = str[pos] :: nulEscape (str.drop (pos + 1)) := by
        simp [nulEscape, hc]
      rw [hesc] at hroom ⊢
      simp only [List.length_cons] at hroom
      obtain ⟨w3, lp, e3, hw3, hv3, hlp3, heq⟩ := ih (pos + 1) last_pos w hw (by omega)
        (by omega) (by omega)
      refine ⟨w3, lp, ?_, hw3, hv3, hlp3, ?_⟩
      · have hne : ¬ (some str[pos] = some 0) := by simpa using hc
        simp only [BinaryWriter.serializeAsTupleLoop, hget, hne, if_false, e3]
      · rw [heq]
        have hidx : pos + 1 - last_pos = (pos - last_pos) + 1 := by omega
        have hget2 : last_pos + (pos - last_pos) = pos := by omega
        rw [hidx, substr_succ str last_pos (pos - last_pos) (by omega)]
        simp [hget2]

theorem serializeAsTuple_StringRef_ok (ext : Externals) (w : BinaryWriter) (str : List Nat)
    (hw : w.wf) (hroom : w.size + (1 + (nulEscape str).length + 1) ≤ INT_MAX) :
    ∃ w1, BinaryWriter.serializeAsTuple_StringRef ext w str = .ok w1 ∧
      w.Appends w1 (1 :: tupleStringSpec str) := by
  obtain ⟨w0, e0, a0⟩ := BinaryWriter.serializeBytesRef_ok ext w [1] hw
    (by simp only [List.length_cons, List.length_nil]; omega)
  have hs0 := a0.size_eq hw
  simp only [List.length_cons, List.length_nil] at hs0
  obtain ⟨w1, lp, e1, hw1, hv1, hlp, heq⟩ := serializeAsTupleLoop_ok ext str str.length 0 0 w0 a0.1
    (by omega) (Nat.le_refl _) (by simp only [List.drop_zero]; omega)
  simp only [Nat.sub_self, List.drop_zero] at heq
  have hsub0 : substr str 0 0 = [] := by simp [substr]
  rw [hsub0, List.append_nil] at heq
  have hlen := congrArg List.length heq
  simp only [List.length_append, BinaryWriter.toValue_length w1 hw1,
    BinaryWriter.toValue_length w0 a0.1] at hlen
  obtain ⟨w2, e2, a2⟩ := BinaryWriter.serializeBytesRef_ok ext w1
    (substr str lp (str.length - lp)) hw1 (by omega)
  have hs2 := a2.size_eq hw1
  obtain ⟨w3, e3, a3⟩ := BinaryWriter.serializeBytesRef_ok ext w2 [0] a2.1
    (by simp only [List.length_cons, List.length_nil]; omega)
  refine ⟨w3, ?_, a3.1, ?_, by rw [a3.2.2, a2.2.2, hv1, a0.2.2]⟩
  · simp only [BinaryWriter.serializeAsTuple_StringRef, e0, e1, e2, e3]
  · rw [a3.2.1, a2.2.1, heq, a0.2.1]
    simp [tupleStringSpec]

theorem nulEscape_lt : ∀ a b : List Nat, bytesLt a b →
    bytesLt (nulEscape a ++ [0]) (nulEscape b ++ [0])
  | _, [], h => by cases ‹List Nat› <;> simp [bytesLt] at h
  | [], y :: bs, _ => by
    by_cases hy : y = 0
    · simp [nulEscape, hy, bytesLt]
    · simp only [nulEscape, hy, if_false, List.nil_append, List.cons_append, bytesLt]
      left; omega
  | x :: as, y :: bs, h => by
    simp only [bytesLt] at h
    rcases h with h | ⟨h, ht⟩
    · by_cases hx : x = 0
      · have hy : y ≠ 0 := by omega
        simp only [nulEscape, hx, hy, if_true, if_false, List.cons_append, bytesLt]
        left; omega
      · have hy : y ≠ 0 := by omega
        simp only [nulEscape, hx, hy, if_false, List.cons_append, bytesLt]
        left; exact h
    · subst h
      have ih := nulEscape_lt as bs ht
      by_cases hx : x = 0
      · simp only [nulEscape, hx, if_true, List.cons_append, bytesLt]
        right; exact ⟨trivial, Or.inr ⟨trivial, ih⟩⟩
      · simp only [nulEscape, hx, if_false, List.cons_append, bytesLt]
        right; exact ⟨trivial, ih⟩

theorem nulEscape_injective : ∀ a b : List Nat, nulEscape a ++ [0] = nulEscape b ++ [0] → a = b
  | [], [], _ => rfl
  | [], y :: bs, h => by
    by_cases hy : y = 0
    · simp [nulEscape, hy] at h
    · simp [nulEscape, hy] at h
  | x :: as, [], h => by
    by_cases hx : x = 0
    · simp [nulEscape, hx] at h
    · simp [nulEscape, hx] at h
  | x :: as, y :: bs, h => by
    by_cases hx : x = 0 <;> by_cases hy : y = 0
    · simp only [nulEscape, hx, hy, if_true, List.cons_append, List.cons.injEq, true_and] at h
      rw [hx, hy, nulEscape_injective as bs h]
    · simp [nulEscape, hx, hy] at h
      exact absurd h.1.symm hy
    · simp [nulEscape, hx, hy] at h
    · simp only [nulEscape, hx, hy, if_false, List.cons_append, List.cons.injEq] at h
      rw [h.1, nulEscape_injective as bs h.2]


theorem bytesLt_iff_lex : ∀ a b : List Nat, bytesLt a b ↔ List.Lex (fun x y : Nat => x < y) a b
  | a, [] => by
    constructor
    · intro h; cases a <;> simp [bytesLt] at h
    · intro h; cases h
  | [], y :: bs => by
    simp only [bytesLt, true_iff]
    exact List.Lex.nil
  | x :: as, y :: bs => by
    have ih := bytesLt_iff_lex as bs
    simp only [bytesLt]
    constructor
    · rintro (h | ⟨h, ht⟩)
      · exact List.Lex.rel h
      · subst h
        exact List.Lex.cons (ih.mp ht)
    · intro h
      cases h with
      | rel h => exact Or.inl h
      | cons h => exact Or.inr ⟨rfl, ih.mpr h⟩

/-! ## C8: the ordered-key encoding of a byte string -/

/-- C8 (as amended): for every byte string `s` whose encoding fits the writer,
`serializeAsTuple(s)` appends the type byte `0x01`, then the NUL-escaped content
of `s` (each `0x00` replaced by `0x00 0xFF`, every other byte unchanged, in
order), then a single bare `0x00`. -/
theorem serializeAsTuple_StringRef_bytes (ext : Externals) (w : BinaryWriter) (s : List Nat)
    (hw : w.wf) (hroom : w.size + (1 + (nulEscape s).length + 1) ≤ 2147483647) :
    ∃ w1, BinaryWriter.serializeAsTuple_StringRef ext w s = .ok w1 ∧
      BinaryWriter.appended w w1 = 0x01 :: (nulEscape s ++ [0x00]) := by
  obtain ⟨w1, e, a⟩ := serializeAsTuple_StringRef_ok ext w s hw hroom
  exact ⟨w1, e, BinaryWriter.appended_eq hw a⟩

/-- Witness of `serializeAsTuple_StringRef_bytes`: the string `a`, NUL, `b` on
the example writer. -/
theorem serializeAsTuple_StringRef_bytes_witness :
    ∃ w1, BinaryWriter.serializeAsTuple_StringRef exampleExternals exampleWriter [97, 0, 98] = .ok w1 ∧
      BinaryWriter.appended exampleWriter w1 = 0x01 :: (nulEscape [97, 0, 98] ++ [0x00]) :=
  serializeAsTuple_StringRef_bytes exampleExternals exampleWriter [97, 0, 98] exampleWriter_wf
    (by decide)

/-- C8 as stated fails: for the one-byte string `a` the call appends
`0x01 'a' 0x00`, three bytes, not the escaped content and terminator
`'a' 0x00` alone. -/
theorem serializeAsTuple_StringRef_bytes_counterexample :
    ∃ w1, BinaryWriter.serializeAsTuple_StringRef exampleExternals exampleWriter [97] = .ok w1 ∧
      BinaryWriter.appended exampleWriter w1 = [1, 97, 0] ∧
      BinaryWriter.appended exampleWriter w1 ≠ tupleStringSpec [97] :=
  ⟨_, rfl, by decide, by decide⟩

/-! ## C9: the byte-string ordered-key encoding preserves order -/

/-- C9: for all byte strings `a` and `b` whose encodings fit the writer, if `a`
is strictly less than `b` in unsigned lexicographic order (a proper prefix
included, NUL bytes allowed) then the bytes `serializeAsTuple(a)` appends are
strictly less than those `serializeAsTuple(b)` appends; and equal appended
bytes force `a = b`, so the encoding is injective. -/
theorem serializeAsTuple_StringRef_order (ext : Externals) (w : BinaryWriter) (a b : List Nat)
    (hw : w.wf) (ha : w.size + (1 + (nulEscape a).length + 1) ≤ 2147483647)
    (hb : w.size + (1 + (nulEscape b).length + 1) ≤ 2147483647) :
    ∃ wa wb, BinaryWriter.serializeAsTuple_StringRef ext w a = .ok wa ∧
      BinaryWriter.serializeAsTuple_StringRef ext w b = .ok wb ∧
      (bytesLt a b → bytesLt (BinaryWriter.appended w wa) (BinaryWriter.appended w wb)) ∧
      (BinaryWriter.appended w wa = BinaryWriter.appended w wb → a = b) := by
  obtain ⟨wa, ea, aa⟩ := serializeAsTuple_StringRef_ok ext w a hw ha
  obtain ⟨wb, eb, ab⟩ := serializeAsTuple_StringRef_ok ext w b hw hb
  refine ⟨wa, wb, ea, eb, ?_, ?_⟩
  · intro hlt
    rw [BinaryWriter.appended_eq hw aa, BinaryWriter.appended_eq hw ab]
    simp only [bytesLt, tupleStringSpec]
    exact Or.inr ⟨trivial, nulEscape_lt a b hlt⟩
  · intro heq
    rw [BinaryWriter.appended_eq hw aa, BinaryWriter.appended_eq hw ab] at heq
    exact nulEscape_injective a b (List.cons.inj heq).2

/-- Witness of `serializeAsTuple_StringRef_order`: `a NUL` is a proper prefix of
`a NUL NUL`. -/
theorem serializeAsTuple_StringRef_order_witness :
    ∃ wa wb, BinaryWriter.serializeAsTuple_StringRef exampleExternals exampleWriter [97, 0] = .ok wa ∧
      BinaryWriter.serializeAsTuple_StringRef exampleExternals exampleWriter [97, 0, 0] = .ok wb ∧
      (bytesLt [97, 0] [97, 0, 0] →
        bytesLt (BinaryWriter.appended exampleWriter wa) (BinaryWriter.appended exampleWriter wb)) ∧
      (BinaryWriter.appended exampleWriter wa = BinaryWriter.appended exampleWriter wb →
        [97, 0] = [97, 0, 0]) :=
  serializeAsTuple_StringRef_order exampleExternals exampleWriter [97, 0] [97, 0, 0]
    exampleWriter_wf (by decide) (by decide)


/-! ## C13: a negative vector length is rejected -/

/-- C13: for every reader whose unread input starts with a 4-byte length field
that decodes to a negative signed 32-bit value, `load` of a `std::vector<T>`
fails (with the `std::length_error` of `value.reserve(s)`) instead of returning
a vector. -/
theorem load_vector_negative_length (ext : Externals) {T : Type} (S : Serializer T)
    (r : ArenaReader) (v0 : List T) (raw rest : List Nat) (hr : r.wf)
    (h : r.input.drop r.begin = raw ++ rest) (hlen : raw.length = 4)
    (hneg : toSigned 32 (fromLE raw) < 0) :
    load_vector ext S r v0 = .error .length_error := by
  have e1 := binary_load_ok ext int32_t 0 0 r raw rest hr hlen h
  have hneg2 : int32_t.ofRaw raw < 0 := hneg
  simp only [load_vector, bind, Except.bind, e1, hneg2, if_true, throw, throwThe,
    MonadExceptOf.throw]

/-- Witness of `load_vector_negative_length`: the length field `FF FF FF FF`
(the value -1) in front of two more bytes. -/
theorem load_vector_negative_length_witness :
    load_vector exampleExternals (stringSerializer exampleExternals)
      (exampleReader [255, 255, 255, 255, 1, 2]) [] = .error .length_error :=
  load_vector_negative_length exampleExternals (stringSerializer exampleExternals)
    (exampleReader [255, 255, 255, 255, 1, 2]) [] [255, 255, 255, 255] [1, 2]
    (Nat.zero_le _) rfl rfl (by decide)

/-! ## C14: bounds of ArenaReader reads -/

/-- C14: for an `ArenaReader` with `begin <= end` and every byte count `n`,
`readBytes(n)` succeeds exactly when `n` is at most the number of bytes
remaining; on success it returns the next `n` bytes and advances the cursor by
exactly `n`, keeping `begin <= end`; otherwise the assertion fails and nothing
is returned.  `serializeBinaryItem` is the same read with `n = sizeof(T)`. -/
theorem readBytes_bounds (r : ArenaReader) (n : Nat) (hr : r.wf) :
    (n ≤ r.end_ - r.begin →
      ∃ bs r1, r.readBytes n = .ok (bs, r1) ∧ bs = (r.input.drop r.begin).take n ∧
        bs.length = n ∧ r1.begin = r.begin + n ∧ r1.input = r.input ∧ r1.wf) ∧
    (r.end_ - r.begin < n → r.readBytes n = .error .internal_error) ∧
    ((∃ x, r.readBytes n = .ok x) ↔ n ≤ r.end_ - r.begin) ∧
    r.serializeBinaryItem n = r.readBytes n := by
  have hb : r.begin ≤ r.input.length := hr
  have hok : n ≤ r.end_ - r.begin → r.readBytes n =
      .ok ((r.input.drop r.begin).take n, { r with begin := r.begin + n }) := by
    intro hn
    have : r.begin + n ≤ r.end_ := by unfold ArenaReader.end_ at *; omega
    simp [ArenaReader.readBytes, this]
  have hfail : r.end_ - r.begin < n → r.readBytes n = .error .internal_error := by
    intro hn
    have : ¬ (r.begin + n ≤ r.end_) := by unfold ArenaReader.end_ at *; omega
    simp [ArenaReader.readBytes, this]
  refine ⟨?_, hfail, ?_, rfl⟩
  · intro hn
    refine ⟨_, _, hok hn, rfl, ?_, rfl, rfl, ?_⟩
    · simp only [List.length_take, List.length_drop]
      unfold ArenaReader.end_ at hn; omega
    · show r.begin + n ≤ r.input.length
      unfold ArenaReader.end_ at hn; omega
  · constructor
    · rintro ⟨x, hx⟩
      by_contra hlt
      rw [hfail (by omega)] at hx
      cases hx
    · intro hn
      exact ⟨_, hok hn⟩

/-- Witness of `readBytes_bounds`: three bytes asked of a reader with five. -/
theorem readBytes_bounds_witness :
    (3 ≤ (exampleReader [1, 2, 3, 4, 5]).end_ - (exampleReader [1, 2, 3, 4, 5]).begin →
      ∃ bs r1, (exampleReader [1, 2, 3, 4, 5]).readBytes 3 = .ok (bs, r1) ∧
        bs = ((exampleReader [1, 2, 3, 4, 5]).input.drop (exampleReader [1, 2, 3, 4, 5]).begin).take 3 ∧
        bs.length = 3 ∧ r1.begin = (exampleReader [1, 2, 3, 4, 5]).begin + 3 ∧
        r1.input = (exampleReader [1, 2, 3, 4, 5]).input ∧ r1.wf) ∧
    ((exampleReader [1, 2, 3, 4, 5]).end_ - (exampleReader [1, 2, 3, 4, 5]).begin < 3 →
      (exampleReader [1, 2, 3, 4, 5]).readBytes 3 = .error .internal_error) ∧
    ((∃ x, (exampleReader [1, 2, 3, 4, 5]).readBytes 3 = .ok x) ↔
      3 ≤ (exampleReader [1, 2, 3, 4, 5]).end_ - (exampleReader [1, 2, 3, 4, 5]).begin) ∧
    (exampleReader [1, 2, 3, 4, 5]).serializeBinaryItem 3 = (exampleReader [1, 2, 3, 4, 5]).readBytes 3 :=
  readBytes_bounds (exampleReader [1, 2, 3, 4, 5]) 3 (Nat.zero_le _)


/-! ## C15: the size of a writer stays within its allocation -/

theorem writeBytes_invariant (ext : Externals) (w w1 : BinaryWriter) (s p : Nat)
    (h : BinaryWriter.writeBytes ext w s = .ok (w1, p)) :
    w1.size ≤ w1.allocated ∧ w.allocated ≤ w1.allocated ∧ w1.size = w.size + s := by
  unfold BinaryWriter.writeBytes at h
  by_cases hover : INT_MAX < w.size + s
  · simp [hover] at h
  · simp only [hover, if_false] at h
    by_cases hg : w.size + s > w.allocated
    · simp only [hg, if_true, Except.ok.injEq, Prod.mk.injEq] at h
      obtain ⟨h1, _⟩ := h
      subst h1
      refine ⟨?_, ?_, rfl⟩ <;> simp only <;> split_ifs <;> omega
    · simp only [hg, if_false, Except.ok.injEq, Prod.mk.injEq] at h
      obtain ⟨h1, _⟩ := h
      subst h1
      exact ⟨by simp only; omega, Nat.le_refl _, rfl⟩

theorem writeBytes_total (ext : Externals) (w : BinaryWriter) (s : Nat)
    (hroom : w.size + s ≤ INT_MAX) : ∃ w1, BinaryWriter.writeBytes ext w s = .ok (w1, w.size) := by
  unfold BinaryWriter.writeBytes
  simp only [show ¬ (INT_MAX < w.size + s) from by omega, if_false]
  split_ifs <;> exact ⟨_, rfl⟩

/-- C15: a `BinaryWriter` satisfies `size <= allocated` after construction with
any version policy, and every `writeBytes` whose new size does not overflow
`int` succeeds, leaves `size <= allocated` and does not decrease `allocated`. -/
theorem writer_size_within_allocation (ext : Externals) (w : BinaryWriter) (s : Nat)
    (hroom : w.size + s ≤ 2147483647) :
    (∀ vo : VersionOptions, ∃ w0, BinaryWriter.new ext vo = .ok w0 ∧ w0.size ≤ w0.allocated) ∧
    ∃ w1 p, BinaryWriter.writeBytes ext w s = .ok (w1, p) ∧ w1.size ≤ w1.allocated ∧
      w.allocated ≤ w1.allocated := by
  constructor
  · intro vo
    cases vo with
    | includeVersion i =>
      obtain ⟨w0, e, hw, _, _⟩ := new_includeVersion ext i.v
      exact ⟨w0, e, hw.1⟩
    | assumeVersion a => exact ⟨_, rfl, Nat.le_refl 0⟩
    | unversioned => exact ⟨_, rfl, Nat.le_refl 0⟩
  · obtain ⟨w1, e⟩ := writeBytes_total ext w s hroom
    obtain ⟨h1, h2, _⟩ := writeBytes_invariant ext w w1 s w.size e
    exact ⟨w1, w.size, e, h1, h2⟩

/-- Witness of `writer_size_within_allocation`: 600 bytes asked of the example
writer. -/
theorem writer_size_within_allocation_witness :
    (∀ vo : VersionOptions, ∃ w0, BinaryWriter.new exampleExternals vo = .ok w0 ∧
      w0.size ≤ w0.allocated) ∧
    ∃ w1 p, BinaryWriter.writeBytes exampleExternals exampleWriter 600 = .ok (w1, p) ∧
      w1.size ≤ w1.allocated ∧ exampleWriter.allocated ≤ w1.allocated :=
  writer_size_within_allocation exampleExternals exampleWriter 600 (by decide)

/-! ## C17: the growth policy of writeBytes -/

/-- C17 (as amended): with `H = sizeof(ArenaBlock)`, a write that raises `size`
to `s` leaves the allocation `a` unchanged when `s <= a`; when `s > a` the new
allocation is `512 - H` if `s <= 512 - H`, otherwise `4096 - H` if
`s <= 4096 - H`, otherwise `max(2*a, s)` provided `2*a` does not overflow
`int`. -/
theorem writeBytes_growth (ext : Externals) (w : BinaryWriter) (s : Nat)
    (hH : ext.sizeofArenaBlock ≤ 512) (hroom : w.size + s ≤ 2147483647) :
    ∃ w1 p, BinaryWriter.writeBytes ext w s = .ok (w1, p) ∧
      (w.size + s ≤ w.allocated → w1.allocated = w.allocated) ∧
      (w.allocated < w.size + s →
        (w.size + s ≤ 512 - ext.sizeofArenaBlock → w1.allocated = 512 - ext.sizeofArenaBlock) ∧
        (512 - ext.sizeofArenaBlock < w.size + s → w.size + s ≤ 4096 - ext.sizeofArenaBlock →
          w1.allocated = 4096 - ext.sizeofArenaBlock) ∧
        (4096 - ext.sizeofArenaBlock < w.size + s → 2 * w.allocated ≤ 2147483647 →
          w1.allocated = max (2 * w.allocated) (w.size + s))) := by
  unfold BinaryWriter.writeBytes
  simp only [show ¬ (INT_MAX < w.size + s) from by unfold INT_MAX; omega, if_false]
  by_cases hg : w.size + s > w.allocated
  · simp only [hg, if_true]
    refine ⟨_, _, rfl, ?_, fun _ => ⟨?_, ?_, ?_⟩⟩
    · intro h
      exfalso; omega
    · intro h1; simp only [h1, if_true]
    · intro h1 h2
      simp only [show ¬ (w.size + s ≤ 512 - ext.sizeofArenaBlock) from by omega, if_false, h2,
        if_true]
    · intro h1 h2
      simp only [show ¬ (w.size + s ≤ 512 - ext.sizeofArenaBlock) from by omega,
        show ¬ (w.size + s ≤ 4096 - ext.sizeofArenaBlock) from by omega, if_false,
        show w.allocated * 2 ≤ INT_MAX from by unfold INT_MAX; omega, if_true, Nat.mul_comm]
  · simp only [hg, if_false]
    refine ⟨_, _, rfl, fun _ => rfl, ?_⟩
    intro h
    exact h.elim

/-- Witness of `writeBytes_growth`: 600 bytes asked of the example writer. -/
theorem writeBytes_growth_witness :
    ∃ w1 p, BinaryWriter.writeBytes exampleExternals exampleWriter 600 = .ok (w1, p) ∧
      (exampleWriter.size + 600 ≤ exampleWriter.allocated → w1.allocated = exampleWriter.allocated) ∧
      (exampleWriter.allocated < exampleWriter.size + 600 →
        (exampleWriter.size + 600 ≤ 512 - exampleExternals.sizeofArenaBlock →
          w1.allocated = 512 - exampleExternals.sizeofArenaBlock) ∧
        (512 - exampleExternals.sizeofArenaBlock < exampleWriter.size + 600 →
          exampleWriter.size + 600 ≤ 4096 - exampleExternals.sizeofArenaBlock →
          w1.allocated = 4096 - exampleExternals.sizeofArenaBlock) ∧
        (4096 - exampleExternals.sizeofArenaBlock < exampleWriter.size + 600 →
          2 * exampleWriter.allocated ≤ 2147483647 →
          w1.allocated = max (2 * exampleWriter.allocated) (exampleWriter.size + 600))) :=
  writeBytes_growth exampleExternals exampleWriter 600 (by decide) (by decide)

theorem writeBytes_allocation_wraps (ext : Externals) (w : BinaryWriter) (s : Nat)
    (hroom : w.size + s ≤ INT_MAX) (hg : w.allocated < w.size + s)
    (h1 : 512 - ext.sizeofArenaBlock < w.size + s) (h2 : 4096 - ext.sizeofArenaBlock < w.size + s)
    (h3 : INT_MAX < w.allocated * 2) :
    (BinaryWriter.writeBytes ext w s).map (fun x => x.1.allocated) = .ok (w.size + s) := by
  unfold BinaryWriter.writeBytes
  simp only [show ¬ (INT_MAX < w.size + s) from by omega, if_false,
    show w.size + s > w.allocated from hg, if_true,
    show ¬ (w.size + s ≤ 512 - ext.sizeofArenaBlock) from by omega,
    show ¬ (w.size + s ≤ 4096 - ext.sizeofArenaBlock) from by omega,
    show ¬ (w.allocated * 2 ≤ INT_MAX) from by omega]
  rfl

/-- C17 as stated fails: on a writer with `a = size = 2^30`, one more byte
raises `size` to `s = 2^30 + 1`; `allocated*2` overflows `int`, `std::max` picks
`s`, and the new allocation is `2^30 + 1`, not `max(2*a, s) = 2^31`. -/
theorem writeBytes_growth_counterexample :
    (BinaryWriter.writeBytes exampleExternals exampleFullWriter 1).map (fun x => x.1.allocated) =
        .ok 1073741825 ∧
      4096 - exampleExternals.sizeofArenaBlock < exampleFullWriter.size + 1 ∧
      max (2 * exampleFullWriter.allocated) (exampleFullWriter.size + 1) = 2147483648 :=
  ⟨writeBytes_allocation_wraps exampleExternals exampleFullWriter 1 (by decide) (by decide)
    (by decide) (by decide) (by decide), by decide, by decide⟩


/-! ## C18: checkpoint and rewind -/

theorem readAll_frame : ∀ (ns : List Nat) (r r1 : ArenaReader) (bss : List (List Nat)),
    r.readAll ns = .ok (bss, r1) →
    r1.input = r.input ∧ r1.check = r.check ∧ r1.m_protocolVersion = r.m_protocolVersion
  | [], r, r1, bss, h => by
    simp only [ArenaReader.readAll, Except.ok.injEq, Prod.mk.injEq] at h
    rw [← h.2]; exact ⟨rfl, rfl, rfl⟩
  | n :: ns, r, r1, bss, h => by
    by_cases hle : r.begin + n ≤ r.end_
    · simp only [ArenaReader.readAll, ArenaReader.readBytes, hle, if_true] at h
      cases h2 : ArenaReader.readAll { r with begin := r.begin + n } ns with
      | error e => rw [h2] at h; cases h
      | ok x =>
        obtain ⟨bss2, r2⟩ := x
        rw [h2] at h
        simp only [Except.ok.injEq, Prod.mk.injEq] at h
        have ih := readAll_frame ns _ r2 bss2 h2
        rw [← h.2]; exact ih
    · simp [ArenaReader.readAll, ArenaReader.readBytes, hle] at h

theorem readAll_congr : ∀ (ns : List Nat) (r r' r1 : ArenaReader) (bss : List (List Nat)),
    r'.input = r.input → r'.begin = r.begin → r.readAll ns = .ok (bss, r1) →
    ∃ r1', r'.readAll ns = .ok (bss, r1') ∧ r1'.begin = r1.begin
  | [], r, r', r1, bss, _, hb, h => by
    simp only [ArenaReader.readAll, Except.ok.injEq, Prod.mk.injEq] at h
    exact ⟨r', by simp [ArenaReader.readAll, h.1], by rw [hb, ← h.2]⟩
  | n :: ns, r, r', r1, bss, hi, hb, h => by
    by_cases hle : r.begin + n ≤ r.end_
    · have hle' : r.begin + n ≤ r.input.length := hle
      simp only [ArenaReader.readAll, ArenaReader.readBytes, hle, if_true] at h
      cases h2 : ArenaReader.readAll { r with begin := r.begin + n } ns with
      | error e => rw [h2] at h; cases h
      | ok x =>
        obtain ⟨bss2, r2⟩ := x
        rw [h2] at h
        simp only [Except.ok.injEq, Prod.mk.injEq] at h
        obtain ⟨r1', e', hb'⟩ := readAll_congr ns { r with begin := r.begin + n }
          { input := r.input, begin := r.begin + n, check := r'.check,
            m_protocolVersion := r'.m_protocolVersion } r2 bss2 rfl rfl h2
        refine ⟨r1', ?_, by rw [hb', h.2]⟩
        simp only [ArenaReader.readAll, ArenaReader.readBytes, ArenaReader.end_, hi, hb, hle',
          if_true, e', h.1]
    · simp [ArenaReader.readAll, ArenaReader.readBytes, hle] at h

theorem arenaReader_new_check (ext : Externals) (input : List Nat) (vo : VersionOptions)
    (r0 : ArenaReader) (h0 : ArenaReader.new ext input vo = .ok r0) : r0.check = none := by
  cases vo with
  | includeVersion i =>
    simp only [ArenaReader.new, VersionOptions.read, _IncludeVersion.read, bind, Except.bind,
      binarySerializer, ArenaReader.serializeBinaryItem, ArenaReader.readBytes, ArenaReader.end_,
      Nat.zero_add] at h0
    by_cases h1 : protocolVersion_t.sizeOf ≤ input.length
    · simp only [h1, if_true, pure, Except.pure, throw, throwThe, MonadExceptOf.throw] at h0
      split_ifs at h0
      simp only [Except.ok.injEq] at h0
      rw [← h0]; rfl
    · simp [h1] at h0
  | assumeVersion a =>
    simp only [ArenaReader.new, VersionOptions.read, Except.ok.injEq] at h0
    rw [← h0]; rfl
  | unversioned =>
    simp only [ArenaReader.new, VersionOptions.read, Except.ok.injEq] at h0
    rw [← h0]

/-- On an `ArenaReader` the checkpoint discipline of C18 holds: after
`checkpoint()` and any run of successful reads, `rewind()` succeeds, puts the
cursor back on the checkpointed position, so that the same reads return the
same bytes, and clears the slot, so that a second `rewind()` fails its
assertion; `rewind()` on a freshly constructed reader fails too; and a second
`checkpoint()` replaces the first. -/
theorem arenaReader_checkpoint_rewind (ext : Externals) (r r1 : ArenaReader) (ns : List Nat)
    (bss : List (List Nat)) (h : r.checkpoint.readAll ns = .ok (bss, r1)) :
    (∃ r2, r1.rewind = .ok r2 ∧ r2.begin = r.begin ∧ r2.input = r.input ∧
      (∃ r3, r2.readAll ns = .ok (bss, r3) ∧ r3.begin = r1.begin) ∧
      r2.rewind = .error .internal_error) ∧
    (∀ (input : List Nat) (vo : VersionOptions) (r0 : ArenaReader),
      ArenaReader.new ext input vo = .ok r0 → r0.rewind = .error .internal_error) ∧
    r1.checkpoint.check = some r1.begin := by
  obtain ⟨hi, hc, _⟩ := readAll_frame ns _ r1 bss h
  have hc1 : r1.check = some r.begin := hc
  have hi1 : r1.input = r.input := hi
  refine ⟨⟨{ r1 with begin := r.begin, check := none }, ?_, rfl, hi1, ?_, rfl⟩, ?_, rfl⟩
  · simp [ArenaReader.rewind, hc1]
  · exact readAll_congr ns r.checkpoint _ r1 bss hi1 rfl h
  · intro input vo r0 h0
    simp [ArenaReader.rewind, arenaReader_new_check ext input vo r0 h0]

/-- C18, the defect: a `BinaryReader` built by the `StringRef` constructor (or
the `std::string` one) never assigns `check`; when the member happens to hold
a non-null value, `rewind()` on the freshly constructed reader passes its
assertion and moves the cursor to that stray position (here past the end of a
3-byte input), whereas the pointer-and-length constructor and `ArenaReader`
start with `check` null and fail the assertion. -/
theorem binaryReader_fresh_rewind :
    (BinaryReader.ofStringRef exampleExternals [1, 2, 3] Unversioned (some 7) >>=
        BinaryReader.rewind) =
      .ok { input := [1, 2, 3], begin := 7, check := none,
            m_protocolVersion := exampleExternals.defaultProtocolVersion } ∧
    (BinaryReader.ofString exampleExternals [1, 2, 3] Unversioned (some 7) >>=
        BinaryReader.rewind) =
      .ok { input := [1, 2, 3], begin := 7, check := none,
            m_protocolVersion := exampleExternals.defaultProtocolVersion } ∧
    (BinaryReader.new exampleExternals [1, 2, 3] Unversioned >>= BinaryReader.rewind) =
      .error .internal_error ∧
    (ArenaReader.new exampleExternals [1, 2, 3] Unversioned >>= ArenaReader.rewind) =
      .error .internal_error :=
  ⟨rfl, rfl, rfl, rfl⟩


/-! ## Packet writer lemmas -/

namespace PacketWriter

theorem flattened_eq (p : PacketWriter) :
    p.flattened = (p.previous.map PacketBuffer.payload).flatten ++ p.buffer.payload := by
  simp [flattened, buffers]

theorem writeTail_ok (p : PacketWriter) (bs : List Nat) (hp : p.wf)
    (hfit : p.buffer.bytes_written + bs.length ≤ PacketBuffer.DATA_SIZE) :
    (p.writeTail bs).wf ∧ (p.writeTail bs).flattened = p.flattened ++ bs ∧
      (p.writeTail bs).previous = p.previous ∧
      (p.writeTail bs).buffer.bytes_written = p.buffer.bytes_written + bs.length := by
  obtain ⟨h1, h2, h3⟩ := hp
  have hlen : p.buffer.bytes_written + bs.length ≤ p.buffer.data.length := by omega
  refine ⟨⟨h1, hfit, ?_⟩, ?_, rfl, rfl⟩
  · show (storeAt p.buffer.data p.buffer.bytes_written bs).length = _
    rw [storeAt_length _ _ _ hlen]; exact h3
  · rw [flattened_eq, flattened_eq]
    show _ ++ (storeAt p.buffer.data p.buffer.bytes_written bs).take
      (p.buffer.bytes_written + bs.length) = _
    rw [storeAt_take _ _ _ hlen, List.append_assoc]
    rfl

theorem nextBuffer_ok (p : PacketWriter) (hp : p.wf)
    (hfull : p.buffer.bytes_written = PacketBuffer.DATA_SIZE) :
    p.nextBuffer.wf ∧ p.nextBuffer.flattened = p.flattened ∧ p.nextBuffer.buffer.bytes_written = 0 ∧
      p.nextBuffer.m_protocolVersion = p.m_protocolVersion := by
  obtain ⟨h1, h2, h3⟩ := hp
  refine ⟨⟨?_, ?_, ?_⟩, ?_, rfl, rfl⟩
  · intro b hb
    simp only [nextBuffer, List.mem_append, List.mem_singleton] at hb
    rcases hb with hb | hb
    · exact h1 b hb
    · rw [hb]; exact ⟨hfull, h3⟩
  · show (0 : Nat) ≤ _
    exact Nat.zero_le _
  · show (List.replicate PacketBuffer.DATA_SIZE 0).length = _
    rw [List.length_replicate]
  · rw [flattened_eq, flattened_eq]
    simp [nextBuffer, PacketBuffer.new, PacketBuffer.payload]

theorem acrossBoundaryLoop_fresh : ∀ (fuel : Nat) (p : PacketWriter) (data : List Nat), p.wf →
    p.buffer.bytes_written = 0 → 1 ≤ fuel → data.length ≤ fuel →
    ∃ p1, acrossBoundaryLoop fuel p data = .ok p1 ∧ p1.wf ∧ p1.flattened = p.flattened ++ data ∧
      p1.m_protocolVersion = p.m_protocolVersion
  | 0, _, _, _, _, h1, _ => by omega
  | fuel + 1, p, data, hp, h0, _, hlen => by
    have hun : p.buffer.bytes_unwritten.toNat = PacketBuffer.DATA_SIZE := by
      simp [PacketBuffer.bytes_unwritten, h0]
    have hD : PacketBuffer.DATA_SIZE = 4068 := rfl
    simp only [acrossBoundaryLoop, hun]
    have hb : (data.take (min data.length PacketBuffer.DATA_SIZE)).length =
        min data.length PacketBuffer.DATA_SIZE := by
      rw [List.length_take]; omega
    obtain ⟨w1, f1, _, b1⟩ := writeTail_ok p (data.take (min data.length PacketBuffer.DATA_SIZE)) hp
      (by rw [hb, h0]; omega)
    by_cases hdone : data.length - min data.length PacketBuffer.DATA_SIZE = 0
    · simp only [hdone, if_true]
      refine ⟨_, rfl, w1, ?_, rfl⟩
      rw [f1, List.take_of_length_le (by omega)]
    · simp only [hdone, if_false]
      have hmin : min data.length PacketBuffer.DATA_SIZE = PacketBuffer.DATA_SIZE := by omega
      obtain ⟨w2, f2, b2, v2⟩ := nextBuffer_ok _ w1 (by rw [b1, hb]; omega)
      obtain ⟨p1, e, w3, f3, v3⟩ := acrossBoundaryLoop_fresh fuel _ (data.drop (min data.length
        PacketBuffer.DATA_SIZE)) w2 b2 (by omega) (by rw [List.length_drop]; omega)
      refine ⟨p1, e, w3, ?_, by rw [v3, v2]; rfl⟩
      rw [f3, f2, f1, List.append_assoc, List.take_append_drop]

theorem serializeBytesAcrossBoundary_ok (p : PacketWriter) (data : List Nat) (hp : p.wf) :
    ∃ p1, serializeBytesAcrossBoundary p data = .ok p1 ∧ p1.wf ∧
      p1.flattened = p.flattened ++ data ∧ p1.m_protocolVersion = p.m_protocolVersion := by
  have hD : PacketBuffer.DATA_SIZE = 4068 := rfl
  have hbw := hp.2.1
  have hun : p.buffer.bytes_unwritten.toNat = PacketBuffer.DATA_SIZE - p.buffer.bytes_written := by
    simp only [PacketBuffer.bytes_unwritten]; omega
  simp only [serializeBytesAcrossBoundary, acrossBoundaryLoop, hun]
  have hb : (data.take (min data.length (PacketBuffer.DATA_SIZE - p.buffer.bytes_written))).length =
      min data.length (PacketBuffer.DATA_SIZE - p.buffer.bytes_written) := by
    rw [List.length_take]; omega
  obtain ⟨w1, f1, _, b1⟩ := writeTail_ok p
    (data.take (min data.length (PacketBuffer.DATA_SIZE - p.buffer.bytes_written))) hp
    (by rw [hb]; omega)
  by_cases hdone : data.length - min data.length (PacketBuffer.DATA_SIZE - p.buffer.bytes_written) = 0
  · simp only [hdone, if_true]
    refine ⟨_, rfl, w1, ?_, rfl⟩
    rw [f1, List.take_of_length_le (by omega)]
  · simp only [hdone, if_false]
    have hmin : min data.length (PacketBuffer.DATA_SIZE - p.buffer.bytes_written) =
        PacketBuffer.DATA_SIZE - p.buffer.bytes_written := by omega
    obtain ⟨w2, f2, b2, v2⟩ := nextBuffer_ok _ w1 (by rw [b1, hb]; omega)
    obtain ⟨p1, e, w3, f3, v3⟩ := acrossBoundaryLoop_fresh data.length _ (data.drop (min data.length
      (PacketBuffer.DATA_SIZE - p.buffer.bytes_written))) w2 b2 (by omega)
      (by rw [List.length_drop]; omega)
    refine ⟨p1, e, w3, ?_, by rw [v3, v2]; rfl⟩
    rw [f3, f2, f1, List.append_assoc, List.take_append_drop]

theorem serializeBytesRef_appends (p : PacketWriter) (data : List Nat) (hp : p.wf) :
    ∃ p1, p.serializeBytesRef data = .ok p1 ∧ p1.wf ∧ p1.flattened = p.flattened ++ data ∧
      p1.m_protocolVersion = p.m_protocolVersion := by
  have hD : PacketBuffer.DATA_SIZE = 4068 := rfl
  have hbw := hp.2.1
  have hnot : ¬ ((data.length : Int) < 0 ∨ (data.length : Int) < (data.length : Int)) := by omega
  simp only [serializeBytesRef, serializeBytes, hnot, if_false, Int.toNat_ofNat,
    List.take_length]
  by_cases hfit : (data.length : Int) ≤ p.buffer.bytes_unwritten
  · simp only [hfit, if_true]
    obtain ⟨w1, f1, _, _⟩ := writeTail_ok p data hp
      (by simp only [PacketBuffer.bytes_unwritten] at hfit; omega)
    exact ⟨_, rfl, w1, f1, rfl⟩
  · simp only [hfit, if_false]
    exact serializeBytesAcrossBoundary_ok p data hp

theorem serializeBinaryItem_appends (p : PacketWriter) (raw : List Nat) (hp : p.wf) :
    ∃ p1, p.serializeBinaryItem raw = .ok p1 ∧ p1.wf ∧ p1.flattened = p.flattened ++ raw ∧
      p1.m_protocolVersion = p.m_protocolVersion := by
  have hD : PacketBuffer.DATA_SIZE = 4068 := rfl
  have hbw := hp.2.1
  simp only [serializeBinaryItem]
  by_cases hfit : (raw.length : Int) ≤ p.buffer.bytes_unwritten
  · simp only [hfit, if_true]
    obtain ⟨w1, f1, _, _⟩ := writeTail_ok p raw hp
      (by simp only [PacketBuffer.bytes_unwritten] at hfit; omega)
    exact ⟨_, rfl, w1, f1, rfl⟩
  · simp only [hfit, if_false]
    exact serializeBytesAcrossBoundary_ok p raw hp

theorem new_wf (ext : Externals) (reliable : Bool) (vo : Option _AssumeVersion) :
    (PacketWriter.new ext PacketBuffer.new reliable vo).wf ∧
      (PacketWriter.new ext PacketBuffer.new reliable vo).flattened = [] := by
  cases vo <;> refine ⟨⟨fun b hb => ?_, Nat.zero_le _, List.length_replicate _ _⟩, rfl⟩ <;>
    simp [PacketWriter.new, init, setProtocolVersion] at hb

end PacketWriter


theorem PacketWriter.write_appends (p : PacketWriter) (x : PacketWrite) (hp : p.wf) :
    ∃ p1, p.write x = .ok p1 ∧ p1.wf ∧ p1.flattened.length = p.flattened.length + x.size ∧
      p1.m_protocolVersion = p.m_protocolVersion := by
  cases x with
  | bytes data =>
    obtain ⟨p1, e, w, f, v⟩ := PacketWriter.serializeBytesRef_appends p data hp
    exact ⟨p1, e, w, by rw [f, List.length_append]; rfl, v⟩
  | item raw =>
    obtain ⟨p1, e, w, f, v⟩ := PacketWriter.serializeBinaryItem_appends p raw hp
    exact ⟨p1, e, w, by rw [f, List.length_append]; rfl, v⟩

theorem PacketWriter.writeAll_ok : ∀ (ops : List PacketWrite) (p : PacketWriter), p.wf →
    ∃ p1, p.writeAll ops = .ok p1 ∧ p1.wf ∧
      p1.flattened.length = p.flattened.length + (ops.map PacketWrite.size).sum
  | [], p, hp => ⟨p, rfl, hp, by simp⟩
  | x :: xs, p, hp => by
    obtain ⟨p1, e1, w1, f1, _⟩ := PacketWriter.write_appends p x hp
    obtain ⟨p2, e2, w2, f2⟩ := PacketWriter.writeAll_ok xs p1 w1
    refine ⟨p2, by simp only [PacketWriter.writeAll, e1, e2], w2, ?_⟩
    rw [f2, f1, List.map_cons, List.sum_cons]; omega

theorem full_buffers_payload : ∀ (bs : List PacketBuffer),
    (∀ b ∈ bs, b.bytes_written = PacketBuffer.DATA_SIZE ∧ b.data.length = PacketBuffer.DATA_SIZE) →
    (bs.map PacketBuffer.payload).flatten.length = PacketBuffer.DATA_SIZE * bs.length ∧
      (bs.map (fun b => b.bytes_written)).sum = PacketBuffer.DATA_SIZE * bs.length ∧
      bs.map (fun b => b.bytes_written) = List.replicate bs.length PacketBuffer.DATA_SIZE
  | [], _ => ⟨rfl, rfl, rfl⟩
  | b :: bs, h => by
    obtain ⟨h1, h2⟩ := h b (List.mem_cons_self _ _)
    obtain ⟨i1, i2, i3⟩ := full_buffers_payload bs (fun c hc => h c (List.mem_cons_of_mem _ hc))
    refine ⟨?_, ?_, ?_⟩
    · simp only [List.map_cons, List.flatten_cons, List.length_append, i1, PacketBuffer.payload,
        List.length_take, List.length_cons]
      rw [h1, h2, Nat.mul_succ]; omega
    · simp only [List.map_cons, List.sum_cons, i2, h1, List.length_cons, Nat.mul_succ]; omega
    · simp only [List.map_cons, i3, h1, List.length_cons, List.replicate_succ]

theorem PacketWriter.written_sum (p : PacketWriter) (hp : p.wf) :
    (p.buffers.map (fun b => b.bytes_written)).sum = p.flattened.length := by
  obtain ⟨h1, h2, h3⟩ := hp
  obtain ⟨i1, i2, _⟩ := full_buffers_payload p.previous h1
  rw [PacketWriter.flattened_eq, List.length_append, i1]
  simp only [PacketWriter.buffers, List.map_append, List.sum_append, i2, List.map_cons, List.map_nil,
    List.sum_cons, List.sum_nil, PacketBuffer.payload, List.length_take]
  omega

/-! ## C19: the shape of a packet buffer chain -/

/-- C19: after any sequence of `serializeBytes` / `serializeBinaryItem` writes
totalling `N` bytes into a `PacketWriter` started on one empty `PacketBuffer`,
the writes all succeed, no buffer of the chain has `bytes_written` above 4068,
every buffer except the last has exactly 4068, and the `bytes_written` values
sum to `N`; a single 5000-byte write yields exactly two buffers with
`bytes_written` 4068 and 932. -/
theorem packetWriter_chain_shape (ext : Externals) (reliable : Bool) (vo : Option _AssumeVersion) :
    (∀ ops : List PacketWrite,
      ∃ p, (PacketWriter.new ext PacketBuffer.new reliable vo).writeAll ops = .ok p ∧
        (∀ b ∈ p.buffers, b.bytes_written ≤ 4068) ∧
        (∀ b ∈ p.buffers.dropLast, b.bytes_written = 4068) ∧
        (p.buffers.map (fun b => b.bytes_written)).sum = (ops.map PacketWrite.size).sum) ∧
    (∀ data : List Nat, data.length = 5000 →
      ∃ p, (PacketWriter.new ext PacketBuffer.new reliable vo).writeAll [.bytes data] = .ok p ∧
        p.buffers.map (fun b => b.bytes_written) = [4068, 932]) := by
  have hD : PacketBuffer.DATA_SIZE = 4068 := rfl
  obtain ⟨hw0, hf0⟩ := PacketWriter.new_wf ext reliable vo
  have key : ∀ ops : List PacketWrite,
      ∃ p, (PacketWriter.new ext PacketBuffer.new reliable vo).writeAll ops = .ok p ∧ p.wf ∧
        (p.buffers.map (fun b => b.bytes_written)).sum = (ops.map PacketWrite.size).sum := by
    intro ops
    obtain ⟨p, e, w, f⟩ := PacketWriter.writeAll_ok ops _ hw0
    refine ⟨p, e, w, ?_⟩
    rw [PacketWriter.written_sum p w, f, hf0]; simp
  constructor
  · intro ops
    obtain ⟨p, e, w, hs⟩ := key ops
    refine ⟨p, e, ?_, ?_, hs⟩
    · intro b hb
      simp only [PacketWriter.buffers, List.mem_append, List.mem_singleton] at hb
      rcases hb with hb | hb
      · rw [(w.1 b hb).1, hD]
      · rw [hb, ← hD]; exact w.2.1
    · intro b hb
      simp only [PacketWriter.buffers, List.dropLast_concat] at hb
      rw [(w.1 b hb).1, hD]
  · intro data hlen
    obtain ⟨p, e, w, hs⟩ := key [.bytes data]
    refine ⟨p, e, ?_⟩
    obtain ⟨_, i2, i3⟩ := full_buffers_payload p.previous w.1
    have ht := w.2.1
    simp only [PacketWriter.buffers, List.map_append, List.sum_append, i2, List.map_cons,
      List.map_nil, List.sum_cons, List.sum_nil, PacketWrite.size, hlen, hD] at hs ht ⊢
    have hk : p.previous.length = 1 := by omega
    have hl : p.buffer.bytes_written = 932 := by omega
    rw [i3, hk, hl, hD]
    rfl

/-! ## C20: a packet chain flattens to the contiguous encoding -/

theorem BinaryWriter.serializeBytesAll_ok (ext : Externals) : ∀ (bss : List (List Nat))
    (w : BinaryWriter), w.wf → w.size + (bss.map List.length).sum ≤ INT_MAX →
    ∃ w1, BinaryWriter.serializeBytesAll ext w bss = .ok w1 ∧ w.Appends w1 bss.flatten
  | [], w, hw, _ => ⟨w, rfl, hw, by simp, rfl⟩
  | bs :: bss, w, hw, hroom => by
    simp only [List.map_cons, List.sum_cons] at hroom
    obtain ⟨w1, e1, a1⟩ := BinaryWriter.serializeBytesRef_ok ext w bs hw (by omega)
    have hs1 := a1.size_eq hw
    obtain ⟨w2, e2, a2⟩ := BinaryWriter.serializeBytesAll_ok ext bss w1 a1.1 (by omega)
    exact ⟨w2, by simp only [BinaryWriter.serializeBytesAll, e1, e2],
      by simpa only [List.flatten_cons] using a1.append a2⟩

theorem PacketWriter.serializeBytesAll_flattened : ∀ (bss : List (List Nat)) (p : PacketWriter), p.wf →
    ∃ p1, PacketWriter.serializeBytesAll p bss = .ok p1 ∧ p1.wf ∧
      p1.flattened = p.flattened ++ bss.flatten
  | [], p, hp => ⟨p, rfl, hp, by simp⟩
  | bs :: bss, p, hp => by
    obtain ⟨p1, e1, w1, f1, _⟩ := PacketWriter.serializeBytesRef_appends p bs hp
    obtain ⟨p2, e2, w2, f2⟩ := PacketWriter.serializeBytesAll_flattened bss p1 w1
    exact ⟨p2, by simp only [PacketWriter.serializeBytesAll, e1, e2], w2,
      by rw [f2, f1, List.flatten_cons, List.append_assoc]⟩

/-- C20: when a packet writer and a `BinaryWriter` hold the same bytes (the
flattened chain equals `toValue()`), the same sequence of `serializeBytes`
calls, whatever the remaining space `R` of the tail buffer and the sizes `S` of
the strings (so also for `R < S`, where the write crosses a buffer boundary),
succeeds on both as long as the contiguous writer does not exceed `INT_MAX`
bytes, and leaves the flattened chain equal to the bytes of the
`BinaryWriter`. -/
theorem packetWriter_refines_binaryWriter (ext : Externals) (p : PacketWriter) (w : BinaryWriter)
    (bss : List (List Nat)) (hp : p.wf) (hw : w.wf) (hsame : p.flattened = w.toValue)
    (hroom : w.size + (bss.map List.length).sum ≤ 2147483647) :
    ∃ p1 w1, PacketWriter.serializeBytesAll p bss = .ok p1 ∧
      BinaryWriter.serializeBytesAll ext w bss = .ok w1 ∧ p1.flattened = w1.toValue := by
  obtain ⟨p1, e1, _, f1⟩ := PacketWriter.serializeBytesAll_flattened bss p hp
  obtain ⟨w1, e2, a2⟩ := BinaryWriter.serializeBytesAll_ok ext bss w hw hroom
  exact ⟨p1, w1, e1, e2, by rw [f1, a2.2.1, hsame]⟩


/-- Witness of `packetWriter_refines_binaryWriter`: a fresh packet writer and
the example writer; after 4000 bytes the tail has 68 bytes left and the second
string of 100 bytes crosses the boundary. -/
theorem packetWriter_refines_binaryWriter_witness :
    ∃ p1 w1, PacketWriter.serializeBytesAll (PacketWriter.new exampleExternals PacketBuffer.new false none)
        [List.replicate 4000 1, List.replicate 100 2] = .ok p1 ∧
      BinaryWriter.serializeBytesAll exampleExternals exampleWriter
        [List.replicate 4000 1, List.replicate 100 2] = .ok w1 ∧ p1.flattened = w1.toValue :=
  packetWriter_refines_binaryWriter exampleExternals
    (PacketWriter.new exampleExternals PacketBuffer.new false none) exampleWriter
    [List.replicate 4000 1, List.replicate 100 2]
    (PacketWriter.new_wf exampleExternals false none).1 exampleWriter_wf
    (PacketWriter.new_wf exampleExternals false none).2
    (by simp only [List.map_cons, List.map_nil, List.length_replicate, List.sum_cons, List.sum_nil]
        decide)

/-! ## C16: consecutive raw writes concatenate -/

theorem sum_take_le (bss : List (List Nat)) (k : Nat) :
    ((bss.take k).map List.length).sum ≤ (bss.map List.length).sum := by
  conv_rhs => rw [← List.take_append_drop k bss]
  rw [List.map_append, List.sum_append]
  omega

/-- C16: on a `BinaryWriter` constructed with a policy that writes no version
bytes, for every sequence of byte strings of at most `INT_MAX` bytes in total
passed in order to `serializeBytes`, all calls succeed, `toValue()` is exactly
their concatenation and `getLength()` the sum of their lengths; and the bytes
held after any initial part of the sequence are still there, unchanged and at
the same offsets, at the end. -/
theorem serializeBytes_concatenates (ext : Externals) (vo : VersionOptions) (bss : List (List Nat))
    (hvo : ∀ i, vo ≠ .includeVersion i) (hroom : (bss.map List.length).sum ≤ 2147483647) :
    ∃ w0 w1, BinaryWriter.new ext vo = .ok w0 ∧ w0.toValue = [] ∧
      BinaryWriter.serializeBytesAll ext w0 bss = .ok w1 ∧
      w1.toValue = bss.flatten ∧ w1.getLength = (bss.map List.length).sum ∧
      ∀ k, ∃ wk, BinaryWriter.serializeBytesAll ext w0 (bss.take k) = .ok wk ∧
        wk.toValue = (bss.take k).flatten ∧ w1.toValue.take wk.getLength = wk.toValue := by
  have hnew : ∃ w0, BinaryWriter.new ext vo = .ok w0 ∧ w0.wf ∧ w0.toValue = [] ∧ w0.size = 0 := by
    cases vo with
    | includeVersion i => exact absurd rfl (hvo i)
    | assumeVersion a => exact ⟨_, rfl, ⟨Nat.le_refl 0, rfl⟩, rfl, rfl⟩
    | unversioned => exact ⟨_, rfl, ⟨Nat.le_refl 0, rfl⟩, rfl, rfl⟩
  obtain ⟨w0, e0, hw0, hv0, hs0⟩ := hnew
  obtain ⟨w1, e1, a1⟩ := BinaryWriter.serializeBytesAll_ok ext bss w0 hw0
    (by rw [hs0]; unfold INT_MAX; omega)
  have hval : w1.toValue = bss.flatten := by rw [a1.2.1, hv0, List.nil_append]
  refine ⟨w0, w1, e0, hv0, e1, hval, ?_, ?_⟩
  · have := BinaryWriter.toValue_length w1 a1.1
    rw [hval, List.length_flatten] at this
    exact this.symm
  · intro k
    have hk := sum_take_le bss k
    obtain ⟨wk, ek, ak⟩ := BinaryWriter.serializeBytesAll_ok ext (bss.take k) w0 hw0
      (by rw [hs0]; unfold INT_MAX; omega)
    have hvalk : wk.toValue = (bss.take k).flatten := by rw [ak.2.1, hv0, List.nil_append]
    refine ⟨wk, ek, hvalk, ?_⟩
    have hlen : wk.getLength = (bss.take k).flatten.length := by
      rw [← hvalk]; exact (BinaryWriter.toValue_length wk ak.1).symm
    have hsplit : bss.flatten = (bss.take k).flatten ++ (bss.drop k).flatten := by
      rw [← List.flatten_append, List.take_append_drop]
    rw [hval, hvalk, hlen, hsplit, List.take_left]

/-- Witness of `serializeBytes_concatenates`: three strings, the second of 600
bytes, written to an unversioned writer. -/
theorem serializeBytes_concatenates_witness :
    ∃ w0 w1, BinaryWriter.new exampleExternals Unversioned = .ok w0 ∧ w0.toValue = [] ∧
      BinaryWriter.serializeBytesAll exampleExternals w0 [[1, 2], List.replicate 600 7, [3]] = .ok w1 ∧
      w1.toValue = [[1, 2], List.replicate 600 7, [3]].flatten ∧
      w1.getLength = ([[1, 2], List.replicate 600 7, [3]].map List.length).sum ∧
      ∀ k, ∃ wk, BinaryWriter.serializeBytesAll exampleExternals w0
          ([[1, 2], List.replicate 600 7, [3]].take k) = .ok wk ∧
        wk.toValue = ([[1, 2], List.replicate 600 7, [3]].take k).flatten ∧
        w1.toValue.take wk.getLength = wk.toValue :=
  serializeBytes_concatenates exampleExternals Unversioned [[1, 2], List.replicate 600 7, [3]]
    (fun i h => by cases h)
    (by simp only [List.map_cons, List.map_nil, List.length_replicate, List.sum_cons, List.sum_nil,
          List.length_cons, List.length_nil]
        decide)

/-! ## The save templates at any archive -/

theorem save_string_eq_template (ext : Externals) (w : BinaryWriter) (s : List Nat) :
    save_string ext w s = (binaryWriterArchive ext).save_string ext w s := rfl

theorem save_vector_eq_template (ext : Externals) {T : Type} (S : Serializer T) (w : BinaryWriter)
    (v : List T) :
    save_vector ext S w v = (binaryWriterArchive ext).save_vector ext S.save w v := by
  have h : ∀ (v : List T) (w : BinaryWriter), saveEach S w v = WriterArchive.saveEach S.save w v := by
    intro v
    induction v with
    | nil => intro w; rfl
    | cons x xs ih =>
      intro w
      simp only [saveEach, WriterArchive.saveEach]
      cases S.save w x with
      | error e => rfl
      | ok w1 => exact ih w1
  simp only [save_vector, WriterArchive.save_vector, h]
  rfl

theorem binaryWriter_appendOnly (ext : Externals) :
    (binaryWriterArchive ext).AppendOnly BinaryWriter.toValue
      (fun w n => w.wf ∧ w.size + n ≤ INT_MAX) := by
  refine ⟨fun w n m h => ⟨h.1, by omega⟩, ?_, ?_⟩
  · intro w raw h
    obtain ⟨w1, e, a⟩ := BinaryWriter.serializeBinaryItem_ok ext w raw h.1 h.2
    have hs := a.size_eq h.1
    exact ⟨w1, e, a.2.1, a.2.2, fun m hm => ⟨a.1, by omega⟩⟩
  · intro w data h
    obtain ⟨w1, e, a⟩ := BinaryWriter.serializeBytesRef_ok ext w data h.1 h.2
    have hs := a.size_eq h.1
    exact ⟨w1, e, a.2.1, a.2.2, fun m hm => ⟨a.1, by omega⟩⟩

theorem packetWriter_appendOnly :
    packetWriterArchive.AppendOnly PacketWriter.flattened (fun p _ => p.wf) := by
  refine ⟨fun p n m h => h, ?_, ?_⟩
  · intro p raw h
    obtain ⟨p1, e, w, f, v⟩ := PacketWriter.serializeBinaryItem_appends p raw h
    exact ⟨p1, e, f, v, fun _ _ => w⟩
  · intro p data h
    obtain ⟨p1, e, w, f, v⟩ := PacketWriter.serializeBytesRef_appends p data h
    exact ⟨p1, e, f, v, fun _ _ => w⟩

theorem WriterArchive.Extends.concat {A : Type} {W : WriterArchive A} {written : A → List Nat}
    {accepts : A → Nat → Prop} {ar ar1 ar2 : A} {a b : List Nat}
    (h1 : W.Extends written accepts ar ar1 a) (h2 : W.Extends written accepts ar1 ar2 b) :
    W.Extends written accepts ar ar2 (a ++ b) :=
  ⟨by rw [h2.1, h1.1, List.append_assoc], by rw [h2.2.1, h1.2.1],
    fun m hm => h2.2.2 m (h1.2.2 _ (by rw [List.length_append, Nat.add_assoc] at hm; exact hm))⟩

theorem template_save_string_ok (ext : Externals) {A : Type} (W : WriterArchive A)
    (written : A → List Nat) (accepts : A → Nat → Prop) (hW : W.AppendOnly written accepts)
    (s : List Nat) (hlen : s.length ≤ INT_MAX) (ar : A)
    (hv : ext.isValid (W.protocolVersion ar) = true) (hacc : accepts ar (4 + s.length)) :
    ∃ ar1, W.save_string ext ar s = .ok ar1 ∧ W.Extends written accepts ar ar1 (encString s) := by
  obtain ⟨hmono, hitem, hbytes⟩ := hW
  obtain ⟨ar1, e1, x1⟩ := hitem ar (leBytes 4 s.length)
    (by rw [leBytes_length]; exact hmono ar 4 s.length hacc)
  obtain ⟨ar2, e2, x2⟩ := hbytes ar1 s
    (x1.2.2 _ (by rw [leBytes_length]; exact hacc))
  refine ⟨ar2, ?_, x1.concat x2⟩
  have hv2 : ext.isValid (W.protocolVersion ar2) = true := by rw [x2.2.1, x1.2.1]; exact hv
  simp only [WriterArchive.save_string, int32_toRaw_toInt32 _ hlen]
  simp only [toInt32_of_le _ hlen, bind, Except.bind, e1, e2, hv2, if_true, pure, Except.pure]

theorem template_saveEach_ok {A T : Type} (W : WriterArchive A) (written : A → List Nat)
    (accepts : A → Nat → Prop) (hW : W.AppendOnly written accepts) (pv : ProtocolVersion)
    (saveT : A → T → Except Error A)
    (enc : T → List Nat) (D : T → Prop) (hT : W.SavesAs written accepts pv saveT enc D) :
    ∀ (v : List T) (ar : A), (∀ x ∈ v, D x) → W.protocolVersion ar = pv →
      accepts ar (encEach enc v).length →
      ∃ ar1, WriterArchive.saveEach saveT ar v = .ok ar1 ∧
        W.Extends written accepts ar ar1 (encEach enc v)
  | [], ar, _, _, _ =>
    ⟨ar, rfl, by simp [encEach], rfl, fun m hm => by simpa [encEach] using hm⟩
  | x :: xs, ar, hD, hpv, hacc => by
    have hacc' : accepts ar ((enc x).length + (encEach enc xs).length) := by
      simpa only [encEach, List.length_append] using hacc
    obtain ⟨ar1, e1, x1⟩ := hT ar x (hD x (List.mem_cons_self _ _)) hpv (hW.1 ar _ _ hacc')
    obtain ⟨ar2, e2, x2⟩ := template_saveEach_ok W written accepts hW pv saveT enc D hT xs ar1
      (fun y hy => hD y (List.mem_cons_of_mem _ hy)) (by rw [x1.2.1]; exact hpv)
      (x1.2.2 _ hacc')
    exact ⟨ar2, by simp only [WriterArchive.saveEach, e1, e2], by
      simpa only [encEach] using x1.concat x2⟩

theorem template_save_vector_ok (ext : Externals) {A T : Type} (W : WriterArchive A)
    (written : A → List Nat) (accepts : A → Nat → Prop) (hW : W.AppendOnly written accepts)
    (pv : ProtocolVersion) (hpv : ext.isValid pv = true) (saveT : A → T → Except Error A)
    (enc : T → List Nat) (D : T → Prop) (hT : W.SavesAs written accepts pv saveT enc D)
    (v : List T) (hlen : v.length ≤ INT_MAX) (hD : ∀ x ∈ v, D x) (ar : A)
    (hv : W.protocolVersion ar = pv) (hacc : accepts ar (4 + (encEach enc v).length)) :
    ∃ ar1, W.save_vector ext saveT ar v = .ok ar1 ∧
      W.Extends written accepts ar ar1 (encVector enc v) := by
  obtain ⟨ar1, e1, x1⟩ := hW.2.1 ar (leBytes 4 v.length)
    (by rw [leBytes_length]; exact hW.1 ar 4 _ hacc)
  obtain ⟨ar2, e2, x2⟩ := template_saveEach_ok W written accepts hW pv saveT enc D hT v ar1 hD
    (by rw [x1.2.1]; exact hv) (x1.2.2 _ (by rw [leBytes_length]; exact hacc))
  refine ⟨ar2, ?_, x1.concat x2⟩
  have hv2 : ext.isValid (W.protocolVersion ar2) = true := by rw [x2.2.1, x1.2.1, hv]; exact hpv
  simp only [WriterArchive.save_vector, int32_toRaw_toInt32 _ hlen]
  simp only [toInt32_of_le _ hlen, bind, Except.bind, e1, e2, hv2, if_true, pure, Except.pure]

/-! ## C12: the bytes of a saved string -/

/-- C12 (as amended): at every writer archive whose primitives append, for every
string `s` of length `n` at most 2,147,483,647 such that the archive has room
for `4 + n` more bytes (at a `BinaryWriter`: `size + 4 + n` at most
2,147,483,647), `save` (at a valid ambient version) succeeds and appends
exactly the 4 raw bytes of the signed 32-bit value `n` followed by the `n`
bytes of `s` unchanged, `4 + n` bytes in all. -/
theorem save_string_bytes (ext : Externals) {A : Type} (W : WriterArchive A)
    (written : A → List Nat) (accepts : A → Nat → Prop) (hW : W.AppendOnly written accepts)
    (s : List Nat) (hlen : s.length ≤ 2147483647) (ar : A)
    (hv : ext.isValid (W.protocolVersion ar) = true) (hacc : accepts ar (4 + s.length)) :
    ∃ ar1, W.save_string ext ar s = .ok ar1 ∧
      written ar1 = written ar ++ (int32_t.toRaw (s.length : Int) ++ s) ∧
      int32_t.ofRaw (int32_t.toRaw (s.length : Int)) = (s.length : Int) ∧
      (int32_t.toRaw (s.length : Int)).length = 4 ∧
      (int32_t.toRaw (s.length : Int) ++ s).length = 4 + s.length := by
  obtain ⟨ar1, e, x⟩ := template_save_string_ok ext W written accepts hW s hlen ar hv hacc
  have h1 := int32_toRaw_toInt32 s.length hlen
  have h2 := int32_ofRaw_toRaw s.length hlen
  rw [toInt32_of_le _ hlen] at h1 h2
  refine ⟨ar1, e, by rw [h1]; exact x.1, h2, by rw [h1, leBytes_length], ?_⟩
  rw [h1, List.length_append, leBytes_length]

/-- Witness of `save_string_bytes`: the string `ab` saved into the example
`BinaryWriter`. -/
theorem save_string_bytes_witness :
    ∃ ar1, (binaryWriterArchive exampleExternals).save_string exampleExternals exampleWriter
        [97, 98] = .ok ar1 ∧
      BinaryWriter.toValue ar1 = BinaryWriter.toValue exampleWriter ++
        (int32_t.toRaw (([97, 98] : List Nat).length : Int) ++ [97, 98]) ∧
      int32_t.ofRaw (int32_t.toRaw (([97, 98] : List Nat).length : Int)) =
        (([97, 98] : List Nat).length : Int) ∧
      (int32_t.toRaw (([97, 98] : List Nat).length : Int)).length = 4 ∧
      (int32_t.toRaw (([97, 98] : List Nat).length : Int) ++ [97, 98]).length =
        4 + ([97, 98] : List Nat).length :=
  save_string_bytes exampleExternals (binaryWriterArchive exampleExternals) BinaryWriter.toValue
    (fun w n => w.wf ∧ w.size + n ≤ INT_MAX) (binaryWriter_appendOnly exampleExternals) [97, 98]
    (by decide) exampleWriter (by decide) ⟨exampleWriter_wf, by decide⟩

/-- C12 as stated fails: a string of 2,147,483,647 bytes is within the stated
bound, yet `save` into a fresh `BinaryWriter` at the valid current version
appends no `4 + n` bytes: after the 4 length bytes, `size += 2147483647`
overflows the writer's `int size`. -/
theorem save_string_bytes_counterexample :
    (List.replicate 2147483647 0).length ≤ 2147483647 ∧
      exampleExternals.isValid exampleExternals.currentProtocolVersion = true ∧
      BinaryWriter.new exampleExternals (AssumeVersion exampleExternals.currentProtocolVersion) =
        .ok exampleWriter ∧
      (binaryWriterArchive exampleExternals).save_string exampleExternals exampleWriter
        (List.replicate 2147483647 0) = .error .undefined_behavior :=
  ⟨(List.length_replicate _ _).le, by decide, rfl,
    (save_string_eq_template exampleExternals exampleWriter _).symm.trans
      (save_string_overflow exampleExternals exampleWriter _ exampleWriter_wf
        (List.length_replicate _ _).le (by decide)
        (by rw [List.length_replicate]; decide))⟩

/-! ## C11: the bytes of a saved vector -/

/-- C11 (as amended): at every writer archive whose primitives append, for every
vector `v` of `n` elements, `n` at most 2,147,483,647, whose element `save`
appends `enc x`, such that the archive has room for the 4 count bytes and the
encodings of the elements (at a `BinaryWriter`: `size` plus that many bytes at
most 2,147,483,647), `save` succeeds and appends exactly the 4 raw bytes of the
signed 32-bit value `n` followed by the encodings of `v[0]`, ..., `v[n-1]` in
index order and nothing else; when `n = 2,147,483,647` the bytes appended start
with the length field `FF FF FF 7F`, the value 2,147,483,647. -/
theorem save_vector_bytes (ext : Externals) {A T : Type} (W : WriterArchive A)
    (written : A → List Nat) (accepts : A → Nat → Prop) (hW : W.AppendOnly written accepts)
    (pv : ProtocolVersion) (hpv : ext.isValid pv = true) (saveT : A → T → Except Error A)
    (enc : T → List Nat) (D : T → Prop) (hT : W.SavesAs written accepts pv saveT enc D)
    (v : List T) (hlen : v.length ≤ 2147483647) (hD : ∀ x ∈ v, D x) (ar : A)
    (hv : W.protocolVersion ar = pv) (hacc : accepts ar (4 + (encEach enc v).length)) :
    ∃ ar1, W.save_vector ext saveT ar v = .ok ar1 ∧
      written ar1 = written ar ++ (int32_t.toRaw (v.length : Int) ++ encEach enc v) ∧
      int32_t.ofRaw (int32_t.toRaw (v.length : Int)) = (v.length : Int) ∧
      (int32_t.toRaw (v.length : Int)).length = 4 ∧
      (v.length = 2147483647 →
        written ar1 = written ar ++ ([0xFF, 0xFF, 0xFF, 0x7F] ++ encEach enc v) ∧
        int32_t.ofRaw [0xFF, 0xFF, 0xFF, 0x7F] = 2147483647) := by
  obtain ⟨ar1, e, x⟩ := template_save_vector_ok ext W written accepts hW pv hpv saveT enc D hT v hlen
    hD ar hv hacc
  have h1 := int32_toRaw_toInt32 v.length hlen
  have h2 := int32_ofRaw_toRaw v.length hlen
  rw [toInt32_of_le _ hlen] at h1 h2
  refine ⟨ar1, e, by rw [h1]; exact x.1, h2, by rw [h1, leBytes_length], ?_⟩
  intro hn
  have h3 : leBytes 4 v.length = [0xFF, 0xFF, 0xFF, 0x7F] := by rw [hn]; decide
  refine ⟨?_, by decide⟩
  rw [← h3]
  exact x.1


theorem binary_savesAs {A T : Type} (W : WriterArchive A) (written : A → List Nat)
    (accepts : A → Nat → Prop) (hW : W.AppendOnly written accepts) (pv : ProtocolVersion)
    (B : BinarySerializable T) :
    W.SavesAs written accepts pv (fun ar x => W.serializeBinaryItem ar (B.toRaw x)) B.toRaw
      (fun _ => True) :=
  fun ar x _ _ hacc => hW.2.1 ar (B.toRaw x) hacc

/-- Witness of `save_vector_bytes`: the vector `{1, 2, 3}` of `uint8_t` saved into
the example `BinaryWriter`. -/
theorem save_vector_bytes_witness :
    ∃ ar1, (binaryWriterArchive exampleExternals).save_vector exampleExternals
        (fun ar x => (binaryWriterArchive exampleExternals).serializeBinaryItem ar (uint8_t.toRaw x))
        exampleWriter ([1, 2, 3] : List (Fin 256)) = .ok ar1 ∧
      BinaryWriter.toValue ar1 = BinaryWriter.toValue exampleWriter ++
        (int32_t.toRaw (([1, 2, 3] : List (Fin 256)).length : Int) ++
          encEach uint8_t.toRaw ([1, 2, 3] : List (Fin 256))) ∧
      int32_t.ofRaw (int32_t.toRaw (([1, 2, 3] : List (Fin 256)).length : Int)) =
        (([1, 2, 3] : List (Fin 256)).length : Int) ∧
      (int32_t.toRaw (([1, 2, 3] : List (Fin 256)).length : Int)).length = 4 ∧
      (([1, 2, 3] : List (Fin 256)).length = 2147483647 →
        BinaryWriter.toValue ar1 = BinaryWriter.toValue exampleWriter ++
          ([0xFF, 0xFF, 0xFF, 0x7F] ++ encEach uint8_t.toRaw ([1, 2, 3] : List (Fin 256))) ∧
        int32_t.ofRaw [0xFF, 0xFF, 0xFF, 0x7F] = 2147483647) :=
  save_vector_bytes exampleExternals (binaryWriterArchive exampleExternals) BinaryWriter.toValue
    (fun w n => w.wf ∧ w.size + n ≤ INT_MAX) (binaryWriter_appendOnly exampleExternals)
    exampleExternals.currentProtocolVersion (by decide) _ uint8_t.toRaw (fun _ => True)
    (binary_savesAs _ _ _ (binaryWriter_appendOnly exampleExternals) _ uint8_t)
    [1, 2, 3] (by decide) (fun _ _ => trivial) exampleWriter rfl ⟨exampleWriter_wf, by decide⟩

/-- C11 as stated fails: a vector of 2,147,483,647 `uint8_t` is within the stated
bound and its element `save` appends one byte, yet `save` into a fresh
`BinaryWriter` at the valid current version does not append the count followed
by the elements: the writer's `int size` overflows on the way. -/
theorem save_vector_bytes_counterexample :
    (List.replicate 2147483647 (0 : Fin 256)).length ≤ 2147483647 ∧
      (binaryWriterArchive exampleExternals).SavesAs BinaryWriter.toValue
        (fun w n => w.wf ∧ w.size + n ≤ INT_MAX) exampleExternals.currentProtocolVersion
        (binarySerializer exampleExternals uint8_t 0).save uint8_t.toRaw (fun _ => True) ∧
      exampleExternals.isValid exampleExternals.currentProtocolVersion = true ∧
      BinaryWriter.new exampleExternals (AssumeVersion exampleExternals.currentProtocolVersion) =
        .ok exampleWriter ∧
      (binaryWriterArchive exampleExternals).save_vector exampleExternals
        (binarySerializer exampleExternals uint8_t 0).save exampleWriter
        (List.replicate 2147483647 0) = .error .undefined_behavior :=
  ⟨(List.length_replicate _ _).le,
    binary_savesAs _ _ _ (binaryWriter_appendOnly exampleExternals) _ uint8_t, by decide, rfl,
    (save_vector_eq_template exampleExternals (binarySerializer exampleExternals uint8_t 0)
      exampleWriter _).symm.trans
      (save_vector_uint8_overflow exampleExternals exampleWriter _ exampleWriter_wf
        (List.length_replicate _ _).le (by decide)
        (by rw [List.length_replicate]; decide))⟩

/-- The string template at a `PacketWriter`: no bound on the archive, the length
bound alone. -/
theorem packetWriter_save_string (ext : Externals) (p : PacketWriter) (s : List Nat)
    (hp : p.wf) (hlen : s.length ≤ INT_MAX) (hv : ext.isValid p.protocolVersion = true) :
    ∃ p1, packetWriterArchive.save_string ext p s = .ok p1 ∧
      p1.flattened = p.flattened ++ encString s := by
  obtain ⟨p1, e, x⟩ := template_save_string_ok ext packetWriterArchive PacketWriter.flattened
    (fun p _ => p.wf) packetWriter_appendOnly s hlen p hv hp
  exact ⟨p1, e, x.1⟩

/-- The vector template at a `PacketWriter`, for binary-serializable elements: no
bound on the archive, the element-count bound alone. -/
theorem packetWriter_save_vector (ext : Externals) {T : Type} (B : BinarySerializable T)
    (p : PacketWriter) (v : List T) (hp : p.wf) (hlen : v.length ≤ INT_MAX)
    (hv : ext.isValid p.protocolVersion = true) :
    ∃ p1, packetWriterArchive.save_vector ext
        (fun ar x => packetWriterArchive.serializeBinaryItem ar (B.toRaw x)) p v = .ok p1 ∧
      p1.flattened = p.flattened ++ encVector B.toRaw v := by
  obtain ⟨p1, e, x⟩ := template_save_vector_ok ext packetWriterArchive PacketWriter.flattened
    (fun p _ => p.wf) packetWriter_appendOnly p.protocolVersion hv _ B.toRaw (fun _ => True)
    (binary_savesAs _ _ _ packetWriter_appendOnly _ B) v hlen (fun _ _ => trivial) p rfl hp
  exact ⟨p1, e, x.1⟩

/-! ## C21: the declared capacity of an OverWriter -/

theorem OverWriter.writeBytes_spec {M : Type}
    (ws : SplitBuffer × M → List Nat → Int → SplitBuffer × M) (o : OverWriter M)
    (data : List Nat) :
    (((data.length : Int) ≤ o.len →
        (o.writeBytes ws data (data.length : Int)).1 = .ok () ∧
        (o.writeBytes ws data (data.length : Int)).2.len = o.len - (data.length : Int) ∧
        (o.writeBytes ws data (data.length : Int)).2.m_protocolVersion = o.m_protocolVersion) ∧
      (o.len < (data.length : Int) →
        o.writeBytes ws data (data.length : Int) = (.error .internal_error, o))) := by
  constructor
  · intro h
    have h2 : ¬ (((data.length : Int) < 0) ∨ (data.length : Int) < (data.length : Int)) := by omega
    simp only [OverWriter.writeBytes, h, if_true, h2, if_false, and_self]
  · intro h
    have h1 : ¬ ((data.length : Int) ≤ o.len) := by omega
    simp only [OverWriter.writeBytes, h1, if_false]

theorem OverWriter.write_spec {M : Type}
    (ws : SplitBuffer × M → List Nat → Int → SplitBuffer × M) (o : OverWriter M)
    (x : PacketWrite) :
    (((x.size : Int) ≤ o.len →
        (o.write ws x).1 = .ok () ∧ (o.write ws x).2.len = o.len - (x.size : Int)) ∧
      (o.len < (x.size : Int) → o.write ws x = (.error .internal_error, o))) := by
  cases x with
  | bytes data =>
    obtain ⟨h1, h2⟩ := OverWriter.writeBytes_spec ws o data
    exact ⟨fun h => ⟨(h1 h).1, (h1 h).2.1⟩, h2⟩
  | item raw =>
    obtain ⟨h1, h2⟩ := OverWriter.writeBytes_spec ws o raw
    exact ⟨fun h => ⟨(h1 h).1, (h1 h).2.1⟩, h2⟩

theorem OverWriter.writeAll_total {M : Type}
    (ws : SplitBuffer × M → List Nat → Int → SplitBuffer × M) :
    ∀ (xs : List PacketWrite) (o : OverWriter M), 0 ≤ o.len →
      ((OverWriter.writeAll ws o xs).1 : Int) + (OverWriter.writeAll ws o xs).2.len = o.len ∧
        0 ≤ (OverWriter.writeAll ws o xs).2.len
  | [], o, h => by simp [OverWriter.writeAll, h]
  | x :: xs, o, h => by
    obtain ⟨h1, h2⟩ := OverWriter.write_spec ws o x
    by_cases hfit : (x.size : Int) ≤ o.len
    · obtain ⟨e1, e2⟩ := h1 hfit
      obtain ⟨i1, i2⟩ := OverWriter.writeAll_total ws xs (o.write ws x).2 (by rw [e2]; omega)
      have hw : OverWriter.writeAll ws o (x :: xs) =
          ((OverWriter.writeAll ws (o.write ws x).2 xs).1 + x.size,
            (OverWriter.writeAll ws (o.write ws x).2 xs).2) := by
        rw [OverWriter.writeAll]
        generalize hq : o.write ws x = q at e1
        obtain ⟨q1, q2⟩ := q
        simp only at e1
        subst e1
        rfl
      rw [hw]
      simp only
      rw [e2] at i1
      constructor
      · push_cast; omega
      · exact i2
    · have e := h2 (by omega)
      obtain ⟨i1, i2⟩ := OverWriter.writeAll_total ws xs o h
      have hw : OverWriter.writeAll ws o (x :: xs) = OverWriter.writeAll ws o xs := by
        rw [OverWriter.writeAll, e]
      rw [hw]
      exact ⟨i1, i2⟩

/-- C21: an `OverWriter` constructed over `(ptr, len)` with a policy that writes
no bytes has remaining capacity `len` and leaves the memory untouched; in every
state a write of `w` bytes (`serializeBytes` or `serializeBinaryItem`) succeeds
exactly when `w` is at most the remaining capacity, a successful write lowers
the capacity by exactly `w`, a write above it fails its assertion and leaves
the writer and the memory as they were; so after any sequence of writes the
bytes written and the remaining capacity add up to `len` and the bytes written
never exceed `len`. -/
theorem overWriter_capacity {M : Type} (ws : SplitBuffer × M → List Nat → Int → SplitBuffer × M)
    (ext : Externals) (mem : M) (ptr : Nat) (len : Int) (vo : VersionOptions) (nx : Nat)
    (hvo : ∀ i, vo ≠ .includeVersion i) (hlen : 0 ≤ len) :
    ∃ o0, OverWriter.new ws ext mem ptr len vo nx = .ok o0 ∧ o0.len = len ∧ o0.mem = mem ∧
      (∀ (o : OverWriter M) (x : PacketWrite),
        ((o.write ws x).1 = .ok () ↔ (x.size : Int) ≤ o.len) ∧
        ((x.size : Int) ≤ o.len → (o.write ws x).2.len = o.len - (x.size : Int)) ∧
        (o.len < (x.size : Int) → o.write ws x = (.error .internal_error, o))) ∧
      (∀ xs : List PacketWrite,
        ((OverWriter.writeAll ws o0 xs).1 : Int) + (OverWriter.writeAll ws o0 xs).2.len = len ∧
        ((OverWriter.writeAll ws o0 xs).1 : Int) ≤ len) := by
  have hnew : ∃ o0, OverWriter.new ws ext mem ptr len vo nx = .ok o0 ∧ o0.len = len ∧
      o0.mem = mem := by
    cases vo with
    | includeVersion i => exact absurd rfl (hvo i)
    | assumeVersion a => exact ⟨_, rfl, rfl, rfl⟩
    | unversioned => exact ⟨_, rfl, rfl, rfl⟩
  obtain ⟨o0, e0, l0, m0⟩ := hnew
  refine ⟨o0, e0, l0, m0, ?_, ?_⟩
  · intro o x
    obtain ⟨h1, h2⟩ := OverWriter.write_spec ws o x
    refine ⟨⟨?_, fun h => (h1 h).1⟩, fun h => (h1 h).2, h2⟩
    intro hok
    by_contra hnot
    rw [h2 (by omega)] at hok
    cases hok
  · intro xs
    obtain ⟨i1, i2⟩ := OverWriter.writeAll_total ws xs o0 (by rw [l0]; exact hlen)
    rw [l0] at i1
    exact ⟨i1, by omega⟩

/-- Witness of `overWriter_capacity`: an `OverWriter` over 8 bytes at address 0
of a 16-byte memory, constructed `Unversioned`. -/
theorem overWriter_capacity_witness :
    ∃ o0, OverWriter.new exampleWriteAndShrink exampleExternals (List.replicate 16 0) 0 8
        Unversioned 0 = .ok o0 ∧ o0.len = 8 ∧ o0.mem = List.replicate 16 0 ∧
      (∀ (o : OverWriter (List Nat)) (x : PacketWrite),
        ((o.write exampleWriteAndShrink x).1 = .ok () ↔ (x.size : Int) ≤ o.len) ∧
        ((x.size : Int) ≤ o.len →
          (o.write exampleWriteAndShrink x).2.len = o.len - (x.size : Int)) ∧
        (o.len < (x.size : Int) →
          o.write exampleWriteAndShrink x = (.error .internal_error, o))) ∧
      (∀ xs : List PacketWrite,
        ((OverWriter.writeAll exampleWriteAndShrink o0 xs).1 : Int) +
            (OverWriter.writeAll exampleWriteAndShrink o0 xs).2.len = 8 ∧
        ((OverWriter.writeAll exampleWriteAndShrink o0 xs).1 : Int) ≤ 8) :=
  overWriter_capacity exampleWriteAndShrink exampleExternals (List.replicate 16 0) 0 8
    Unversioned 0 (fun _ h => VersionOptions.noConfusion h) (by decide)

/-! ## C25: the fast path of a PacketWriter write -/

theorem storeAt_prefix (buf : List Nat) (p : Nat) (bs : List Nat) (hp : p ≤ buf.length) :
    (storeAt buf p bs).take p = buf.take p := by
  unfold storeAt
  rw [List.append_assoc, List.take_append_of_le_length (by simp [List.length_take]; omega),
    List.take_take, Nat.min_self]

theorem storeAt_written (buf : List Nat) (p : Nat) (bs : List Nat) (hp : p ≤ buf.length) :
    ((storeAt buf p bs).drop p).take bs.length = bs := by
  unfold storeAt
  have h1 : (buf.take p).length = p := by simp [List.length_take]; omega
  rw [List.append_assoc, List.drop_append_of_le_length (by omega),
    List.drop_of_length_le (by omega), List.nil_append, List.take_left]

/-- C25: when the byte count `n` of a `PacketWriter` write (`serializeBytes`, or
`serializeBinaryItem` with `n = sizeof(T)`) is at most `4068 - bytes_written` of
the tail buffer, the write succeeds, copies the `n` bytes to offset
`bytes_written` of that buffer, raises its `bytes_written` by exactly `n` (at
most 4068), links no new buffer, and leaves the bytes written before,
`bytes_sent`, the reference count, the chain in front of the tail, the reliable
handle, the length field and the ambient version unchanged. -/
theorem packetWriter_fast_path (p : PacketWriter) (x : PacketWrite)
    (hdata : p.buffer.data.length = 4068) (hfit : p.buffer.bytes_written + x.size ≤ 4068) :
    ∃ p1, p.write x = .ok p1 ∧
      (match x with
        | .bytes data => p.serializeBytes data (data.length : Int) = .ok p1
        | .item raw => p.serializeBinaryItem raw = .ok p1) ∧
      ((p1.buffer.data.drop p.buffer.bytes_written).take x.size =
        (match x with | .bytes data => data | .item raw => raw)) ∧
      p1.buffer.bytes_written = p.buffer.bytes_written + x.size ∧
      p1.buffer.bytes_written ≤ 4068 ∧
      p1.previous = p.previous ∧ p1.buffers.length = p.buffers.length ∧
      p1.buffer.data.take p.buffer.bytes_written = p.buffer.data.take p.buffer.bytes_written ∧
      p1.buffer.data.length = 4068 ∧
      p1.buffer.bytes_sent = p.buffer.bytes_sent ∧
      p1.buffer.reference_count = p.buffer.reference_count ∧
      p1.reliable = p.reliable ∧ p1.length = p.length ∧
      p1.m_protocolVersion = p.m_protocolVersion := by
  have hD : PacketBuffer.DATA_SIZE = 4068 := rfl
  have hbw : p.buffer.bytes_written ≤ p.buffer.data.length := by omega
  cases x with
  | bytes data =>
    simp only [PacketWrite.size] at hfit
    have hle : (data.length : Int) ≤ p.buffer.bytes_unwritten := by
      simp only [PacketBuffer.bytes_unwritten, hD]; omega
    have hnot : ¬ (((data.length : Int) < 0) ∨ (data.length : Int) < (data.length : Int)) := by
      omega
    have e : p.serializeBytes data (data.length : Int) = .ok (p.writeTail data) := by
      simp only [PacketWriter.serializeBytes, hnot, if_false, hle, if_true, Int.toNat_ofNat,
        List.take_length]
    refine ⟨p.writeTail data, e, e, ?_, rfl, ?_, rfl, ?_, ?_, ?_, rfl, rfl, rfl, rfl, rfl⟩
    · exact storeAt_written _ _ _ hbw
    · show p.buffer.bytes_written + data.length ≤ 4068
      exact hfit
    · simp only [PacketWriter.buffers, List.length_append]; rfl
    · exact storeAt_prefix _ _ _ hbw
    · show (storeAt p.buffer.data p.buffer.bytes_written data).length = 4068
      rw [storeAt_length _ _ _ (by omega), hdata]
  | item raw =>
    simp only [PacketWrite.size] at hfit
    have hle : (raw.length : Int) ≤ p.buffer.bytes_unwritten := by
      simp only [PacketBuffer.bytes_unwritten, hD]; omega
    have e : p.serializeBinaryItem raw = .ok (p.writeTail raw) := by
      simp only [PacketWriter.serializeBinaryItem, hle, if_true]
    refine ⟨p.writeTail raw, e, e, ?_, rfl, ?_, rfl, ?_, ?_, ?_, rfl, rfl, rfl, rfl, rfl⟩
    · exact storeAt_written _ _ _ hbw
    · show p.buffer.bytes_written + raw.length ≤ 4068
      exact hfit
    · simp only [PacketWriter.buffers, List.length_append]; rfl
    · exact storeAt_prefix _ _ _ hbw
    · show (storeAt p.buffer.data p.buffer.bytes_written raw).length = 4068
      rw [storeAt_length _ _ _ (by omega), hdata]

/-- Witness of `packetWriter_fast_path`: the four bytes of a scalar written into
a fresh packet writer. -/
theorem packetWriter_fast_path_witness :
    ∃ p1, (PacketWriter.new exampleExternals PacketBuffer.new false none).write
        (.item [1, 2, 3, 4]) = .ok p1 ∧
      (match PacketWrite.item [1, 2, 3, 4] with
        | .bytes data => (PacketWriter.new exampleExternals PacketBuffer.new false
            none).serializeBytes data (data.length : Int) = .ok p1
        | .item raw => (PacketWriter.new exampleExternals PacketBuffer.new false
            none).serializeBinaryItem raw = .ok p1) ∧
      ((p1.buffer.data.drop (PacketWriter.new exampleExternals PacketBuffer.new false
          none).buffer.bytes_written).take (PacketWrite.item [1, 2, 3, 4]).size =
        (match PacketWrite.item [1, 2, 3, 4] with | .bytes data => data | .item raw => raw)) ∧
      p1.buffer.bytes_written = (PacketWriter.new exampleExternals PacketBuffer.new false
        none).buffer.bytes_written + (PacketWrite.item [1, 2, 3, 4]).size ∧
      p1.buffer.bytes_written ≤ 4068 ∧
      p1.previous = (PacketWriter.new exampleExternals PacketBuffer.new false none).previous ∧
      p1.buffers.length =
        (PacketWriter.new exampleExternals PacketBuffer.new false none).buffers.length ∧
      p1.buffer.data.take (PacketWriter.new exampleExternals PacketBuffer.new false
          none).buffer.bytes_written =
        (PacketWriter.new exampleExternals PacketBuffer.new false none).buffer.data.take
          (PacketWriter.new exampleExternals PacketBuffer.new false none).buffer.bytes_written ∧
      p1.buffer.data.length = 4068 ∧
      p1.buffer.bytes_sent =
        (PacketWriter.new exampleExternals PacketBuffer.new false none).buffer.bytes_sent ∧
      p1.buffer.reference_count =
        (PacketWriter.new exampleExternals PacketBuffer.new false none).buffer.reference_count ∧
      p1.reliable = (PacketWriter.new exampleExternals PacketBuffer.new false none).reliable ∧
      p1.length = (PacketWriter.new exampleExternals PacketBuffer.new false none).length ∧
      p1.m_protocolVersion =
        (PacketWriter.new exampleExternals PacketBuffer.new false none).m_protocolVersion :=
  packetWriter_fast_path (PacketWriter.new exampleExternals PacketBuffer.new false none)
    (.item [1, 2, 3, 4]) (List.length_replicate _ _) (by decide)

/-! ## C26: SerializeSource and SerializeBoolAnd -/

theorem bool_raw_length (b : Bool) : (bool_t.toRaw b).length = 1 := rfl

/-- C26: for every flag `b` and value `x` whose `save` appends `enc x` (on every
well-formed writer at the version `pv` with room for it),
`serializeBinaryWriter` on `SerializeSource(x)` is the value's own `w << x` and
appends `enc x`, and `serializeBinaryWriter` on `SerializeBoolAnd(b, x)` appends
the one raw byte of `b` (1 for `true`, 0 for `false`) immediately followed by
exactly those bytes. -/
theorem serializeBoolAnd_bytes (ext : Externals) {T : Type} (S : Serializer T)
    (enc : T → List Nat) (pv : ProtocolVersion) (b : Bool) (x : T) (w : BinaryWriter)
    (hS : ∀ w0 : BinaryWriter, w0.wf → w0.m_protocolVersion = pv →
      w0.size + (enc x).length ≤ INT_MAX → ∃ w1, S.save w0 x = .ok w1 ∧ w0.Appends w1 (enc x))
    (hw : w.wf) (hv : w.m_protocolVersion = pv)
    (hroom : w.size + 1 + (enc x).length ≤ 2147483647) :
    SerializeSource.serializeBinaryWriter S ⟨x⟩ w = S.save w x ∧
    (∃ w1, SerializeSource.serializeBinaryWriter S ⟨x⟩ w = .ok w1 ∧
      BinaryWriter.appended w w1 = enc x) ∧
    (∃ w2, SerializeBoolAnd.serializeBinaryWriter ext S ⟨b, x⟩ w = .ok w2 ∧
      BinaryWriter.appended w w2 = [if b then 1 else 0] ++ enc x ∧
      w2.toValue = w.toValue ++ [if b then 1 else 0] ++ enc x) := by
  refine ⟨rfl, ?_, ?_⟩
  · obtain ⟨w1, e1, a1⟩ := hS w hw hv (by unfold INT_MAX; omega)
    exact ⟨w1, e1, BinaryWriter.appended_eq hw a1⟩
  · obtain ⟨wb, eb, ab⟩ := BinaryWriter.serializeBinaryItem_ok ext w (bool_t.toRaw b) hw
      (by rw [bool_raw_length]; unfold INT_MAX; omega)
    have hsb := ab.size_eq hw
    rw [bool_raw_length] at hsb
    obtain ⟨w2, e2, a2⟩ := hS wb ab.1 (by rw [ab.2.2, hv]) (by unfold INT_MAX; omega)
    have a := ab.append a2
    have e : SerializeBoolAnd.serializeBinaryWriter ext S ⟨b, x⟩ w = .ok w2 := by
      show SerializeBoolAnd.serialize ext S ⟨b, x⟩ w = .ok w2
      have eb' : (binarySerializer ext bool_t false).save w b = .ok wb := eb
      simp only [SerializeBoolAnd.serialize, eb', e2]
    refine ⟨w2, e, BinaryWriter.appended_eq hw a, ?_⟩
    rw [a.2.1, List.append_assoc]
    rfl

/-- Witness of `serializeBoolAnd_bytes`: the flag `true` and the string `ab` on
the example writer. -/
theorem serializeBoolAnd_bytes_witness :
    SerializeSource.serializeBinaryWriter (stringSerializer exampleExternals) ⟨[97, 98]⟩
        exampleWriter = (stringSerializer exampleExternals).save exampleWriter [97, 98] ∧
    (∃ w1, SerializeSource.serializeBinaryWriter (stringSerializer exampleExternals) ⟨[97, 98]⟩
        exampleWriter = .ok w1 ∧
      BinaryWriter.appended exampleWriter w1 = encString [97, 98]) ∧
    (∃ w2, SerializeBoolAnd.serializeBinaryWriter exampleExternals
        (stringSerializer exampleExternals) ⟨true, [97, 98]⟩ exampleWriter = .ok w2 ∧
      BinaryWriter.appended exampleWriter w2 = [if true then 1 else 0] ++ encString [97, 98] ∧
      w2.toValue = exampleWriter.toValue ++ [if true then 1 else 0] ++ encString [97, 98]) :=
  serializeBoolAnd_bytes exampleExternals (stringSerializer exampleExternals) encString
    exampleExternals.currentProtocolVersion true [97, 98] exampleWriter
    (fun w0 h0 hv0 hr0 => save_string_ok exampleExternals w0 [97, 98] h0
      (by rw [hv0]; decide) (by simpa [encString, leBytes_length, Nat.add_assoc] using hr0))
    exampleWriter_wf rfl (by decide)

/-! ## C27: a negative count in front of a set or map -/

/-- C27: for every reader at a valid ambient version whose unread input starts
with a 4-byte count that decodes to a negative signed 32-bit value, `load` of a
`std::set<T>` and `load` of a `std::map<K,V>` raise no error: they consume
exactly the 4 count bytes, drop what the target held and return the empty
container. -/
theorem load_set_map_negative_count (ext : Externals) {T K V : Type} [LinearOrder T]
    [LinearOrder K] (S : Serializer T) (SK : Serializer K) (SV : Serializer V) (r : ArenaReader)
    (v0 : List T) (m0 : List (K × V)) (raw rest : List Nat) (hr : r.wf)
    (h : r.input.drop r.begin = raw ++ rest) (hlen : raw.length = 4)
    (hneg : toSigned 32 (fromLE raw) < 0) (hv : ext.isValid r.m_protocolVersion = true) :
    load_set ext S r v0 = .ok ([], { r with begin := r.begin + 4 }) ∧
    load_map ext SK SV r m0 = .ok ([], { r with begin := r.begin + 4 }) := by
  have e1 := binary_load_ok ext int32_t 0 0 r raw rest hr hlen h
  have h0 : (int32_t.ofRaw raw).toNat = 0 := Int.toNat_of_nonpos (le_of_lt hneg)
  have hv1 : ext.isValid
      (ArenaReader.protocolVersion { r with begin := r.begin + 4 }) = true := hv
  constructor
  · simp only [load_set, bind, Except.bind, e1, h0, loadInsertEach, hv1, if_true, pure,
      Except.pure, hlen]
  · simp only [load_map, bind, Except.bind, e1, h0, loadEmplaceEach, hv1, if_true, pure,
      Except.pure, hlen]

/-- Witness of `load_set_map_negative_count`: the count `FF FF FF FF` (the value
-1) in front of two more bytes, loaded over a non-empty set of `uint8_t` and a
non-empty map from `uint8_t` to strings. -/
theorem load_set_map_negative_count_witness :
    load_set exampleExternals (binarySerializer exampleExternals uint8_t 0)
        (exampleReader [255, 255, 255, 255, 1, 2]) [7, 9] =
      .ok ([], { exampleReader [255, 255, 255, 255, 1, 2] with
        begin := (exampleReader [255, 255, 255, 255, 1, 2]).begin + 4 }) ∧
    load_map exampleExternals (binarySerializer exampleExternals uint8_t 0)
        (stringSerializer exampleExternals) (exampleReader [255, 255, 255, 255, 1, 2])
        [(7, [97])] =
      .ok ([], { exampleReader [255, 255, 255, 255, 1, 2] with
        begin := (exampleReader [255, 255, 255, 255, 1, 2]).begin + 4 }) :=
  load_set_map_negative_count exampleExternals (binarySerializer exampleExternals uint8_t 0)
    (binarySerializer exampleExternals uint8_t 0) (stringSerializer exampleExternals)
    (exampleReader [255, 255, 255, 255, 1, 2]) [7, 9] [(7, [97])] [255, 255, 255, 255] [1, 2]
    (Nat.zero_le _) rfl rfl (by decide) (by decide)

/-! ## Sets and maps -/

theorem setInsert_last {T : Type} [LinearOrder T] (x : T) :
    ∀ (acc : List T), (∀ a ∈ acc, a < x) → setInsert acc x = acc ++ [x]
  | [], _ => rfl
  | y :: ys, h => by
    have hy : y < x := h y (List.mem_cons_self _ _)
    have ih := setInsert_last x ys (fun a ha => h a (List.mem_cons_of_mem _ ha))
    simp only [setInsert, not_lt_of_gt hy, if_false, hy, if_true, ih, List.cons_append]

theorem mapEmplace_last {K V : Type} [LinearOrder K] (p : K × V) :
    ∀ (acc : List (K × V)), (∀ a ∈ acc, a.1 < p.1) → mapEmplace acc p = acc ++ [p]
  | [], _ => rfl
  | q :: qs, h => by
    have hq : q.1 < p.1 := h q (List.mem_cons_self _ _)
    have ih := mapEmplace_last p qs (fun a ha => h a (List.mem_cons_of_mem _ ha))
    simp only [mapEmplace, not_lt_of_gt hq, if_false, hq, if_true, ih, List.cons_append]

theorem loadInsertEach_ok {T : Type} [LinearOrder T] (pv : ProtocolVersion) (S : Serializer T)
    (enc : T → List Nat) (D : T → Prop) (hS : RoundTripsOn pv S enc D) (v : List T) :
    ∀ (r : ArenaReader) (cur : T) (acc : List T) (rest : List Nat), (∀ x ∈ v, D x) →
      v.Pairwise (fun a b => a < b) → (∀ a ∈ acc, ∀ x ∈ v, a < x) → r.wf →
      r.m_protocolVersion = pv → r.input.drop r.begin = encEach enc v ++ rest →
      ∃ r1, loadInsertEach S v.length r cur acc = .ok (acc ++ v, r1) ∧
        r.Consumes r1 (encEach enc v).length := by
  induction v with
  | nil =>
    intro r cur acc rest _ _ _ _ _ _
    exact ⟨r, by simp [loadInsertEach], by simpa [encEach] using ArenaReader.Consumes.zero r⟩
  | cons x xs ih =>
    intro r cur acc rest hD hsort hacc hr hrv h
    simp only [encEach, List.append_assoc] at h
    obtain ⟨r1, e1, c1⟩ := hS.2 r x cur _ (hD x (List.mem_cons_self _ _)) hr hrv h
    obtain ⟨hr1, hd1⟩ := ArenaReader.Consumes.wf_after hr h rfl c1
    have hins : setInsert acc x = acc ++ [x] :=
      setInsert_last x acc (fun a ha => hacc a ha x (List.mem_cons_self _ _))
    obtain ⟨hx, hxs⟩ := List.pairwise_cons.mp hsort
    obtain ⟨r2, e2, c2⟩ := ih r1 x (acc ++ [x]) rest
      (fun y hy => hD y (List.mem_cons_of_mem _ hy)) hxs
      (by
        intro a ha y hy
        rcases List.mem_append.mp ha with h1 | h1
        · exact hacc a h1 y (List.mem_cons_of_mem _ hy)
        · rw [List.mem_singleton.mp h1]; exact hx y hy)
      hr1 (by rw [c1.2.2]; exact hrv) hd1
    refine ⟨r2, ?_, ?_⟩
    · simp only [List.length_cons, loadInsertEach, e1, hins, e2, List.append_assoc,
        List.singleton_append]
    · simpa only [encEach, List.length_append] using c1.add c2

theorem save_set_ok (ext : Externals) {T : Type} (pv : ProtocolVersion)
    (hpv : ext.isValid pv = true) (S : Serializer T) (enc : T → List Nat) (D : T → Prop)
    (hS : RoundTripsOn pv S enc D) (v : List T) (hlen : v.length ≤ INT_MAX) (hD : ∀ x ∈ v, D x)
    (w : BinaryWriter) (hw : w.wf) (hwv : w.m_protocolVersion = pv)
    (hroom : w.size + (encVector enc v).length ≤ INT_MAX) :
    ∃ w1, save_set ext S w v = .ok w1 ∧ w.Appends w1 (encVector enc v) :=
  save_vector_ok ext pv hpv S enc D hS v hlen hD w hw hwv hroom

theorem load_set_ok (ext : Externals) {T : Type} [LinearOrder T] (pv : ProtocolVersion)
    (hpv : ext.isValid pv = true) (S : Serializer T) (enc : T → List Nat) (D : T → Prop)
    (hS : RoundTripsOn pv S enc D) (v : List T) (hlen : v.length ≤ INT_MAX) (hD : ∀ x ∈ v, D x)
    (hsort : v.Pairwise (fun a b => a < b))
    (r : ArenaReader) (v0 : List T) (rest : List Nat) (hr : r.wf) (hrv : r.m_protocolVersion = pv)
    (h : r.input.drop r.begin = encVector enc v ++ rest) :
    ∃ r1, load_set ext S r v0 = .ok (v, r1) ∧ r.Consumes r1 (encVector enc v).length := by
  have h1 : r.input.drop r.begin = int32_t.toRaw (toInt32 v.length) ++ (encEach enc v ++ rest) := by
    rw [h, encVector, int32_toRaw_toInt32 _ hlen, List.append_assoc]
  have e1 := binary_load_ok ext int32_t 0 0 r _ _ hr (int32_raw_length _) h1
  rw [int32_ofRaw_toRaw _ hlen] at e1
  have c1 : r.Consumes { r with begin := r.begin + (int32_t.toRaw (toInt32 v.length)).length }
      (int32_t.toRaw (toInt32 v.length)).length := ⟨rfl, rfl, rfl⟩
  obtain ⟨hr1, hd1⟩ := ArenaReader.Consumes.wf_after hr h1 rfl c1
  obtain ⟨r2, e2, c2⟩ := loadInsertEach_ok pv S enc D hS v _ S.init [] rest hD hsort
    (fun a ha => absurd ha (List.not_mem_nil a)) hr1 hrv hd1
  refine ⟨r2, ?_, ?_⟩
  · have hv2 : ext.isValid r2.protocolVersion = true := by
      show ext.isValid r2.m_protocolVersion = true
      rw [c2.2.2]; simpa [hrv] using hpv
    simp only [List.nil_append] at e2
    simp only [load_set, bind, Except.bind, e1, Int.toNat_ofNat, e2, hv2,
      if_true, pure, Except.pure]
  · have := c1.add c2
    rw [int32_toRaw_toInt32 _ hlen] at this
    simpa only [encVector, List.length_append] using this

theorem saveEachEntry_eq {K V : Type} (SK : Serializer K) (SV : Serializer V) :
    ∀ (m : List (K × V)) (w : BinaryWriter),
      saveEachEntry SK SV w m = saveEach (pairSerializer SK SV) w m
  | [], _ => rfl
  | it :: rest, w => by
    have ih := saveEachEntry_eq SK SV rest
    have hp : (pairSerializer SK SV).save w it = (SK.save w it.1 >>= fun w1 => SV.save w1 it.2) :=
      rfl
    simp only [saveEachEntry, saveEach, hp]
    cases h1 : SK.save w it.1 with
    | error e => rfl
    | ok w1 =>
      show (match SV.save w1 it.2 with
        | Except.error e => (Except.error e : Except Error BinaryWriter)
        | Except.ok ar2 => saveEachEntry SK SV ar2 rest) =
        (match SV.save w1 it.2 with
        | Except.error e => (Except.error e : Except Error BinaryWriter)
        | Except.ok ar1 => saveEach (pairSerializer SK SV) ar1 rest)
      cases SV.save w1 it.2 with
      | error e => rfl
      | ok w2 => exact ih w2

theorem save_map_ok (ext : Externals) {K V : Type} (pv : ProtocolVersion)
    (hpv : ext.isValid pv = true) (SK : Serializer K) (SV : Serializer V)
    (encK : K → List Nat) (encV : V → List Nat) (DK : K → Prop) (DV : V → Prop)
    (hK : RoundTripsOn pv SK encK DK) (hV : RoundTripsOn pv SV encV DV) (m : List (K × V))
    (hlen : m.length ≤ INT_MAX) (hD : ∀ p ∈ m, DK p.1 ∧ DV p.2)
    (w : BinaryWriter) (hw : w.wf) (hwv : w.m_protocolVersion = pv)
    (hroom : w.size + (encVector (fun p => encK p.1 ++ encV p.2) m).length ≤ INT_MAX) :
    ∃ w1, save_map ext SK SV w m = .ok w1 ∧
      w.Appends w1 (encVector (fun p => encK p.1 ++ encV p.2) m) := by
  obtain ⟨w1, e, a⟩ := save_vector_ok ext pv hpv (pairSerializer SK SV)
    (fun p => encK p.1 ++ encV p.2) (fun p => DK p.1 ∧ DV p.2)
    (pair_roundTrips pv SK SV encK encV DK DV hK hV) m hlen hD w hw hwv hroom
  refine ⟨w1, ?_, a⟩
  simp only [save_map, saveEachEntry_eq]
  exact e

theorem loadEmplaceEach_ok {K V : Type} [LinearOrder K] (pv : ProtocolVersion)
    (SK : Serializer K) (SV : Serializer V) (encK : K → List Nat) (encV : V → List Nat)
    (DK : K → Prop) (DV : V → Prop) (hK : RoundTripsOn pv SK encK DK)
    (hV : RoundTripsOn pv SV encV DV) (m : List (K × V)) :
    ∀ (r : ArenaReader) (acc : List (K × V)) (rest : List Nat), (∀ p ∈ m, DK p.1 ∧ DV p.2) →
      m.Pairwise (fun a b => a.1 < b.1) → (∀ a ∈ acc, ∀ p ∈ m, a.1 < p.1) → r.wf →
      r.m_protocolVersion = pv →
      r.input.drop r.begin = encEach (fun p => encK p.1 ++ encV p.2) m ++ rest →
      ∃ r1, loadEmplaceEach SK SV m.length r acc = .ok (acc ++ m, r1) ∧
        r.Consumes r1 (encEach (fun p => encK p.1 ++ encV p.2) m).length := by
  induction m with
  | nil =>
    intro r acc rest _ _ _ _ _ _
    exact ⟨r, by simp [loadEmplaceEach], by simpa [encEach] using ArenaReader.Consumes.zero r⟩
  | cons p ps ih =>
    intro r acc rest hD hsort hacc hr hrv h
    simp only [encEach, List.append_assoc] at h
    obtain ⟨hDk, hDv⟩ := hD p (List.mem_cons_self _ _)
    obtain ⟨r1, e1, c1⟩ := hK.2 r p.1 SK.init _ hDk hr hrv h
    obtain ⟨hr1, hd1⟩ := ArenaReader.Consumes.wf_after hr h rfl c1
    obtain ⟨r2, e2, c2⟩ := hV.2 r1 p.2 SV.init _ hDv hr1 (by rw [c1.2.2]; exact hrv) hd1
    obtain ⟨hr2, hd2⟩ := ArenaReader.Consumes.wf_after hr1 hd1 rfl c2
    have hins : mapEmplace acc (p.1, p.2) = acc ++ [p] :=
      mapEmplace_last p acc (fun a ha => hacc a ha p (List.mem_cons_self _ _))
    obtain ⟨hx, hxs⟩ := List.pairwise_cons.mp hsort
    obtain ⟨r3, e3, c3⟩ := ih r2 (acc ++ [p]) rest
      (fun y hy => hD y (List.mem_cons_of_mem _ hy)) hxs
      (by
        intro a ha y hy
        rcases List.mem_append.mp ha with h1 | h1
        · exact hacc a h1 y (List.mem_cons_of_mem _ hy)
        · rw [List.mem_singleton.mp h1]; exact hx y hy)
      hr2 (by rw [c2.2.2, c1.2.2]; exact hrv) hd2
    refine ⟨r3, ?_, ?_⟩
    · simp only [List.length_cons, loadEmplaceEach, e1, e2, hins, e3, List.append_assoc,
        List.singleton_append]
    · have := (c1.add c2).add c3
      simpa only [encEach, List.length_append, Nat.add_assoc] using this

theorem load_map_ok (ext : Externals) {K V : Type} [LinearOrder K] (pv : ProtocolVersion)
    (hpv : ext.isValid pv = true) (SK : Serializer K) (SV : Serializer V)
    (encK : K → List Nat) (encV : V → List Nat) (DK : K → Prop) (DV : V → Prop)
    (hK : RoundTripsOn pv SK encK DK) (hV : RoundTripsOn pv SV encV DV) (m : List (K × V))
    (hlen : m.length ≤ INT_MAX) (hD : ∀ p ∈ m, DK p.1 ∧ DV p.2)
    (hsort : m.Pairwise (fun a b => a.1 < b.1))
    (r : ArenaReader) (m0 : List (K × V)) (rest : List Nat) (hr : r.wf)
    (hrv : r.m_protocolVersion = pv)
    (h : r.input.drop r.begin = encVector (fun p => encK p.1 ++ encV p.2) m ++ rest) :
    ∃ r1, load_map ext SK SV r m0 = .ok (m, r1) ∧
      r.Consumes r1 (encVector (fun p => encK p.1 ++ encV p.2) m).length := by
  have h1 : r.input.drop r.begin = int32_t.toRaw (toInt32 m.length) ++
      (encEach (fun p => encK p.1 ++ encV p.2) m ++ rest) := by
    rw [h, encVector, int32_toRaw_toInt32 _ hlen, List.append_assoc]
  have e1 := binary_load_ok ext int32_t 0 0 r _ _ hr (int32_raw_length _) h1
  rw [int32_ofRaw_toRaw _ hlen] at e1
  have c1 : r.Consumes { r with begin := r.begin + (int32_t.toRaw (toInt32 m.length)).length }
      (int32_t.toRaw (toInt32 m.length)).length := ⟨rfl, rfl, rfl⟩
  obtain ⟨hr1, hd1⟩ := ArenaReader.Consumes.wf_after hr h1 rfl c1
  obtain ⟨r2, e2, c2⟩ := loadEmplaceEach_ok pv SK SV encK encV DK DV hK hV m _ [] rest hD hsort
    (fun a ha => absurd ha (List.not_mem_nil a)) hr1 hrv hd1
  refine ⟨r2, ?_, ?_⟩
  · have hv2 : ext.isValid r2.protocolVersion = true := by
      show ext.isValid r2.m_protocolVersion = true
      rw [c2.2.2]; simpa [hrv] using hpv
    simp only [List.nil_append] at e2
    simp only [load_map, bind, Except.bind, e1, Int.toNat_ofNat, e2, hv2,
      if_true, pure, Except.pure]
  · have := c1.add c2
    rw [int32_toRaw_toInt32 _ hlen] at this
    simpa only [encVector, List.length_append] using this

theorem reader_empty_after {r r1 : ArenaReader} {bs : List Nat} (hr : r.wf)
    (h : r.input.drop r.begin = bs) (c : r.Consumes r1 bs.length) : r1.empty = true := by
  have hl := congrArg List.length h
  simp only [List.length_drop] at hl
  have hb : r.begin ≤ r.input.length := hr
  simp only [ArenaReader.empty, ArenaReader.end_, beq_iff_eq, c.1, c.2.1]
  omega

theorem save_set_string_overflow (ext : Externals) (w : BinaryWriter) (s : List Nat) (hw : w.wf)
    (hlen : s.length ≤ INT_MAX) (h8 : w.size + 8 ≤ INT_MAX)
    (hover : INT_MAX < w.size + 8 + s.length) :
    save_set ext (stringSerializer ext) w [s] = .error .undefined_behavior := by
  obtain ⟨w1, e1, a1⟩ := BinaryWriter.serializeBinaryItem_ok ext w (leBytes 4 1) hw
    (by rw [leBytes_length]; omega)
  have hs1 := a1.size_eq hw
  rw [leBytes_length] at hs1
  have e1' : (binarySerializer ext int32_t 0).save w (toInt32 [s].length) = .ok w1 := by
    show w.serializeBinaryItem ext (int32_t.toRaw (toInt32 1)) = .ok w1
    rw [int32_toRaw_toInt32 1 (by decide)]; exact e1
  have e2 : (stringSerializer ext).save w1 s = .error .undefined_behavior :=
    save_string_overflow ext w1 s a1.1 hlen (by omega) (by omega)
  simp only [save_set, bind, Except.bind, e1', saveEach, e2]

/-! ## C24: sets and maps round-trip -/

/-- C24 (as amended): for every `std::set<T>` value `c` and `std::map<K,V>` value
`m` (held as their entries in ascending key order) with at most 2,147,483,647
entries whose element, key and value types round-trip, on a well-formed
`BinaryWriter` at a valid version in which the encoding fits below `INT_MAX`,
`save` succeeds and appends the 4-byte count followed by the elements (for the
map each key followed by its value) in ascending key order, and `load` on an
`ArenaReader` at the same version standing over exactly the appended bytes
returns a container equal to the saved one and leaves the reader empty. -/
theorem set_map_save_load (ext : Externals) {T K V : Type} [LinearOrder T] [LinearOrder K]
    (pv : ProtocolVersion) (hpv : ext.isValid pv = true)
    (S : Serializer T) (enc : T → List Nat) (D : T → Prop) (hS : RoundTripsOn pv S enc D)
    (SK : Serializer K) (SV : Serializer V) (encK : K → List Nat) (encV : V → List Nat)
    (DK : K → Prop) (DV : V → Prop) (hK : RoundTripsOn pv SK encK DK)
    (hV : RoundTripsOn pv SV encV DV)
    (c : List T) (hc : c.Pairwise (fun a b => a < b)) (hclen : c.length ≤ 2147483647)
    (hcD : ∀ x ∈ c, D x)
    (m : List (K × V)) (hm : m.Pairwise (fun a b => a.1 < b.1)) (hmlen : m.length ≤ 2147483647)
    (hmD : ∀ p ∈ m, DK p.1 ∧ DV p.2)
    (w : BinaryWriter) (hw : w.wf) (hwv : w.m_protocolVersion = pv)
    (hroomc : w.size + (encVector enc c).length ≤ 2147483647)
    (hroomm : w.size + (encVector (fun p => encK p.1 ++ encV p.2) m).length ≤ 2147483647) :
    (∃ w1, save_set ext S w c = .ok w1 ∧
      BinaryWriter.appended w w1 = leBytes 4 c.length ++ encEach enc c ∧
      ∀ (r : ArenaReader) (c0 : List T), r.wf → r.m_protocolVersion = pv →
        r.input.drop r.begin = BinaryWriter.appended w w1 →
        ∃ r1, load_set ext S r c0 = .ok (c, r1) ∧ r1.empty = true) ∧
    (∃ w1, save_map ext SK SV w m = .ok w1 ∧
      BinaryWriter.appended w w1 =
        leBytes 4 m.length ++ encEach (fun p => encK p.1 ++ encV p.2) m ∧
      ∀ (r : ArenaReader) (m0 : List (K × V)), r.wf → r.m_protocolVersion = pv →
        r.input.drop r.begin = BinaryWriter.appended w w1 →
        ∃ r1, load_map ext SK SV r m0 = .ok (m, r1) ∧ r1.empty = true) := by
  constructor
  · obtain ⟨w1, e1, a1⟩ := save_set_ok ext pv hpv S enc D hS c hclen hcD w hw hwv hroomc
    have ha := BinaryWriter.appended_eq hw a1
    refine ⟨w1, e1, ha, ?_⟩
    intro r c0 hr hrv h
    rw [ha] at h
    have h' : r.input.drop r.begin = encVector enc c ++ [] := by rw [h, List.append_nil]
    obtain ⟨r1, e2, c2⟩ := load_set_ok ext pv hpv S enc D hS c hclen hcD hc r c0 [] hr hrv h'
    exact ⟨r1, e2, reader_empty_after hr h c2⟩
  · obtain ⟨w1, e1, a1⟩ := save_map_ok ext pv hpv SK SV encK encV DK DV hK hV m hmlen hmD w hw hwv
      hroomm
    have ha := BinaryWriter.appended_eq hw a1
    refine ⟨w1, e1, ha, ?_⟩
    intro r m0 hr hrv h
    rw [ha] at h
    have h' : r.input.drop r.begin = encVector (fun p => encK p.1 ++ encV p.2) m ++ [] := by
      rw [h, List.append_nil]
    obtain ⟨r1, e2, c2⟩ := load_map_ok ext pv hpv SK SV encK encV DK DV hK hV m hmlen hmD hm r m0
      [] hr hrv h'
    exact ⟨r1, e2, reader_empty_after hr h c2⟩

/-- Witness of `set_map_save_load`: the set `{1, 5, 9}` of `uint8_t` and the map
`{2 -> "hi", 7 -> ""}` from `uint8_t` to strings, saved into the example
writer. -/
theorem set_map_save_load_witness :
    (∃ w1, save_set exampleExternals (binarySerializer exampleExternals uint8_t 0) exampleWriter
        ([1, 5, 9] : List (Fin 256)) = .ok w1 ∧
      BinaryWriter.appended exampleWriter w1 =
        leBytes 4 ([1, 5, 9] : List (Fin 256)).length ++ encEach uint8_t.toRaw [1, 5, 9] ∧
      ∀ (r : ArenaReader) (c0 : List (Fin 256)), r.wf →
        r.m_protocolVersion = exampleExternals.currentProtocolVersion →
        r.input.drop r.begin = BinaryWriter.appended exampleWriter w1 →
        ∃ r1, load_set exampleExternals (binarySerializer exampleExternals uint8_t 0) r c0 =
          .ok ([1, 5, 9], r1) ∧ r1.empty = true) ∧
    (∃ w1, save_map exampleExternals (binarySerializer exampleExternals uint8_t 0)
        (stringSerializer exampleExternals) exampleWriter
        ([(2, [104, 105]), (7, [])] : List (Fin 256 × List Nat)) = .ok w1 ∧
      BinaryWriter.appended exampleWriter w1 =
        leBytes 4 ([(2, [104, 105]), (7, [])] : List (Fin 256 × List Nat)).length ++
          encEach (fun p => uint8_t.toRaw p.1 ++ encString p.2) [(2, [104, 105]), (7, [])] ∧
      ∀ (r : ArenaReader) (m0 : List (Fin 256 × List Nat)), r.wf →
        r.m_protocolVersion = exampleExternals.currentProtocolVersion →
        r.input.drop r.begin = BinaryWriter.appended exampleWriter w1 →
        ∃ r1, load_map exampleExternals (binarySerializer exampleExternals uint8_t 0)
            (stringSerializer exampleExternals) r m0 =
          .ok ([(2, [104, 105]), (7, [])], r1) ∧ r1.empty = true) :=
  set_map_save_load exampleExternals exampleExternals.currentProtocolVersion (by decide)
    (binarySerializer exampleExternals uint8_t 0) uint8_t.toRaw (fun _ => True)
    (uint8_roundTrips _ _)
    (binarySerializer exampleExternals uint8_t 0) (stringSerializer exampleExternals)
    uint8_t.toRaw encString (fun _ => True) (fun s => s.length ≤ INT_MAX)
    (uint8_roundTrips _ _) (string_roundTrips exampleExternals _ (by decide))
    [1, 5, 9] (by decide) (by decide) (fun _ _ => trivial)
    [(2, [104, 105]), (7, [])] (by decide) (by decide)
    (by intro p hp; simp at hp; rcases hp with h | h <;> subst h <;> exact ⟨trivial, by decide⟩)
    exampleWriter exampleWriter_wf rfl (by decide) (by decide)

/-- C24 as stated fails: strings round-trip, yet saving the one-element
`std::set<std::string>` whose element has 2,147,483,640 bytes into a fresh
`BinaryWriter` at the valid current version overflows the writer's `int size`
(4 + 4 + 2,147,483,640 exceeds `INT_MAX`) instead of producing bytes to load. -/
theorem set_map_save_load_counterexample :
    RoundTripsOn exampleExternals.currentProtocolVersion (stringSerializer exampleExternals)
        encString (fun s => s.length ≤ INT_MAX) ∧
      exampleExternals.isValid exampleExternals.currentProtocolVersion = true ∧
      [List.replicate 2147483640 0].length ≤ 2147483647 ∧
      BinaryWriter.new exampleExternals (AssumeVersion exampleExternals.currentProtocolVersion) =
        .ok exampleWriter ∧
      save_set exampleExternals (stringSerializer exampleExternals) exampleWriter
        [List.replicate 2147483640 0] = .error .undefined_behavior := by
  refine ⟨string_roundTrips _ _ (by decide), by decide, ?_, rfl, ?_⟩
  · rw [List.length_singleton]; decide
  · apply save_set_string_overflow _ _ _ exampleWriter_wf
    · rw [List.length_replicate]; decide
    · decide
    · rw [List.length_replicate]; decide

/-! ## C22: no-version encode, assumed-version decode -/

theorem save_string_invalid (ext : Externals) (w : BinaryWriter) (s : List Nat) (hw : w.wf)
    (hv : ext.isValid w.m_protocolVersion = false) (hroom : w.size + 4 + s.length ≤ INT_MAX) :
    save_string ext w s = .error .internal_error := by
  have hlen : s.length ≤ INT_MAX := by omega
  obtain ⟨w1, e1, a1⟩ := BinaryWriter.serializeBinaryItem_ok ext w (leBytes 4 s.length) hw
    (by rw [leBytes_length]; omega)
  have hs1 := a1.size_eq hw
  rw [leBytes_length] at hs1
  obtain ⟨w2, e2, a2⟩ := BinaryWriter.serializeBytesRef_ok ext w1 s a1.1 (by omega)
  have hv2 : ext.isValid w2.protocolVersion = false := by
    show ext.isValid w2.m_protocolVersion = false
    rw [a2.2.2, a1.2.2]; exact hv
  have e1' : (binarySerializer ext int32_t 0).save w (toInt32 s.length) = .ok w1 := by
    show w.serializeBinaryItem ext (int32_t.toRaw (toInt32 s.length)) = .ok w1
    rw [int32_toRaw_toInt32 _ hlen]; exact e1
  have e2' : w1.serializeBytes ext s (toInt32 s.length) = .ok w2 := by
    rw [toInt32_of_le _ hlen]; exact e2
  simp only [save_string, bind, Except.bind, e1', e2', hv2, Bool.false_eq_true, if_false, throw,
    throwThe, MonadExceptOf.throw]

theorem fresh_unversioned (ext : Externals) :
    ∃ w0, BinaryWriter.new ext Unversioned = .ok w0 ∧ w0.wf ∧ w0.size = 0 ∧ w0.toValue = [] ∧
      w0.m_protocolVersion = ext.defaultProtocolVersion :=
  ⟨_, rfl, ⟨Nat.le_refl 0, rfl⟩, rfl, rfl, rfl⟩

theorem fresh_assumeVersion (ext : Externals) (input : List Nat) (v : ProtocolVersion) :
    ∃ r0, ArenaReader.new ext input (AssumeVersion v) = .ok r0 ∧ r0.wf ∧ r0.begin = 0 ∧
      r0.input = input ∧ r0.m_protocolVersion = v :=
  ⟨_, rfl, Nat.zero_le _, rfl, rfl, rfl⟩

/-- C22 (as amended): for every valid version `v`, a binary-serializable scalar
`x` encoded through a `BinaryWriter` constructed `Unversioned` yields exactly
its raw bytes (no version bytes), and a reader constructed over them with
`AssumeVersion(v)` returns `x`, has consumed exactly those bytes and has ambient
version `v`; for a string `s` with `4 + length(s)` at most 2,147,483,647 the
decode side behaves the same on the encoding of `s`, but the encode through the
`Unversioned` writer, whose ambient version stays the default-constructed one,
yields that encoding when the default-constructed version is valid and fails
the validity assertion when it is not. -/
theorem unversioned_then_assumeVersion (ext : Externals) (v : ProtocolVersion)
    (hv : ext.isValid v = true) :
    (∀ (T : Type) (B : BinarySerializable T) (i x : T),
      (B.toRaw x).length = B.sizeOf → B.ofRaw (B.toRaw x) = x → B.sizeOf ≤ 2147483647 →
      BinaryWriter.toValueOf ext (binarySerializer ext B i) x Unversioned = .ok (B.toRaw x) ∧
      ∃ r1, ArenaReader.readValue ext (binarySerializer ext B i) (B.toRaw x) (AssumeVersion v) =
          .ok (x, r1) ∧ r1.empty = true ∧ r1.protocolVersion = v) ∧
    (∀ s : List Nat, 4 + s.length ≤ 2147483647 →
      (ext.isValid ext.defaultProtocolVersion = true →
        BinaryWriter.toValueOf ext (stringSerializer ext) s Unversioned = .ok (encString s)) ∧
      (ext.isValid ext.defaultProtocolVersion = false →
        BinaryWriter.toValueOf ext (stringSerializer ext) s Unversioned =
          .error .internal_error) ∧
      ∃ r1, ArenaReader.readValue ext (stringSerializer ext) (encString s) (AssumeVersion v) =
          .ok (s, r1) ∧ r1.empty = true ∧ r1.protocolVersion = v) := by
  obtain ⟨w0, ew, hw0, hs0, ht0, hv0⟩ := fresh_unversioned ext
  constructor
  · intro T B i x hlen hraw hsz
    constructor
    · obtain ⟨w1, e1, a1⟩ := BinaryWriter.serializeBinaryItem_ok ext w0 (B.toRaw x) hw0
        (by rw [hs0, hlen]; unfold INT_MAX; omega)
      have e1' : (binarySerializer ext B i).save w0 x = .ok w1 := e1
      simp only [BinaryWriter.toValueOf, bind, Except.bind, ew, e1', pure, Except.pure, a1.2.1,
        ht0, List.nil_append]
    · obtain ⟨r0, er, hr0, hb0, hi0, hrv0⟩ := fresh_assumeVersion ext (B.toRaw x) v
      have hd : r0.input.drop r0.begin = B.toRaw x ++ [] := by
        rw [hb0, hi0, List.drop_zero, List.append_nil]
      have e2 := binary_load_ok ext B i (binarySerializer ext B i).init r0 (B.toRaw x) [] hr0 hlen hd
      rw [hraw] at e2
      refine ⟨{ r0 with begin := r0.begin + (B.toRaw x).length }, ?_, ?_, hrv0⟩
      · simp only [ArenaReader.readValue, bind, Except.bind, er, e2]
      · simp [ArenaReader.empty, ArenaReader.end_, hb0, hi0]
  · intro s hs
    refine ⟨?_, ?_, ?_⟩
    · intro hd
      obtain ⟨w1, e1, a1⟩ := save_string_ok ext w0 s hw0 (by rw [hv0]; exact hd)
        (by rw [hs0]; unfold INT_MAX; omega)
      have e1' : (stringSerializer ext).save w0 s = .ok w1 := e1
      simp only [BinaryWriter.toValueOf, bind, Except.bind, ew, e1', pure, Except.pure, a1.2.1,
        ht0, List.nil_append]
    · intro hd
      have e1 := save_string_invalid ext w0 s hw0 (by rw [hv0]; exact hd)
        (by rw [hs0]; unfold INT_MAX; omega)
      have e1' : (stringSerializer ext).save w0 s = .error .internal_error := e1
      simp only [BinaryWriter.toValueOf, bind, Except.bind, ew, e1']
    · obtain ⟨r0, er, hr0, hb0, hi0, hrv0⟩ := fresh_assumeVersion ext (encString s) v
      have hd : r0.input.drop r0.begin = encString s ++ [] := by
        rw [hb0, hi0, List.drop_zero, List.append_nil]
      have e2 := load_string_ok ext r0 s (stringSerializer ext).init [] (by unfold INT_MAX; omega)
        hr0 (by rw [hrv0]; exact hv) hd
      have e2' : (stringSerializer ext).load r0 (stringSerializer ext).init =
          .ok (s, { r0 with begin := r0.begin + (4 + s.length) }) := e2
      refine ⟨{ r0 with begin := r0.begin + (4 + s.length) }, ?_, ?_, hrv0⟩
      · simp only [ArenaReader.readValue, bind, Except.bind, er, e2']
      · simp [ArenaReader.empty, ArenaReader.end_, hb0, hi0, encString, leBytes_length]

/-- Witness of `unversioned_then_assumeVersion`: the current version of
`exampleExternals`. -/
theorem unversioned_then_assumeVersion_witness :
    (∀ (T : Type) (B : BinarySerializable T) (i x : T),
      (B.toRaw x).length = B.sizeOf → B.ofRaw (B.toRaw x) = x → B.sizeOf ≤ 2147483647 →
      BinaryWriter.toValueOf exampleExternals (binarySerializer exampleExternals B i) x
          Unversioned = .ok (B.toRaw x) ∧
      ∃ r1, ArenaReader.readValue exampleExternals (binarySerializer exampleExternals B i)
          (B.toRaw x) (AssumeVersion exampleExternals.currentProtocolVersion) = .ok (x, r1) ∧
        r1.empty = true ∧ r1.protocolVersion = exampleExternals.currentProtocolVersion) ∧
    (∀ s : List Nat, 4 + s.length ≤ 2147483647 →
      (exampleExternals.isValid exampleExternals.defaultProtocolVersion = true →
        BinaryWriter.toValueOf exampleExternals (stringSerializer exampleExternals) s
          Unversioned = .ok (encString s)) ∧
      (exampleExternals.isValid exampleExternals.defaultProtocolVersion = false →
        BinaryWriter.toValueOf exampleExternals (stringSerializer exampleExternals) s
          Unversioned = .error .internal_error) ∧
      ∃ r1, ArenaReader.readValue exampleExternals (stringSerializer exampleExternals)
          (encString s) (AssumeVersion exampleExternals.currentProtocolVersion) = .ok (s, r1) ∧
        r1.empty = true ∧ r1.protocolVersion = exampleExternals.currentProtocolVersion) :=
  unversioned_then_assumeVersion exampleExternals exampleExternals.currentProtocolVersion
    (by decide)

/-- C22 as stated fails: with the default-constructed protocol version 0, which
is not valid, the string `ab` encoded through a `BinaryWriter` constructed
`Unversioned` fails the validity assertion of `save`, although the version
assumed for the decode is valid; the `uint32_t` 300 goes through. -/
theorem unversioned_then_assumeVersion_counterexample :
    exampleExternals.isValid exampleExternals.currentProtocolVersion = true ∧
      exampleExternals.isValid exampleExternals.defaultProtocolVersion = false ∧
      BinaryWriter.toValueOf exampleExternals (stringSerializer exampleExternals) [97, 98]
        Unversioned = .error .internal_error ∧
      BinaryWriter.toValueOf exampleExternals (binarySerializer exampleExternals uint32_t 0) 300
        Unversioned = .ok [44, 1, 0, 0] := by
  exact ⟨by decide, by decide, rfl, rfl⟩

/-! ## The validity assertion -/

theorem check_ok_inv {α : Type} (c : Bool) (x y : α)
    (h : (if c = true then pure x else throw Error.internal_error : Except Error α) = .ok y) :
    c = true ∧ x = y := by
  cases c with
  | false => simp [throw, throwThe, MonadExceptOf.throw] at h
  | true =>
    simp only [if_true, pure, Except.pure, Except.ok.injEq] at h
    exact ⟨rfl, h⟩

theorem BinaryWriter.writeBytes_version (ext : Externals) (w w1 : BinaryWriter) (s p : Nat)
    (h : BinaryWriter.writeBytes ext w s = .ok (w1, p)) :
    w1.m_protocolVersion = w.m_protocolVersion := by
  unfold BinaryWriter.writeBytes at h
  by_cases hover : INT_MAX < w.size + s
  · simp [hover] at h
  · simp only [hover, if_false] at h
    by_cases hg : w.size + s > w.allocated
    · simp only [hg, if_true, Except.ok.injEq, Prod.mk.injEq] at h
      rw [← h.1]
    · simp only [hg, if_false, Except.ok.injEq, Prod.mk.injEq] at h
      rw [← h.1]

theorem BinaryWriter.serializeBinaryItem_version (ext : Externals) (w w1 : BinaryWriter)
    (raw : List Nat) (h : w.serializeBinaryItem ext raw = .ok w1) :
    w1.m_protocolVersion = w.m_protocolVersion := by
  unfold BinaryWriter.serializeBinaryItem at h
  cases hw : BinaryWriter.writeBytes ext w raw.length with
  | error e => simp [hw] at h
  | ok x =>
    obtain ⟨w2, p⟩ := x
    simp only [hw, Except.ok.injEq] at h
    rw [← h]
    exact BinaryWriter.writeBytes_version ext w w2 _ p hw

theorem BinaryWriter.serializeBytes_version (ext : Externals) (w w1 : BinaryWriter)
    (data : List Nat) (bytes : Int) (h : w.serializeBytes ext data bytes = .ok w1) :
    w1.m_protocolVersion = w.m_protocolVersion := by
  unfold BinaryWriter.serializeBytes at h
  by_cases hb : bytes < 0 ∨ (data.length : Int) < bytes
  · simp [hb] at h
  · simp only [hb, if_false] at h
    cases hw : BinaryWriter.writeBytes ext w bytes.toNat with
    | error e => simp [hw] at h
    | ok x =>
      obtain ⟨w2, p⟩ := x
      simp only [hw, Except.ok.injEq] at h
      rw [← h]
      exact BinaryWriter.writeBytes_version ext w w2 _ p hw

theorem ArenaReader.readBytes_version (r r1 : ArenaReader) (n : Nat) (bs : List Nat)
    (h : r.readBytes n = .ok (bs, r1)) : r1.m_protocolVersion = r.m_protocolVersion := by
  unfold ArenaReader.readBytes at h
  by_cases hle : r.begin + n ≤ r.end_
  · simp only [hle, if_true, Except.ok.injEq, Prod.mk.injEq] at h
    rw [← h.2]
  · simp [hle] at h

theorem binary_keepsVersion (ext : Externals) {T : Type} (B : BinarySerializable T) (i : T) :
    KeepsVersion (binarySerializer ext B i) := by
  constructor
  · intro w x w1 h
    exact BinaryWriter.serializeBinaryItem_version ext w w1 _ h
  · intro r x0 x r1 h
    simp only [binarySerializer] at h
    cases hr : r.serializeBinaryItem B.sizeOf with
    | error e => simp [hr] at h
    | ok y =>
      obtain ⟨raw, r2⟩ := y
      simp only [hr, Except.ok.injEq, Prod.mk.injEq] at h
      rw [← h.2]
      exact ArenaReader.readBytes_version r r2 _ raw hr

theorem save_string_inv (ext : Externals) (w w1 : BinaryWriter) (s : List Nat)
    (h : save_string ext w s = .ok w1) :
    ext.isValid w1.protocolVersion = true ∧ w1.m_protocolVersion = w.m_protocolVersion := by
  simp only [save_string, bind, Except.bind] at h
  cases h1 : (binarySerializer ext int32_t 0).save w (toInt32 s.length) with
  | error e => simp [h1] at h
  | ok wa =>
    simp only [h1] at h
    cases h2 : wa.serializeBytes ext s (toInt32 s.length) with
    | error e => simp [h2] at h
    | ok wb =>
      simp only [h2] at h
      obtain ⟨hc, he⟩ := check_ok_inv _ _ _ h
      subst he
      refine ⟨hc, ?_⟩
      rw [BinaryWriter.serializeBytes_version ext wa wb _ _ h2]
      exact (binary_keepsVersion ext int32_t 0).1 w _ wa h1

theorem load_string_inv (ext : Externals) (r r1 : ArenaReader) (s0 s : List Nat)
    (h : load_string ext r s0 = .ok (s, r1)) :
    ext.isValid r1.protocolVersion = true ∧ r1.m_protocolVersion = r.m_protocolVersion := by
  simp only [load_string, bind, Except.bind] at h
  cases h1 : (binarySerializer ext int32_t 0).load r 0 with
  | error e => simp [h1] at h
  | ok y =>
    obtain ⟨n, ra⟩ := y
    simp only [h1] at h
    by_cases hneg : n < 0
    · simp [hneg, throw, throwThe, MonadExceptOf.throw] at h
    · simp only [hneg, if_false, pure, Except.pure] at h
      cases h2 : ra.serializeBytes n.toNat with
      | error e => simp [h2] at h
      | ok z =>
        obtain ⟨bs, rb⟩ := z
        simp only [h2] at h
        obtain ⟨hc, he⟩ := check_ok_inv _ _ _ h
        simp only [Prod.mk.injEq] at he
        obtain ⟨_, he⟩ := he
        subst he
        refine ⟨hc, ?_⟩
        rw [ArenaReader.readBytes_version ra rb _ bs h2]
        exact (binary_keepsVersion ext int32_t 0).2 r 0 n ra h1

theorem string_keepsVersion (ext : Externals) : KeepsVersion (stringSerializer ext) :=
  ⟨fun w x w1 h => (save_string_inv ext w w1 x h).2,
    fun r x0 x r1 h => (load_string_inv ext r r1 x0 x h).2⟩

theorem saveEach_version {T : Type} (S : Serializer T) (hS : KeepsVersion S) :
    ∀ (v : List T) (w w1 : BinaryWriter), saveEach S w v = .ok w1 →
      w1.m_protocolVersion = w.m_protocolVersion
  | [], w, w1, h => by
    simp only [saveEach, Except.ok.injEq] at h
    rw [h]
  | x :: xs, w, w1, h => by
    simp only [saveEach] at h
    cases h1 : S.save w x with
    | error e => simp [h1] at h
    | ok wa =>
      simp only [h1] at h
      rw [saveEach_version S hS xs wa w1 h, hS.1 w x wa h1]

theorem loadEach_version {T : Type} (S : Serializer T) (hS : KeepsVersion S) :
    ∀ (n : Nat) (r r1 : ArenaReader) (acc v : List T), loadEach S n r acc = .ok (v, r1) →
      r1.m_protocolVersion = r.m_protocolVersion
  | 0, r, r1, acc, v, h => by
    simp only [loadEach, Except.ok.injEq, Prod.mk.injEq] at h
    rw [h.2]
  | n + 1, r, r1, acc, v, h => by
    simp only [loadEach] at h
    cases h1 : S.load r S.init with
    | error e => simp [h1] at h
    | ok y =>
      obtain ⟨x, ra⟩ := y
      simp only [h1] at h
      rw [loadEach_version S hS n ra r1 _ v h, hS.2 r _ x ra h1]

theorem loadOver_version {T : Type} (S : Serializer T) (hS : KeepsVersion S) :
    ∀ (v0 : List T) (r r1 : ArenaReader) (v : List T), loadOver S r v0 = .ok (v, r1) →
      r1.m_protocolVersion = r.m_protocolVersion
  | [], r, r1, v, h => by
    simp only [loadOver, Except.ok.injEq, Prod.mk.injEq] at h
    rw [h.2]
  | x0 :: rest, r, r1, v, h => by
    simp only [loadOver] at h
    cases h1 : S.load r x0 with
    | error e => simp [h1] at h
    | ok y =>
      obtain ⟨x, ra⟩ := y
      simp only [h1] at h
      cases h2 : loadOver S ra rest with
      | error e => simp [h2] at h
      | ok z =>
        obtain ⟨xs, rb⟩ := z
        simp only [h2, Except.ok.injEq, Prod.mk.injEq] at h
        rw [← h.2, loadOver_version S hS rest ra rb xs h2, hS.2 r _ x ra h1]

theorem loadInsertEach_version {T : Type} [LinearOrder T] (S : Serializer T)
    (hS : KeepsVersion S) :
    ∀ (n : Nat) (r r1 : ArenaReader) (cur : T) (acc v : List T),
      loadInsertEach S n r cur acc = .ok (v, r1) → r1.m_protocolVersion = r.m_protocolVersion
  | 0, r, r1, cur, acc, v, h => by
    simp only [loadInsertEach, Except.ok.injEq, Prod.mk.injEq] at h
    rw [h.2]
  | n + 1, r, r1, cur, acc, v, h => by
    simp only [loadInsertEach] at h
    cases h1 : S.load r cur with
    | error e => simp [h1] at h
    | ok y =>
      obtain ⟨x, ra⟩ := y
      simp only [h1] at h
      rw [loadInsertEach_version S hS n ra r1 _ _ v h, hS.2 r _ x ra h1]

theorem saveEachEntry_version {K V : Type} (SK : Serializer K) (SV : Serializer V)
    (hK : KeepsVersion SK) (hV : KeepsVersion SV) :
    ∀ (m : List (K × V)) (w w1 : BinaryWriter), saveEachEntry SK SV w m = .ok w1 →
      w1.m_protocolVersion = w.m_protocolVersion
  | [], w, w1, h => by
    simp only [saveEachEntry, Except.ok.injEq] at h
    rw [h]
  | it :: rest, w, w1, h => by
    simp only [saveEachEntry] at h
    cases h1 : SK.save w it.1 with
    | error e => simp [h1] at h
    | ok wa =>
      simp only [h1] at h
      cases h2 : SV.save wa it.2 with
      | error e => simp [h2] at h
      | ok wb =>
        simp only [h2] at h
        rw [saveEachEntry_version SK SV hK hV rest wb w1 h, hV.1 wa _ wb h2, hK.1 w _ wa h1]

theorem loadEmplaceEach_version {K V : Type} [LinearOrder K] (SK : Serializer K)
    (SV : Serializer V) (hK : KeepsVersion SK) (hV : KeepsVersion SV) :
    ∀ (n : Nat) (r r1 : ArenaReader) (acc m : List (K × V)),
      loadEmplaceEach SK SV n r acc = .ok (m, r1) → r1.m_protocolVersion = r.m_protocolVersion
  | 0, r, r1, acc, m, h => by
    simp only [loadEmplaceEach, Except.ok.injEq, Prod.mk.injEq] at h
    rw [h.2]
  | n + 1, r, r1, acc, m, h => by
    simp only [loadEmplaceEach] at h
    cases h1 : SK.load r SK.init with
    | error e => simp [h1] at h
    | ok y =>
      obtain ⟨k, ra⟩ := y
      simp only [h1] at h
      cases h2 : SV.load ra SV.init with
      | error e => simp [h2] at h
      | ok z =>
        obtain ⟨v, rb⟩ := z
        simp only [h2] at h
        rw [loadEmplaceEach_version SK SV hK hV n rb r1 _ m h, hV.2 ra _ v rb h2,
          hK.2 r _ k ra h1]

/-- A counted container `save` (vector, set, map) that completes has passed the
validity assertion, and has kept the ambient version when its element loop
does. -/
theorem counted_save_inv (ext : Externals) (n : Nat) (w w1 : BinaryWriter)
    (loop : BinaryWriter → Except Error BinaryWriter)
    (h : (do
      let ar1 ← (binarySerializer ext int32_t 0).save w (toInt32 n)
      let ar2 ← loop ar1
      if ext.isValid ar2.protocolVersion then pure ar2 else throw Error.internal_error) = .ok w1) :
    ext.isValid w1.protocolVersion = true ∧
      ((∀ a b, loop a = .ok b → b.m_protocolVersion = a.m_protocolVersion) →
        w1.m_protocolVersion = w.m_protocolVersion) := by
  simp only [bind, Except.bind] at h
  cases h1 : (binarySerializer ext int32_t 0).save w (toInt32 n) with
  | error e => simp [h1] at h
  | ok wa =>
    simp only [h1] at h
    cases h2 : loop wa with
    | error e => simp [h2] at h
    | ok wb =>
      simp only [h2] at h
      obtain ⟨hc, he⟩ := check_ok_inv _ _ _ h
      subst he
      refine ⟨hc, fun hl => ?_⟩
      rw [hl wa wb h2]
      exact (binary_keepsVersion ext int32_t 0).1 w _ wa h1

/-- A counted container `load` without `reserve` (set, map) that completes has
passed the validity assertion, and has kept the ambient version when its
element loop does. -/
theorem counted_load_inv (ext : Externals) {C : Type} (r r1 : ArenaReader) (c : C)
    (loop : Nat → ArenaReader → Except Error (C × ArenaReader))
    (h : (do
      let (s, ar1) ← (binarySerializer ext int32_t 0).load r 0
      let (value, ar2) ← loop s.toNat ar1
      if ext.isValid ar2.protocolVersion then pure (value, ar2)
      else throw Error.internal_error) = .ok (c, r1)) :
    ext.isValid r1.protocolVersion = true ∧
      ((∀ n a b x, loop n a = .ok (x, b) → b.m_protocolVersion = a.m_protocolVersion) →
        r1.m_protocolVersion = r.m_protocolVersion) := by
  simp only [bind, Except.bind] at h
  cases h1 : (binarySerializer ext int32_t 0).load r 0 with
  | error e => simp [h1] at h
  | ok y =>
    obtain ⟨n, ra⟩ := y
    simp only [h1] at h
    cases h2 : loop n.toNat ra with
    | error e => simp [h2] at h
    | ok z =>
      obtain ⟨x, rb⟩ := z
      simp only [h2] at h
      obtain ⟨hc, he⟩ := check_ok_inv _ _ _ h
      simp only [Prod.mk.injEq] at he
      obtain ⟨_, he⟩ := he
      subst he
      refine ⟨hc, fun hl => ?_⟩
      rw [hl _ ra rb x h2]
      exact (binary_keepsVersion ext int32_t 0).2 r 0 n ra h1

theorem load_vector_inv (ext : Externals) {T : Type} (S : Serializer T) (r r1 : ArenaReader)
    (v0 v : List T) (h : load_vector ext S r v0 = .ok (v, r1)) :
    ext.isValid r1.protocolVersion = true ∧
      (KeepsVersion S → r1.m_protocolVersion = r.m_protocolVersion) := by
  simp only [load_vector, bind, Except.bind] at h
  cases h1 : (binarySerializer ext int32_t 0).load r 0 with
  | error e => simp [h1] at h
  | ok y =>
    obtain ⟨n, ra⟩ := y
    simp only [h1] at h
    by_cases hneg : n < 0
    · simp [hneg, throw, throwThe, MonadExceptOf.throw] at h
    · simp only [hneg, if_false, pure, Except.pure] at h
      cases h2 : loadEach S n.toNat ra [] with
      | error e => simp [h2] at h
      | ok z =>
        obtain ⟨x, rb⟩ := z
        simp only [h2] at h
        obtain ⟨hc, he⟩ := check_ok_inv _ _ _ h
        simp only [Prod.mk.injEq] at he
        obtain ⟨_, he⟩ := he
        subst he
        refine ⟨hc, fun hS => ?_⟩
        rw [loadEach_version S hS _ ra rb _ x h2]
        exact (binary_keepsVersion ext int32_t 0).2 r 0 n ra h1

theorem checked_save_inv (ext : Externals) (w w1 : BinaryWriter)
    (body : BinaryWriter → Except Error BinaryWriter)
    (h : (do
      let ar1 ← body w
      if ext.isValid ar1.protocolVersion then pure ar1 else throw Error.internal_error) = .ok w1) :
    ext.isValid w1.protocolVersion = true ∧ body w = .ok w1 := by
  simp only [bind, Except.bind] at h
  cases h1 : body w with
  | error e => simp [h1] at h
  | ok wa =>
    simp only [h1] at h
    obtain ⟨hc, he⟩ := check_ok_inv _ _ _ h
    subst he
    exact ⟨hc, rfl⟩

theorem checked_load_inv (ext : Externals) {C : Type} (r r1 : ArenaReader) (c : C)
    (body : ArenaReader → Except Error (C × ArenaReader))
    (h : (do
      let (x, ar1) ← body r
      if ext.isValid ar1.protocolVersion then pure (x, ar1)
      else throw Error.internal_error) = .ok (c, r1)) :
    ext.isValid r1.protocolVersion = true ∧ body r = .ok (c, r1) := by
  simp only [bind, Except.bind] at h
  cases h1 : body r with
  | error e => simp [h1] at h
  | ok y =>
    obtain ⟨x, ra⟩ := y
    simp only [h1] at h
    obtain ⟨hc, he⟩ := check_ok_inv _ _ _ h
    simp only [Prod.mk.injEq] at he
    obtain ⟨he1, he2⟩ := he
    subst he1 he2
    exact ⟨hc, rfl⟩

/-! ## C23: which operations assert the validity of the ambient version -/

/-- C23 (as amended): every composite `save`/`load` of `serialize.h` that ends in
`ASSERT(ar.protocolVersion().isValid())` (strings, vectors, arrays, sets, maps
and the primary `Serializer` template of classes) completes only with a valid
ambient version, so on an archive whose ambient version is invalid none of them
completes when the nested operations keep the ambient version, and a string
`save` with room in the writer fails exactly that assertion; the
binary-serializable scalars are copied raw without any validity check and are
encoded and decoded whatever the ambient version. -/
theorem validity_assertion (ext : Externals) :
    (∀ (w w1 : BinaryWriter) (s : List Nat), save_string ext w s = .ok w1 →
      ext.isValid w1.protocolVersion = true ∧ ext.isValid w.protocolVersion = true) ∧
    (∀ (r r1 : ArenaReader) (s0 s : List Nat), load_string ext r s0 = .ok (s, r1) →
      ext.isValid r1.protocolVersion = true ∧ ext.isValid r.protocolVersion = true) ∧
    (∀ (w : BinaryWriter) (s : List Nat), w.wf → ext.isValid w.protocolVersion = false →
      w.size + 4 + s.length ≤ 2147483647 → save_string ext w s = .error .internal_error) ∧
    (∀ (T : Type) (S : Serializer T) (w w1 : BinaryWriter) (v : List T),
      (save_vector ext S w v = .ok w1 ∨ save_array ext S w v = .ok w1 ∨
        save_set ext S w v = .ok w1) →
      ext.isValid w1.protocolVersion = true ∧
        (KeepsVersion S → ext.isValid w.protocolVersion = true)) ∧
    (∀ (T : Type) [LinearOrder T] (S : Serializer T) (r r1 : ArenaReader) (v0 v : List T),
      (load_vector ext S r v0 = .ok (v, r1) ∨ load_array ext S r v0 = .ok (v, r1) ∨
        load_set ext S r v0 = .ok (v, r1)) →
      ext.isValid r1.protocolVersion = true ∧
        (KeepsVersion S → ext.isValid r.protocolVersion = true)) ∧
    (∀ (K V : Type) [LinearOrder K] (SK : Serializer K) (SV : Serializer V),
      (∀ (w w1 : BinaryWriter) (m : List (K × V)), save_map ext SK SV w m = .ok w1 →
        ext.isValid w1.protocolVersion = true ∧
          (KeepsVersion SK → KeepsVersion SV → ext.isValid w.protocolVersion = true)) ∧
      (∀ (r r1 : ArenaReader) (m0 m : List (K × V)), load_map ext SK SV r m0 = .ok (m, r1) →
        ext.isValid r1.protocolVersion = true ∧
          (KeepsVersion SK → KeepsVersion SV → ext.isValid r.protocolVersion = true))) ∧
    (∀ (T : Type) (S : Serializer T),
      (∀ (w w1 : BinaryWriter) (x : T), (classSerializer ext S).save w x = .ok w1 →
        ext.isValid w1.protocolVersion = true ∧
          (KeepsVersion S → ext.isValid w.protocolVersion = true)) ∧
      (∀ (r r1 : ArenaReader) (x0 x : T), (classSerializer ext S).load r x0 = .ok (x, r1) →
        ext.isValid r1.protocolVersion = true ∧
          (KeepsVersion S → ext.isValid r.protocolVersion = true))) ∧
    (∀ (T : Type) (B : BinarySerializable T) (i x : T) (w : BinaryWriter), w.wf →
      w.size + (B.toRaw x).length ≤ 2147483647 →
      ∃ w1, (binarySerializer ext B i).save w x = .ok w1 ∧
        w1.toValue = w.toValue ++ B.toRaw x) ∧
    (∀ (T : Type) (B : BinarySerializable T) (i x0 : T) (r : ArenaReader) (raw rest : List Nat),
      r.wf → raw.length = B.sizeOf → r.input.drop r.begin = raw ++ rest →
      (binarySerializer ext B i).load r x0 =
        .ok (B.ofRaw raw, { r with begin := r.begin + raw.length })) := by
  have tr : ∀ (a b : ProtocolVersion), ext.isValid a = true → a = b → ext.isValid b = true :=
    fun a b h e => e ▸ h
  refine ⟨?_, ?_, ?_, ?_, ?_, ?_, ?_, ?_, ?_⟩
  · intro w w1 s h
    obtain ⟨h1, h2⟩ := save_string_inv ext w w1 s h
    exact ⟨h1, tr _ _ h1 h2⟩
  · intro r r1 s0 s h
    obtain ⟨h1, h2⟩ := load_string_inv ext r r1 s0 s h
    exact ⟨h1, tr _ _ h1 h2⟩
  · intro w s hw hv hroom
    exact save_string_invalid ext w s hw hv hroom
  · intro T S w w1 v h
    rcases h with h | h | h
    · obtain ⟨h1, h2⟩ := counted_save_inv ext v.length w w1 (fun a => saveEach S a v) h
      exact ⟨h1, fun hS => tr _ _ h1 (h2 (fun a b => saveEach_version S hS v a b))⟩
    · obtain ⟨h1, h2⟩ := checked_save_inv ext w w1 (fun a => saveEach S a v) h
      exact ⟨h1, fun hS => tr _ _ h1 (saveEach_version S hS v w w1 h2)⟩
    · obtain ⟨h1, h2⟩ := counted_save_inv ext v.length w w1 (fun a => saveEach S a v) h
      exact ⟨h1, fun hS => tr _ _ h1 (h2 (fun a b => saveEach_version S hS v a b))⟩
  · intro T _ S r r1 v0 v h
    rcases h with h | h | h
    · obtain ⟨h1, h2⟩ := load_vector_inv ext S r r1 v0 v h
      exact ⟨h1, fun hS => tr _ _ h1 (h2 hS)⟩
    · obtain ⟨h1, h2⟩ := checked_load_inv ext r r1 v (fun a => loadOver S a v0) h
      exact ⟨h1, fun hS => tr _ _ h1 (loadOver_version S hS v0 r r1 v h2)⟩
    · obtain ⟨h1, h2⟩ := counted_load_inv ext r r1 v
        (fun n a => loadInsertEach S n a S.init []) h
      exact ⟨h1, fun hS => tr _ _ h1
        (h2 (fun n a b x => loadInsertEach_version S hS n a b _ _ x))⟩
  · intro K V _ SK SV
    constructor
    · intro w w1 m h
      obtain ⟨h1, h2⟩ := counted_save_inv ext m.length w w1 (fun a => saveEachEntry SK SV a m) h
      exact ⟨h1, fun hK hV => tr _ _ h1
        (h2 (fun a b => saveEachEntry_version SK SV hK hV m a b))⟩
    · intro r r1 m0 m h
      obtain ⟨h1, h2⟩ := counted_load_inv ext r r1 m
        (fun n a => loadEmplaceEach SK SV n a []) h
      exact ⟨h1, fun hK hV => tr _ _ h1
        (h2 (fun n a b x => loadEmplaceEach_version SK SV hK hV n a b _ x))⟩
  · intro T S
    constructor
    · intro w w1 x h
      obtain ⟨h1, h2⟩ := checked_save_inv ext w w1 (fun a => S.save a x) h
      exact ⟨h1, fun hS => tr _ _ h1 (hS.1 w x w1 h2)⟩
    · intro r r1 x0 x h
      obtain ⟨h1, h2⟩ := checked_load_inv ext r r1 x (fun a => S.load a x0) h
      exact ⟨h1, fun hS => tr _ _ h1 (hS.2 r x0 x r1 h2)⟩
  · intro T B i x w hw hroom
    obtain ⟨w1, e1, a1⟩ := BinaryWriter.serializeBinaryItem_ok ext w (B.toRaw x) hw hroom
    exact ⟨w1, e1, a1.2.1⟩
  · intro T B i x0 r raw rest hr hlen h
    exact binary_load_ok ext B i x0 r raw rest hr hlen h

/-- C23 as stated fails: on archives whose ambient version is the invalid
version 0, the `uint32_t` 300 is encoded to its 4 raw bytes and decoded from
them without any assertion failing. -/
theorem validity_assertion_counterexample :
    exampleExternals.isValid ⟨0⟩ = false ∧
      ((binarySerializer exampleExternals uint32_t 0).save
        { exampleWriter with m_protocolVersion := ⟨0⟩ } 300).map BinaryWriter.toValue =
          .ok [44, 1, 0, 0] ∧
      (binarySerializer exampleExternals uint32_t 0).load
        { input := [44, 1, 0, 0], begin := 0, check := none, m_protocolVersion := ⟨0⟩ } 0 =
          .ok (300,
            { input := [44, 1, 0, 0], begin := 4, check := none, m_protocolVersion := ⟨0⟩ }) :=
  ⟨by decide, rfl, rfl⟩

end Flow
